import Mathlib

/-!
# A shallow embedding of the wfs file system (`mkfs.c`, `wfs.c`)

The daemon keeps every disk image memory-mapped; disk 0 (`memStart`) is the
image every handler reads its metadata from, the other images only receive
copies.  The embedding keeps, for every disk, the superblock, the two bitmaps
(as bytes), the inode table (one record per inode block) and the bytes of the
data region (by absolute byte offset into the image).

Conventions.
* C `int`, `off_t` and `time_t` values that the code can make negative are `Int`;
  sizes, indices into tables and byte addresses are `Nat`.
* A handler returns `none` when the C code would leave the part of the image
  that the embedding describes (an inode index outside the inode table, an
  index outside `blocks[]`, a byte access outside the data region, a string
  that lost its terminator).  Every other outcome is `some`.
* `time(NULL)` is the argument `clock`: `clock k` is what the `k`-th call of
  `time` inside the handler invocation returns; `getuid()`/`getgid()` are the
  arguments `uid` and `gid`.
* `wfs.h` is not among the sources.  `IND_BLOCK` (the index of the indirect
  pointer in `blocks[]`) and `SB_SIZE` (`sizeof(struct wfs_sb)`) are parameters.
-/

namespace Wfs

/-! ## Constants -/

/-- Modelled from the spec: `BLOCK_SIZE` of the missing `wfs.h`
("a fixed power-of-two block size (commonly 512)"). -/
def BLOCK_SIZE : Nat := 512

/-- Modelled from the spec: `MAX_NAME` of the missing `wfs.h`
("a fixed name length (commonly 28)"). -/
def MAX_NAME : Nat := 28

/-- Modelled from the spec: `sizeof(struct wfs_dentry)`, a directory entry is
`name[MAX_NAME]` followed by the `int` inode index `num`. -/
def DENTRY_SIZE : Nat := MAX_NAME + 4

/-- Modelled from the spec: `sizeof(off_t)`, the width of one slot of an indirect block. -/
def OFF_SIZE : Nat := 8

/-- The value of `S_IFDIR` (octal 040000). -/
def S_IFDIR : Nat := 16384

/-- The value of `S_IFREG` (octal 0100000). -/
def S_IFREG : Nat := 32768

def ENOENT : Int := 2
def EBADF : Int := 9
def EEXIST : Int := 17
def ENOSPC : Int := 28
def ENOTEMPTY : Int := 39
def OK : Int := 0

/-! ## Machine integers -/

/-- Conversion of a value to C `int` (two's complement, 32 bits). -/
def wrap32 (x : Int) : Int := (x + 2147483648) % 4294967296 - 2147483648

/-- C division of a signed value by a positive constant (rounds toward zero). -/
def cdiv (a : Int) (b : Nat) : Int := if 0 ≤ a then a / (b : Int) else -((-a) / (b : Int))

/-- C remainder of a signed value by a positive constant (sign of the dividend). -/
def cmod (a : Int) (b : Nat) : Int := if 0 ≤ a then a % (b : Int) else -((-a) % (b : Int))

/-- The four bytes of an `int`, little endian. -/
def encode32 (v : Int) : List Nat :=
  let u := (v % 4294967296).toNat
  [u % 256, u / 256 % 256, u / 65536 % 256, u / 16777216 % 256]

/-- The `int` held by four little-endian bytes. -/
def decode32 (bs : List Nat) : Int :=
  let u := bs.getD 0 0 + 256 * bs.getD 1 0 + 65536 * bs.getD 2 0 + 16777216 * bs.getD 3 0
  if u < 2147483648 then (u : Int) else (u : Int) - 4294967296

/-- The eight bytes of an `off_t` block offset, little endian. -/
def encode64 (v : Nat) : List Nat :=
  (List.range 8).map (fun i => v / 256 ^ i % 256)

/-- The block offset held by eight little-endian bytes (read as unsigned). -/
def decode64 (bs : List Nat) : Nat :=
  ((List.range 8).map (fun i => bs.getD i 0 * 256 ^ i)).sum

/-! ## Bitmaps (`findAndAllocFromMap`, `freeBitFromMap`) -/

/-- The bit `(*byte_off >> bit_off) & 1` of bit index `i` of a byte-packed bitmap. -/
def bitOf (bitmap : Nat → Nat) (i : Nat) : Nat := (bitmap (i / 8) >>> (i % 8)) &&& 1

/-- Function update at one index (a store to one cell). -/
def upd {α : Type} (f : Nat → α) (i : Nat) (v : α) : Nat → α :=
  fun j => if j = i then v else f j

/-- The statement `*byte_off |= 1 << bit_off` for bit index `i`. -/
def setBit (bitmap : Nat → Nat) (i : Nat) : Nat → Nat :=
  upd bitmap (i / 8) (bitmap (i / 8) ||| (1 <<< (i % 8)))

/-- The loop of `findAndAllocFromMap` from index `i` on, `fuel` iterations left. -/
def findAndAllocLoop (bitmap : Nat → Nat) (len : Nat) : Nat → Nat → Int × (Nat → Nat)
  | 0, _ => (-1, bitmap)
  | fuel + 1, i =>
    if i < len then
      if bitOf bitmap i = 0 then ((i : Int), setBit bitmap i)
      else findAndAllocLoop bitmap len fuel (i + 1)
    else (-1, bitmap)

/-- `findAndAllocFromMap(bitmap, len)`: the returned index (or -1) and the bitmap afterwards. -/
def findAndAllocFromMap (bitmap : Nat → Nat) (len : Nat) : Int × (Nat → Nat) :=
  findAndAllocLoop bitmap len len 0

/-- `freeBitFromMap(bitmap, index)`: `*byte_off &= ~(1 << bit_off)` on a byte. -/
def freeBitFromMap (bitmap : Nat → Nat) (index : Nat) : Nat → Nat :=
  upd bitmap (index / 8) (bitmap (index / 8) &&& (255 - (1 <<< (index % 8))))

/-! ## The on-disk state -/

/-- The superblock (`struct wfs_sb`). -/
structure wfs_sb where
  num_inodes : Nat
  num_data_blocks : Nat
  i_bitmap_ptr : Nat
  d_bitmap_ptr : Nat
  i_blocks_ptr : Nat
  d_blocks_ptr : Nat
  raid_mode : Int
  disk_count : Int
deriving DecidableEq

/-- One inode block (`struct wfs_inode`; the rest of the block is never written
except by whole-block `memset`/`memcpy`). -/
structure wfs_inode where
  num : Int
  mode : Nat
  uid : Nat
  gid : Nat
  size : Int
  nlinks : Int
  atim : Int
  mtim : Int
  ctim : Int
  blocks : List Nat
deriving DecidableEq

/-- An inode block after `memset(…, 0, BLOCK_SIZE)`. -/
def zeroInode (IND_BLOCK : Nat) : wfs_inode :=
  { num := 0, mode := 0, uid := 0, gid := 0, size := 0, nlinks := 0,
    atim := 0, mtim := 0, ctim := 0, blocks := List.replicate (IND_BLOCK + 1) 0 }

/-- The assignment `inode->blocks[j] = v`. -/
def wfs_inode.setBlock (i : wfs_inode) (j v : Nat) : wfs_inode :=
  { i with blocks := List.set i.blocks j v }

/-- One mapped disk image. `imap`/`dmap` give the bytes of the two bitmaps,
`inodes` the inode table, `mem` the bytes of the image by absolute offset
(meaningful inside the data region). -/
structure Disk where
  sb : wfs_sb
  imap : Nat → Nat
  dmap : Nat → Nat
  inodes : Nat → wfs_inode
  mem : Nat → Nat

/-- The disk set: `d0` is `disk_maps[0]` (`memStart`), `rest` are `disk_maps[1..]`. -/
structure FS where
  d0 : Disk
  rest : List Disk

/-- The global `disk_count`. -/
def FS.disk_count (s : FS) : Nat := s.rest.length + 1

/-- All mapped images, `disk_maps[0..disk_count-1]`. -/
def FS.disks (s : FS) : List Disk := s.d0 :: s.rest

/-- The global `iCount`. -/
def FS.iCount (s : FS) : Nat := s.d0.sb.num_inodes

/-- The global `dCount`. -/
def FS.dCount (s : FS) : Nat := s.d0.sb.num_data_blocks

/-- End of the data region. -/
def FS.dataEnd (s : FS) : Nat := s.d0.sb.d_blocks_ptr + s.d0.sb.num_data_blocks * BLOCK_SIZE

/-- The byte range `[a, a+len)` lies in the data region; gives the address. -/
def FS.addr (s : FS) (a : Int) (len : Nat) : Option Nat :=
  if (s.d0.sb.d_blocks_ptr : Int) ≤ a ∧ a + len ≤ s.dataEnd then some a.toNat else none

/-! ## Byte memory -/

/-- The `len` bytes at `a`. -/
def memLoad (m : Nat → Nat) (a len : Nat) : List Nat :=
  (List.range len).map (fun i => m (a + i))

/-- A `memcpy` of the bytes `src` to address `a`. -/
def memStore (m : Nat → Nat) (a : Nat) (src : List Nat) : Nat → Nat :=
  fun x => if a ≤ x ∧ x < a + src.length then src.getD (x - a) 0 else m x

/-- A `memcpy(dst + a, src + a, len)` between two images. -/
def memCopy (dst src : Nat → Nat) (a len : Nat) : Nat → Nat :=
  fun x => if a ≤ x ∧ x < a + len then src x else dst x

/-- The call `memset(m + a, 0, len)`. -/
def memZero (m : Nat → Nat) (a len : Nat) : Nat → Nat :=
  fun x => if a ≤ x ∧ x < a + len then 0 else m x

/-- The call `memcmp(m1 + a, m2 + a, len) == 0`. -/
def memEq (m1 m2 : Nat → Nat) (a len : Nat) : Bool :=
  (List.range len).all (fun i => m1 (a + i) == m2 (a + i))

/-- The inode block at index `idx` of disk 0, `inodeStart + idx * BLOCK_SIZE`. -/
def FS.inodeAt (s : FS) (idx : Int) : Option wfs_inode :=
  if 0 ≤ idx ∧ idx < s.iCount then some (s.d0.inodes idx.toNat) else none

/-- Store to the inode block `idx` of disk 0. -/
def FS.setInode (s : FS) (idx : Nat) (v : wfs_inode) : FS :=
  { s with d0 := { s.d0 with inodes := upd s.d0.inodes idx v } }

/-- Store of bytes into the image of disk 0. -/
def FS.store0 (s : FS) (a : Nat) (src : List Nat) : FS :=
  { s with d0 := { s.d0 with mem := memStore s.d0.mem a src } }

/-- Read-modify-write of one inode block of disk 0. -/
def FS.modInode (s : FS) (idx : Nat) (f : wfs_inode → wfs_inode) : FS :=
  s.setInode idx (f (s.d0.inodes idx))

/-- A `memcpy` of the first `n` bytes of a bitmap. -/
def mapCopy (dst src : Nat → Nat) (n : Nat) : Nat → Nat :=
  fun j => if j < n then src j else dst j

/-! ## Replication helpers -/

/-- `replicate_dataMap()`. -/
def replicate_dataMap (s : FS) : FS :=
  { s with rest := s.rest.map (fun d =>
      { d with dmap := mapCopy d.dmap s.d0.dmap (s.d0.sb.num_data_blocks / 8) }) }

/-- The inode-bitmap copy `memcpy(disk_maps[d] + inodeMapOffset, …, iCount / 8)`. -/
def replicate_inodeMap (s : FS) : FS :=
  { s with rest := s.rest.map (fun d =>
      { d with imap := mapCopy d.imap s.d0.imap (s.iCount / 8) }) }

/-- `replicate_block(blockAddr)` for an address inside the data region. -/
def replicate_block (s : FS) (blockAddr : Nat) : FS :=
  { s with rest := s.rest.map (fun d =>
      { d with mem := memCopy d.mem s.d0.mem blockAddr BLOCK_SIZE }) }

/-- `replicate_inode(inode)` for the inode block with index `idx`. -/
def replicate_inode (s : FS) (idx : Nat) : FS :=
  { s with rest := s.rest.map (fun d =>
      { d with inodes := upd d.inodes idx (s.d0.inodes idx) }) }

/-! ## Paths -/

/-- The tokens that `strtok(dup, "/")` returns one after another (`cur` is the
token being read, reversed). -/
def strtokAux : List Nat → List Nat → List (List Nat)
  | [], cur => if cur = [] then [] else [cur.reverse]
  | c :: cs, cur =>
    if c = 47 then
      (if cur = [] then strtokAux cs [] else cur.reverse :: strtokAux cs [])
    else strtokAux cs (c :: cur)

/-- The components of a path, as `strtok` with delimiter `/` yields them. -/
def strtok (path : List Nat) : List (List Nat) := strtokAux path []

/-- The loop `for (i = len-1; i >= 0; i--)` of `parseParentChild` looking for
`'/'`; the argument is `i + 1`. -/
def lastSlash (copy : List Nat) : Nat → Option Nat
  | 0 => none
  | i + 1 => if copy.getD i 0 = 47 then some i else lastSlash copy i

/-- `parseParentChild(path, child, parent)`: the bytes that `strncpy` copied
into `child` and into `parent` (at most `MAX_NAME` each; a buffer that received
`MAX_NAME` bytes has no terminator). -/
def parseParentChild (path : List Nat) : List Nat × List Nat :=
  match lastSlash path path.length with
  | none => ([], [])
  | some i =>
    if i = path.length - 1 then ([], [])
    else ((path.drop (i + 1)).take MAX_NAME, (path.take i).take MAX_NAME)

/-- The `MAX_NAME` bytes that `strncpy(loc->name, name, MAX_NAME)` writes. -/
def padName (name : List Nat) : List Nat :=
  name.take MAX_NAME ++ List.replicate (MAX_NAME - name.length) 0

/-- One byte of disk 0 inside the data region. -/
def FS.load (s : FS) (a : Nat) : Option Nat :=
  (s.addr a 1).map (fun a => s.d0.mem a)

/-- `strcmp(memStart + a, str) == 0`, where `cstr` is `str` with its terminator. -/
def strcmpEq (s : FS) : Nat → List Nat → Option Bool
  | _, [] => some true
  | a, c :: cs => do
    let b ← s.load a
    if b ≠ c then some false
    else if c = 0 then some true
    else strcmpEq s (a + 1) cs

/-- The inner loop of `parsePath` over the entries of one directory block:
`n` is the number of slots not yet visited, `entries` the address of the
current slot.  Result: the `num` of the matching entry, if any. -/
def scanEntries (s : FS) (cstr : List Nat) : Nat → Nat → Option (Option Int)
  | n, entries => do
    let b ← s.load entries
    if b = 0 then some none
    else match n with
      | 0 => some none
      | n + 1 => do
        let eq ← strcmpEq s entries cstr
        if eq then do
          let a ← s.addr (entries + MAX_NAME : Nat) 4
          some (some (decode32 (memLoad s.d0.mem a 4)))
        else scanEntries s cstr n (entries + DENTRY_SIZE)

/-- The loop of `parsePath` over the direct blocks of `curr`: `k` is
`IND_BLOCK - blockIter`. -/
def scanBlocks (s : FS) (curr : wfs_inode) (cstr : List Nat) : Nat → Nat → Option (Option Int)
  | k, blockIter => do
    let p ← curr.blocks[blockIter]?
    if p = 0 then some none
    else match k with
      | 0 => some none
      | k + 1 => do
        let r ← scanEntries s cstr (BLOCK_SIZE / DENTRY_SIZE) p
        match r with
        | some n => some (some n)
        | none => scanBlocks s curr cstr k (blockIter + 1)

/-- The loop `while (tok)` of `parsePath`. -/
def parsePathLoop (IND_BLOCK : Nat) (s : FS) : List (List Nat) → Int → Option Int
  | [], iNodeIndex => some iNodeIndex
  | tok :: toks, iNodeIndex => do
    let curr ← s.inodeAt iNodeIndex
    if curr.mode &&& S_IFDIR = 0 then some (-1)
    else do
      let r ← scanBlocks s curr (tok ++ [0]) IND_BLOCK 0
      match r with
      | none => some (-1)
      | some n => parsePathLoop IND_BLOCK s toks n

/-- `parsePath(path)`: the inode index, or -1. -/
def parsePath (IND_BLOCK : Nat) (s : FS) (path : List Nat) : Option Int :=
  parsePathLoop IND_BLOCK s (strtok path) 0

/-- The index `idx` lies in the inode table. -/
def FS.inodeIdx (s : FS) (idx : Int) : Option Nat :=
  if 0 ≤ idx ∧ idx < s.iCount then some idx.toNat else none

/-- An index into `blocks[]`. -/
def blockIdx (IND_BLOCK : Nat) (i : Int) : Option Nat :=
  if 0 ≤ i ∧ i ≤ IND_BLOCK then some i.toNat else none

/-! ## `wfs_getattr` -/

/-- The fields of `struct stat` that `wfs_getattr` fills. -/
structure Stat where
  st_uid : Nat
  st_gid : Nat
  st_mode : Nat
  st_nlink : Int
  st_atim : Int
  st_ctim : Int
  st_mtim : Int
  st_size : Int
  st_ino : Int
deriving DecidableEq

/-- The assignments to `stbuf` from an inode.  `st_nlink` (`nlink_t`) and
`st_ino` (`ino_t`) are unsigned and 64 bits wide, so the `int` values `nlinks`
and `num` are converted modulo `2 ^ 64`: a negative count is stored as a large
positive one. -/
def statOf (inode : wfs_inode) : Stat :=
  { st_uid := inode.uid, st_gid := inode.gid, st_mode := inode.mode,
    st_nlink := inode.nlinks % 18446744073709551616, st_atim := inode.atim,
    st_ctim := inode.ctim, st_mtim := inode.mtim, st_size := inode.size,
    st_ino := inode.num % 18446744073709551616 }

/-- `wfs_getattr(path, stbuf)`: return value, `stbuf` afterwards, state afterwards. -/
def wfs_getattr (IND_BLOCK : Nat) (s : FS) (path : List Nat) (stbuf : Stat)
    (clock : Nat → Int) : Option (Int × Stat × FS) := do
  let inodeIndex ← parsePath IND_BLOCK s path
  if inodeIndex < 0 then some (-ENOENT, stbuf, s)
  else do
    let idx ← s.inodeIdx inodeIndex
    let s1 := s.modInode idx (fun i => { i with atim := clock 0 })
    let s2 := if s1.disk_count > 1 ∧ s1.d0.sb.raid_mode = 1 then replicate_inode s1 idx else s1
    some (OK, statOf (s2.d0.inodes idx), s2)

/-- Allocation of a data block, `findAndAllocFromMap(dataMap, dCount)`: the
block offset `sb->d_blocks_ptr + BLOCK_SIZE * ind` and the state; `none`
stands for `ind < 0`. -/
def allocData (s : FS) : Option (Nat × FS) :=
  let dalloc := findAndAllocFromMap s.d0.dmap s.dCount
  if dalloc.1 < 0 then none
  else
    let s1 : FS := { s with d0 := { s.d0 with dmap := dalloc.2 } }
    some (s.d0.sb.d_blocks_ptr + BLOCK_SIZE * dalloc.1.toNat, s1)

/-! ## `wfs_mknod` -/

/-- The replication block at the end of `wfs_mknod` (`if (disk_count > 1)`). -/
def mknodReplicate (s : FS) (parentIdx childIdx : Nat) (dirBlockOff : Nat) : Option FS :=
  if s.disk_count > 1 then do
    let a ← s.addr dirBlockOff BLOCK_SIZE
    let s1 := replicate_inodeMap s
    let s2 := if s1.d0.sb.raid_mode = 1 then replicate_dataMap s1 else s1
    let s3 := replicate_inode s2 parentIdx
    let s4 := replicate_block s3 a
    some (replicate_inode s4 childIdx)
  else some s

/-- The part of `wfs_mknod` that finds the place of the new entry in the
parent `pidx`: the times of the parent are set and a directory block is
allocated when `size` is at a block boundary of an unallocated block.  The
result is the state and `some (blockNum, off)`, or `none` for the two
`-ENOSPC` exits (before `freeBitFromMap`). -/
def mknodDirSlot (IND_BLOCK : Nat) (s : FS) (pidx : Nat) (clock : Nat → Int) :
    Option (FS × Option (Nat × Int)) := do
  let size0 := (s.d0.inodes pidx).size
  let blockNum := wrap32 (cdiv size0 BLOCK_SIZE)
  let off := wrap32 (cmod size0 BLOCK_SIZE)
  let s2 := s.modInode pidx (fun i => { i with mtim := clock 0, atim := clock 1 })
  let bn ← blockIdx IND_BLOCK blockNum
  let p0 ← (s2.d0.inodes pidx).blocks[bn]?
  if off = 0 ∧ p0 = 0 then
    if blockNum = IND_BLOCK then some (s2, none)
    else
      match allocData s2 with
      | none => some (s2, none)
      | some (p, s3) => some (s3.modInode pidx (fun i => i.setBlock bn p), some (bn, off))
  else some (s2, some (bn, off))

/-- The part of `wfs_mknod` that writes the entry into the directory block
`blocks[bn]` at `off`, initialises the inode block `index` and replicates. -/
def mknodFill (s : FS) (pidx index : Nat) (bn : Nat) (off : Int) (name : List Nat)
    (mode uid gid : Nat) (clock : Nat → Int) : Option FS := do
  let p ← (s.d0.inodes pidx).blocks[bn]?
  let loc ← s.addr ((p : Int) + off) DENTRY_SIZE
  let s4 := s.store0 loc (padName name ++ encode32 index)
  let s5 := s4.modInode pidx
    (fun i => { i with mtim := clock 2, size := i.size + DENTRY_SIZE })
  let s6 := s5.modInode index (fun i =>
    { i with num := index, mode := mode, uid := uid, gid := gid, size := 0,
             nlinks := 1, atim := clock 3, mtim := clock 3, ctim := clock 3 })
  let s7 := if mode &&& S_IFDIR ≠ 0 then
    s6.modInode pidx (fun i => { i with nlinks := i.nlinks + 1 }) else s6
  let dirBlockOff ← (s7.d0.inodes pidx).blocks[bn]?
  mknodReplicate s7 pidx index dirBlockOff

/-- The part of `wfs_mknod` after the inode bit `index` has been allocated
(`s` is the state with the bit set): return value and state. -/
def mknodAddEntry (IND_BLOCK : Nat) (s : FS) (pidx index : Nat) (name : List Nat)
    (mode uid gid : Nat) (clock : Nat → Int) : Option (Int × FS) := do
  let r ← mknodDirSlot IND_BLOCK s pidx clock
  match r.2 with
  | none =>
    some (-ENOSPC, { r.1 with d0 := { r.1.d0 with imap := freeBitFromMap r.1.d0.imap index } })
  | some (bn, off) => do
    let s8 ← mknodFill r.1 pidx index bn off name mode uid gid clock
    some (OK, s8)

/-- `wfs_mknod(path, mode, rdev)`: return value and state afterwards. -/
def wfs_mknod (IND_BLOCK : Nat) (s : FS) (path : List Nat) (mode : Nat)
    (uid gid : Nat) (clock : Nat → Int) : Option (Int × FS) := do
  let r ← parsePath IND_BLOCK s path
  if r ≥ 0 then some (-EEXIST, s)
  else
    let name := (parseParentChild path).1
    let parentPath := (parseParentChild path).2
    if name = [] then some (-EBADF, s)
    else if MAX_NAME ≤ parentPath.length then none
    else do
      let parentInodeIndex ← parsePath IND_BLOCK s parentPath
      if parentInodeIndex < 0 then some (-ENOENT, s)
      else
        let alloc := findAndAllocFromMap s.d0.imap s.iCount
        if alloc.1 < 0 then some (-ENOSPC, s)
        else do
          let s1 : FS := { s with d0 := { s.d0 with imap := alloc.2 } }
          let pidx ← s1.inodeIdx parentInodeIndex
          mknodAddEntry IND_BLOCK s1 pidx alloc.1.toNat name mode uid gid clock

/-- `wfs_mkdir(path, mode)`. -/
def wfs_mkdir (IND_BLOCK : Nat) (s : FS) (path : List Nat) (mode : Nat)
    (uid gid : Nat) (clock : Nat → Int) : Option (Int × FS) :=
  wfs_mknod IND_BLOCK s path (mode ||| S_IFDIR) uid gid clock

/-! ## `wfs_read` -/

/-- The outer voting loop of `wfs_read` over the block copies `blockBuf[d..]`:
for disk `d` the inner loop counts the later disks with equal bytes. -/
def voteLoop : List (List Nat) → Nat → Nat → Nat → Nat
  | [], _, bestDisk, _ => bestDisk
  | b :: later, d, bestDisk, bestCount =>
    let count := 1 + (later.filter (fun b2 => b == b2)).length
    if count > bestCount then voteLoop later (d + 1) d count
    else if count = bestCount ∧ d < bestDisk then voteLoop later (d + 1) d bestCount
    else voteLoop later (d + 1) bestDisk bestCount

/-- The disk that the majority voting of `wfs_read` selects. -/
def bestDisk (blockBuf : List (List Nat)) : Nat := voteLoop blockBuf 0 0 1

/-- The repair loop of `wfs_read` over the disks `d, d+1, …`. -/
def repairLoop (best : Nat) (bestBuf : List Nat) (blockAddr : Nat) : Nat → List Disk → List Disk
  | _, [] => []
  | d, dk :: dks =>
    (if d ≠ best ∧ bestBuf ≠ memLoad dk.mem blockAddr BLOCK_SIZE then
       { dk with mem := memStore dk.mem blockAddr bestBuf }
     else dk) :: repairLoop best bestBuf blockAddr (d + 1) dks

/-- Reading the block at `blockAddr` from all disks, voting and repairing:
the state afterwards and the bytes of the winning copy. -/
def voteAndRepair (s : FS) (blockAddr : Nat) : FS × List Nat :=
  let blockBuf := s.disks.map (fun d => memLoad d.mem blockAddr BLOCK_SIZE)
  let best := bestDisk blockBuf
  let bestBuf := blockBuf.getD best []
  match repairLoop best bestBuf blockAddr 0 s.disks with
  | d0 :: rest => ({ d0 := d0, rest := rest }, bestBuf)
  | [] => (s, bestBuf)

/-- The block offset `blockAddr` that one iteration of the loop of `wfs_read`
computes for `curOffset` (`some 0` stands for `break`). -/
def readBlockAddr (IND_BLOCK : Nat) (s : FS) (inode : wfs_inode) (curOffset : Nat) :
    Option Nat :=
  let blockIndex := wrap32 ((curOffset / BLOCK_SIZE : Nat) : Int)
  if blockIndex ≥ IND_BLOCK then do
    let ip ← inode.blocks[IND_BLOCK]?
    if ip = 0 then some 0
    else do
      let a ← s.addr ((ip : Int) + OFF_SIZE * (blockIndex - IND_BLOCK)) OFF_SIZE
      some (decode64 (memLoad s.d0.mem a OFF_SIZE))
  else do
    let bi ← blockIdx IND_BLOCK blockIndex
    inode.blocks[bi]?

/-- The loop of `wfs_read`; the result is `bytesRead`, the bytes stored to
`buf[0..bytesRead)` and the state. -/
def readLoop (IND_BLOCK : Nat) (idx size offset : Nat) :
    Nat → FS → Nat → List Nat → Option (Nat × List Nat × FS)
  | 0, _, _, _ => none
  | fuel + 1, s, bytesRead, out =>
    let inode := s.d0.inodes idx
    if bytesRead < size ∧ ((bytesRead + offset : Nat) : Int) < inode.size then do
      let curOffset := bytesRead + offset
      let blockOff := curOffset % BLOCK_SIZE
      let blockAddr ← readBlockAddr IND_BLOCK s inode curOffset
      if blockAddr = 0 then some (bytesRead, out, s)
      else do
        let a ← s.addr blockAddr BLOCK_SIZE
        let vr := voteAndRepair s a
        let chunk0 := wrap32 ((size : Int) - bytesRead)
        let available : Int := BLOCK_SIZE - blockOff
        let chunk := if chunk0 > available then available else chunk0
        if chunk < 0 ∨ bytesRead + chunk ≥ 2147483648 then none
        else
          readLoop IND_BLOCK idx size offset fuel vr.1 (bytesRead + chunk.toNat)
            (out ++ (vr.2.drop blockOff).take chunk.toNat)
    else some (bytesRead, out, s)

/-- `wfs_read(path, buf, size, offset, fi)`: return value, the bytes stored
to the front of `buf`, state afterwards. -/
def wfs_read (IND_BLOCK : Nat) (s : FS) (path : List Nat) (size offset : Nat)
    (clock : Nat → Int) : Option (Int × List Nat × FS) := do
  let inodeIndex ← parsePath IND_BLOCK s path
  if inodeIndex < 0 then some (-ENOENT, [], s)
  else do
    let idx ← s.inodeIdx inodeIndex
    if (offset : Int) ≥ (s.d0.inodes idx).size then some (0, [], s)
    else do
      let s1 := s.modInode idx (fun i => { i with atim := clock 0 })
      let s2 := if s1.disk_count > 1 ∧ s1.d0.sb.raid_mode = 1 then replicate_inode s1 idx else s1
      let r ← readLoop IND_BLOCK idx size offset (size + 1) s2 0 []
      some ((r.1 : Int), r.2.1, r.2.2)

/-! ## `wfs_write` -/

/-- The statement `if (disk_count > 1 && sb->raid_mode == 1) replicate_dataMap();`. -/
def replicateMapIfMirror (s : FS) : FS :=
  if s.disk_count > 1 ∧ s.d0.sb.raid_mode = 1 then replicate_dataMap s else s

/-- The call `replicate_block(blockAddr)`: nothing is touched with one disk. -/
def replicateBlockAt (s : FS) (blockAddr : Nat) : Option FS :=
  if s.disk_count > 1 then (s.addr blockAddr BLOCK_SIZE).map (replicate_block s) else some s

/-- The statement `if (!inode->blocks[IND_BLOCK]) { … }` of the loop of
`wfs_write`: the state afterwards, or `none` for `break`. -/
def writeIndirectBlock (IND_BLOCK : Nat) (s : FS) (idx : Nat) : Option (Option FS) := do
  let ip0 ← (s.d0.inodes idx).blocks[IND_BLOCK]?
  if ip0 = 0 then
    match allocData s with
    | none => some none
    | some (p, s1) => do
      let s2 := s1.modInode idx (fun i => i.setBlock IND_BLOCK p)
      let s3 ← replicateBlockAt (replicateMapIfMirror s2) p
      some (some s3)
  else some (some s)

/-- The statements of the loop of `wfs_write` from `indirectBlock = …` to
`block = memStart + *actualBlockOff`: the state and `some (block, blockOff, slot)`
with the address `slot` of `actualBlockOff`, or `none` for `break`. -/
def writeIndirectSlot (IND_BLOCK : Nat) (s4 : FS) (idx : Nat) (byteIndex blockOff : Int) :
    Option (FS × Option (Nat × Int × Option Nat)) := do
  let ip ← (s4.d0.inodes idx).blocks[IND_BLOCK]?
  let slot ← s4.addr ((ip : Int) + OFF_SIZE * byteIndex) OFF_SIZE
  if decode64 (memLoad s4.d0.mem slot OFF_SIZE) = 0 then
    match allocData s4 with
    | none => some (s4, none)
    | some (p, s5) => do
      let s6 := replicateMapIfMirror (s5.store0 slot (encode64 p))
      let ip6 ← (s6.d0.inodes idx).blocks[IND_BLOCK]?
      let s7 ← replicateBlockAt s6 ip6
      some (s7, some (decode64 (memLoad s7.d0.mem slot OFF_SIZE), blockOff, some slot))
  else some (s4, some (decode64 (memLoad s4.d0.mem slot OFF_SIZE), blockOff, some slot))

/-- The `else` branch (`!useIndirect`) of the loop of `wfs_write`: the state
and `some (block, blockOff, none)`, or `none` for `break`. -/
def writeDirect (IND_BLOCK : Nat) (s : FS) (idx : Nat) (curOffset : Nat) :
    Option (FS × Option (Nat × Int × Option Nat)) := do
  let blockIndex := wrap32 ((curOffset / BLOCK_SIZE : Nat) : Int)
  let blockOff : Int := ((curOffset % BLOCK_SIZE : Nat) : Int)
  let bi ← blockIdx IND_BLOCK blockIndex
  let p0 ← (s.d0.inodes idx).blocks[bi]?
  if p0 = 0 then
    match allocData s with
    | none => some (s, none)
    | some (p, s1) =>
      let s2 := replicateMapIfMirror (s1.modInode idx (fun i => i.setBlock bi p))
      some (s2, some (p, blockOff, none))
  else some (s, some (p0, blockOff, none))

/-- The part of one iteration of the loop of `wfs_write` that finds (and
allocates) the block for `curOffset`: the state and `some (block, blockOff, slot)`,
or `none` for `break`.  `slot` is the address `actualBlockOff` of the indirect
slot when `useIndirect` holds. -/
def writeLocate (IND_BLOCK : Nat) (s : FS) (idx : Nat) (curOffset : Nat) :
    Option (FS × Option (Nat × Int × Option Nat)) :=
  if curOffset ≥ IND_BLOCK * BLOCK_SIZE then
    let indirectOff := wrap32 ((curOffset : Int) - (IND_BLOCK * BLOCK_SIZE : Nat))
    let byteIndex := wrap32 (cdiv indirectOff BLOCK_SIZE)
    let blockOff := wrap32 (cmod indirectOff BLOCK_SIZE)
    if byteIndex < 0 ∨ byteIndex ≥ (BLOCK_SIZE / OFF_SIZE : Nat) then some (s, none)
    else do
      let r1 ← writeIndirectBlock IND_BLOCK s idx
      match r1 with
      | none => some (s, none)
      | some s4 => writeIndirectSlot IND_BLOCK s4 idx byteIndex blockOff
  else writeDirect IND_BLOCK s idx curOffset

/-- The value `blockAddr` that `wfs_write` reads back after its `memcpy`:
`*actualBlockOff` or `inode->blocks[curOffset / BLOCK_SIZE]`. -/
def writeBlockAddr (IND_BLOCK : Nat) (s : FS) (idx : Nat) (curOffset : Nat) :
    Option Nat → Option Nat
  | some slot => some (decode64 (memLoad s.d0.mem slot OFF_SIZE))
  | none => do
    let bi ← blockIdx IND_BLOCK (wrap32 ((curOffset / BLOCK_SIZE : Nat) : Int))
    (s.d0.inodes idx).blocks[bi]?

/-- The call `replicate_partial_block(start, len, src)` with the bytes at `src`. -/
def replicate_partial_block (s : FS) (start : Int) (src : List Nat) : Option FS :=
  if s.disk_count > 1 then
    (s.addr start src.length).map (fun a =>
      { s with rest := s.rest.map (fun d => { d with mem := memStore d.mem a src }) })
  else some s

/-- The second half of one iteration of the loop of `wfs_write`, from
`int spaceInBlock = …` to `replicate_partial_block(…)`: the state and `toWrite`. -/
def writeChunk (IND_BLOCK : Nat) (s : FS) (idx : Nat) (buf : List Nat)
    (offset bytesWritten : Nat) (block : Nat) (blockOff : Int) (slot : Option Nat) :
    Option (FS × Nat) :=
  let spaceInBlock : Int := BLOCK_SIZE - blockOff
  let remain := wrap32 ((buf.length : Int) - bytesWritten)
  let toWrite := if remain < spaceInBlock then remain else spaceInBlock
  if toWrite < 0 ∨ bytesWritten + toWrite ≥ 2147483648 then none
  else do
    let a ← s.addr ((block : Int) + blockOff) toWrite.toNat
    let s1 := s.store0 a ((buf.drop bytesWritten).take toWrite.toNat)
    let blockAddr ← writeBlockAddr IND_BLOCK s1 idx (bytesWritten + offset) slot
    let s2 ← replicate_partial_block s1 ((blockAddr : Int) + blockOff)
      (memLoad s1.d0.mem a toWrite.toNat)
    some (s2, toWrite.toNat)

/-- The loop of `wfs_write`; the result is `bytesWritten` and the state. -/
def writeLoop (IND_BLOCK : Nat) (idx : Nat) (buf : List Nat) (offset : Nat) :
    Nat → FS → Nat → Option (Nat × FS)
  | 0, _, _ => none
  | fuel + 1, s, bytesWritten =>
    if bytesWritten < buf.length then do
      let r ← writeLocate IND_BLOCK s idx (bytesWritten + offset)
      match r.2 with
      | none => some (bytesWritten, r.1)
      | some (block, blockOff, slot) => do
        let c ← writeChunk IND_BLOCK r.1 idx buf offset bytesWritten block blockOff slot
        writeLoop IND_BLOCK idx buf offset fuel c.1 (bytesWritten + c.2)
    else some (bytesWritten, s)

/-- `wfs_write(path, buf, size, offset, fi)` with `size` the length of `buf`:
return value and state afterwards. -/
def wfs_write (IND_BLOCK : Nat) (s : FS) (path : List Nat) (buf : List Nat) (offset : Nat)
    (clock : Nat → Int) : Option (Int × FS) := do
  let inodeIndex ← parsePath IND_BLOCK s path
  if inodeIndex < 0 then some (-ENOENT, s)
  else do
    let idx ← s.inodeIdx inodeIndex
    let s1 := s.modInode idx (fun i => { i with atim := clock 0, mtim := clock 1 })
    let r ← writeLoop IND_BLOCK idx buf offset (buf.length + 1) s1 0
    let s2 := r.2.modInode idx (fun i => { i with size := i.size + r.1 })
    let s3 := replicate_inode s2 idx
    some (if r.1 ≠ 0 then (r.1 : Int) else -ENOSPC, s3)

/-! ## `handleRemove`, `wfs_unlink`, `wfs_rmdir` -/

/-- The loop `for (i = 0; i < BLOCK_SIZE / sizeof(struct wfs_dentry); i++)` of
`handleRemove` from slot `i` on (`n` slots left): the index of the first slot
whose name equals `curr`. -/
def findSlot (s : FS) (entries : Nat) (cstr : List Nat) : Nat → Nat → Option (Option Nat)
  | 0, _ => some none
  | n + 1, i => do
    let eq ← strcmpEq s (entries + i * DENTRY_SIZE) cstr
    if eq then some (some i) else findSlot s entries cstr n (i + 1)

/-- The loop of `handleRemove` that locates the directory entry: `k` is
`IND_BLOCK - blockIter`; the result is `(blockIter, index)`. -/
def findEntry (s : FS) (parent : wfs_inode) (cstr : List Nat) :
    Nat → Nat → Option (Option (Nat × Nat))
  | k, blockIter => do
    let p ← parent.blocks[blockIter]?
    if p = 0 then some none
    else match k with
      | 0 => some none
      | k + 1 => do
        let r ← findSlot s p cstr (BLOCK_SIZE / DENTRY_SIZE) 0
        match r with
        | some i => some (some (blockIter, i))
        | none => findEntry s parent cstr k (blockIter + 1)

/-- Zeroing and freeing one data block in `handleRemove`, with the copy to
the other disks in mirrored mode. -/
def freeDataBlock (s : FS) (dataBlockAddr : Nat) : Option FS := do
  let a ← s.addr dataBlockAddr BLOCK_SIZE
  let s1 : FS := { s with d0 := { s.d0 with
    mem := memZero s.d0.mem a BLOCK_SIZE,
    dmap := freeBitFromMap s.d0.dmap ((a - s.d0.sb.d_blocks_ptr) / BLOCK_SIZE) } }
  some (if s1.disk_count > 1 ∧ s1.d0.sb.raid_mode = 1 then replicate_block s1 a else s1)

/-- The loop of `handleRemove` over the slots `i, i+1, …` of the indirect
block at `ip` (`n` slots left). -/
def freeIndirectLoop (s : FS) (ip : Nat) : Nat → Nat → Option FS
  | 0, _ => some s
  | n + 1, i => do
    let slot ← s.addr ((ip : Int) + OFF_SIZE * i) OFF_SIZE
    let v := decode64 (memLoad s.d0.mem slot OFF_SIZE)
    let s1 ← (if v ≠ 0 then freeDataBlock s v else some s)
    freeIndirectLoop s1 ip n (i + 1)

/-- The loop of `handleRemove` over the direct pointers (given as a list). -/
def freeDirectLoop (s : FS) : List Nat → Option FS
  | [] => some s
  | p :: ps => do
    let s1 ← (if p ≠ 0 then freeDataBlock s p else some s)
    freeDirectLoop s1 ps

/-- The replication block at the end of `handleRemove` (`if (disk_count > 1)`). -/
def removeReplicate (IND_BLOCK : Nat) (s : FS) (pidx idx : Nat) (blockIter : Nat)
    (lastBlock : Int) : Option FS :=
  if s.disk_count > 1 then do
    let dirBlockOff ← (s.d0.inodes pidx).blocks[blockIter]?
    let lb ← blockIdx IND_BLOCK lastBlock
    let lastBlockOff ← (s.d0.inodes pidx).blocks[lb]?
    let a ← s.addr dirBlockOff BLOCK_SIZE
    let s1 := replicate_inodeMap s
    let s2 := if s1.d0.sb.raid_mode = 1 then replicate_dataMap s1 else s1
    let s3 := replicate_inode s2 pidx
    let s4 := replicate_block s3 a
    let s5 ← (if lastBlock ≠ blockIter then
        (s4.addr lastBlockOff BLOCK_SIZE).map (replicate_block s4) else some s4)
    some (replicate_inode s5 idx)
  else some s

/-- The part of `handleRemove` after the label `found`: the size of the parent
is decremented and the entry at `(blockIter, index)` is overwritten by the
last entry (or zeroed when it is the last).  Also gives `lastBlock`. -/
def removeDentry (IND_BLOCK : Nat) (s : FS) (pidx : Nat) (blockIter index : Nat) :
    Option (FS × Int) := do
  let s2 := s.modInode pidx (fun i => { i with size := i.size - DENTRY_SIZE })
  let size2 := (s2.d0.inodes pidx).size
  let lastBlock := wrap32 (cdiv size2 BLOCK_SIZE)
  let lastOffset := wrap32 (cmod size2 BLOCK_SIZE)
  let p ← (s2.d0.inodes pidx).blocks[blockIter]?
  let target ← s2.addr ((p : Int) + index * DENTRY_SIZE) DENTRY_SIZE
  if lastBlock = blockIter ∧ lastOffset = index * DENTRY_SIZE then
    some ({ s2 with d0 := { s2.d0 with mem := memZero s2.d0.mem target DENTRY_SIZE } }, lastBlock)
  else do
    let lb ← blockIdx IND_BLOCK lastBlock
    let lp ← (s2.d0.inodes pidx).blocks[lb]?
    let lastEntry ← s2.addr ((lp : Int) + lastOffset) DENTRY_SIZE
    let m1 := memStore s2.d0.mem target (memLoad s2.d0.mem lastEntry DENTRY_SIZE)
    some ({ s2 with d0 := { s2.d0 with mem := memZero m1 lastEntry DENTRY_SIZE } }, lastBlock)

/-- The part of `handleRemove` that frees the data blocks of inode `idx`
(indirect first, then direct), zeroes the inode block and clears its bit. -/
def freeInode (IND_BLOCK : Nat) (s : FS) (idx : Nat) : Option FS := do
  let ip ← (s.d0.inodes idx).blocks[IND_BLOCK]?
  let s4 ← (if ip ≠ 0 then do
      let t ← freeIndirectLoop s ip (BLOCK_SIZE / OFF_SIZE) 0
      freeDataBlock t ip
    else some s)
  let s5 ← freeDirectLoop s4 ((s4.d0.inodes idx).blocks.take IND_BLOCK)
  some { s5 with d0 := { s5.d0 with
    inodes := upd s5.d0.inodes idx (zeroInode IND_BLOCK),
    imap := freeBitFromMap s5.d0.imap idx } }

/-- The part of `handleRemove` from the entry search on, for the inode `idx`,
its parent `pidx` and the name `curr` (state `s` has the decremented link count). -/
def removeFound (IND_BLOCK : Nat) (s : FS) (idx pidx : Nat) (curr : List Nat) :
    Option (Int × FS) := do
  let found ← findEntry s (s.d0.inodes pidx) (curr ++ [0]) IND_BLOCK 0
  match found with
  | none => some (-ENOENT, s)
  | some (blockIter, index) => do
    let r ← removeDentry IND_BLOCK s pidx blockIter index
    let s6 ← freeInode IND_BLOCK r.1 idx
    let s7 ← removeReplicate IND_BLOCK s6 pidx idx blockIter r.2
    some (OK, s7)

/-- `handleRemove(path, isDir)`: return value and state afterwards. -/
def handleRemove (IND_BLOCK : Nat) (s : FS) (path : List Nat) (isDir : Bool) :
    Option (Int × FS) := do
  let inodeIndex ← parsePath IND_BLOCK s path
  if inodeIndex < 0 then some (-ENOENT, s)
  else do
    let idx ← s.inodeIdx inodeIndex
    if isDir ∧ (s.d0.inodes idx).size > 0 then some (-ENOTEMPTY, s)
    else
      let curr := (parseParentChild path).1
      let parentPath := (parseParentChild path).2
      if MAX_NAME ≤ parentPath.length then none
      else do
        let parentInodeIndex ← parsePath IND_BLOCK s parentPath
        if parentInodeIndex < 0 then some (-ENOENT, s)
        else do
          let pidx ← s.inodeIdx parentInodeIndex
          let s1 := if isDir then
            s.modInode pidx (fun i => { i with nlinks := i.nlinks - 1 }) else s
          if MAX_NAME ≤ curr.length then none
          else removeFound IND_BLOCK s1 idx pidx curr

/-- `wfs_unlink(path)`. -/
def wfs_unlink (IND_BLOCK : Nat) (s : FS) (path : List Nat) : Option (Int × FS) :=
  handleRemove IND_BLOCK s path false

/-- `wfs_rmdir(path)`. -/
def wfs_rmdir (IND_BLOCK : Nat) (s : FS) (path : List Nat) : Option (Int × FS) :=
  handleRemove IND_BLOCK s path true

/-! ## `wfs_readdir` -/

/-- The C string at address `a` of disk 0 (at most `n` bytes are looked at). -/
def cstrAt (s : FS) : Nat → Nat → Option (List Nat)
  | 0, _ => none
  | n + 1, a => do
    let b ← s.load a
    if b = 0 then some [] else (cstrAt s n (a + 1)).map (fun r => b :: r)

/-- The inner loop of `wfs_readdir` over one directory block, with a `filler`
that always returns 0: the names passed to `filler`, `n` slots left. -/
def emitEntries (s : FS) : Nat → Nat → Option (List (List Nat))
  | n, entries => do
    let b ← s.load entries
    if b = 0 then some []
    else match n with
      | 0 => some []
      | n + 1 => do
        let num ← s.addr (entries + MAX_NAME : Nat) 4
        let _ ← s.inodeIdx (decode32 (memLoad s.d0.mem num 4))
        let name ← cstrAt s (s.dataEnd + 1) entries
        (emitEntries s n (entries + DENTRY_SIZE)).map (fun r => name :: r)

/-- The outer loop of `wfs_readdir` over the direct blocks: `k` is
`IND_BLOCK - blockIter`. -/
def emitBlocks (s : FS) (inode : wfs_inode) : Nat → Nat → Option (List (List Nat))
  | k, blockIter => do
    let p ← inode.blocks[blockIter]?
    if p = 0 then some []
    else match k with
      | 0 => some []
      | k + 1 => do
        let names ← emitEntries s (BLOCK_SIZE / DENTRY_SIZE) p
        (emitBlocks s inode k (blockIter + 1)).map (fun r => names ++ r)

/-- `wfs_readdir(path, buf, filler, offset, fi)` with a `filler` that always
returns 0: return value, the names passed to `filler` in order, state afterwards. -/
def wfs_readdir (IND_BLOCK : Nat) (s : FS) (path : List Nat) (clock : Nat → Int) :
    Option (Int × List (List Nat) × FS) := do
  let inodeNum ← parsePath IND_BLOCK s path
  if inodeNum < 0 then some (-ENOENT, [], s)
  else do
    let idx ← s.inodeIdx inodeNum
    if (s.d0.inodes idx).mode &&& S_IFDIR = 0 then some (-EBADF, [], s)
    else do
      let s1 := s.modInode idx (fun i => { i with atim := clock 0 })
      let s2 := if s1.disk_count > 1 ∧ s1.d0.sb.raid_mode = 1 then replicate_inode s1 idx else s1
      let names ← emitBlocks s2 (s2.d0.inodes idx) IND_BLOCK 0
      some (OK, [46] :: [46, 46] :: names, s2)

/-! ## `mkfs` -/

/-- A disk image file as `mkfs` finds it: its size (`st.st_size`) and its bytes. -/
structure Image where
  st_size : Nat
  bytes : Nat → Nat

/-- The value fits a C `int` (signed overflow is undefined). -/
def intOk (x : Int) : Bool := decide (-2147483648 ≤ x ∧ x < 2147483648)

/-- `roundup(num, factor)` of `mkfs.c`. -/
def roundup (num : Int) (factor : Nat) : Int :=
  if cmod num factor = 0 then num else num + ((factor : Int) - cmod num factor)

/-- `fs_size` as `main` of `mkfs.c` computes it from the rounded counts. -/
def fsSize (SB_SIZE : Nat) (inodeCount dataCount : Int) : Int :=
  wrap32 ((SB_SIZE : Int) + (cdiv inodeCount 8 + cdiv dataCount 8)
    + inodeCount * BLOCK_SIZE + dataCount * BLOCK_SIZE)

/-- The superblock that `main` of `mkfs.c` writes. -/
def mkSuperblock (SB_SIZE : Nat) (inodeCount dataCount : Int) (raid_mode : Int)
    (disk_count : Nat) : wfs_sb :=
  let i_bitmap_ptr : Int := SB_SIZE
  let d_bitmap_ptr := i_bitmap_ptr + cdiv inodeCount 8
  let i_blocks_ptr := roundup (wrap32 (d_bitmap_ptr + cdiv dataCount 8)) BLOCK_SIZE
  let d_blocks_ptr := roundup (wrap32 (i_blocks_ptr + inodeCount * BLOCK_SIZE)) BLOCK_SIZE
  { num_inodes := inodeCount.toNat, num_data_blocks := dataCount.toNat,
    i_bitmap_ptr := i_bitmap_ptr.toNat, d_bitmap_ptr := d_bitmap_ptr.toNat,
    i_blocks_ptr := i_blocks_ptr.toNat, d_blocks_ptr := d_blocks_ptr.toNat,
    raid_mode := raid_mode, disk_count := disk_count }

/-- The value that `main` of `mkfs.c` assigns to `i_blocks_ptr`. -/
def iBlocksPtr (SB_SIZE : Nat) (inodeCount dataCount : Int) : Int :=
  roundup (wrap32 ((SB_SIZE : Int) + cdiv inodeCount 8 + cdiv dataCount 8)) BLOCK_SIZE

/-- The value that `main` of `mkfs.c` assigns to `d_blocks_ptr`. -/
def dBlocksPtr (SB_SIZE : Nat) (inodeCount dataCount : Int) : Int :=
  roundup (wrap32 (iBlocksPtr SB_SIZE inodeCount dataCount + inodeCount * BLOCK_SIZE)) BLOCK_SIZE

/-- A condition that the stores of `main` of `mkfs.c` into the mapping of
disk 0 need in order to stay inside the `fs_size` bytes that were mapped: the
superblock and the first byte of the inode bitmap lie inside, the root inode at
`i_blocks_ptr` starts inside, and the two entries at `d_blocks_ptr` lie
inside. -/
def storesMapped (SB_SIZE : Nat) (inodeCount dataCount : Int) : Bool :=
  decide ((SB_SIZE : Int) + 1 ≤ fsSize SB_SIZE inodeCount dataCount ∧
    0 ≤ iBlocksPtr SB_SIZE inodeCount dataCount ∧
    iBlocksPtr SB_SIZE inodeCount dataCount + 1 ≤ fsSize SB_SIZE inodeCount dataCount ∧
    0 ≤ dBlocksPtr SB_SIZE inodeCount dataCount ∧
    dBlocksPtr SB_SIZE inodeCount dataCount + 2 * DENTRY_SIZE
      ≤ fsSize SB_SIZE inodeCount dataCount)

/-- The root inode that `main` of `mkfs.c` initialises. -/
def rootInode (IND_BLOCK : Nat) (uid gid : Nat) (now : Int) : wfs_inode :=
  { zeroInode IND_BLOCK with
    mode := S_IFDIR ||| 493, uid := uid, gid := gid, size := 0, nlinks := 2,
    atim := now, mtim := now, ctim := now }

/-- Disk 0 after `memset`, the superblock, the root inode and the `.` and `..`
entries written at `d_blocks_ptr`. -/
def formatDisk0 (IND_BLOCK : Nat) (sb : wfs_sb) (fs_size : Nat) (img : Image)
    (uid gid : Nat) (now : Int) : Disk :=
  let zeroed : Nat → Nat := fun a => if a < fs_size then 0 else img.bytes a
  let m1 := memStore zeroed sb.d_blocks_ptr [46, 0]
  let m2 := memStore m1 (sb.d_blocks_ptr + MAX_NAME) (encode32 0)
  let m3 := memStore m2 (sb.d_blocks_ptr + DENTRY_SIZE) [46, 46, 0]
  let m4 := memStore m3 (sb.d_blocks_ptr + DENTRY_SIZE + MAX_NAME) (encode32 0)
  { sb := sb,
    imap := upd (fun _ => 0) 0 (0 ||| 1),
    dmap := fun _ => 0,
    inodes := upd (fun _ => zeroInode IND_BLOCK) 0 (rootInode IND_BLOCK uid gid now),
    mem := m4 }

/-- Disk `i ≥ 1` after `memcpy(mapped[i], mapped[0], fs_size)`. -/
def formatCopy (d0 : Disk) (fs_size : Nat) (img : Image) : Disk :=
  { d0 with mem := fun a => if a < fs_size then d0.mem a else img.bytes a }

/-- `main` of `mkfs.c` after option parsing: `raid_mode` is the `-r` value (-1
when absent), `disk_files` the `-d` images in order, `iArg`/`bArg` the values
`atoi` returned for `-i`/`-b` (0 when absent).  The result is the exit status
and, when the disks were formatted, the disk set.  `none` stands for undefined
behaviour: signed overflow, access past the end of an image, or a store of
`main` outside the `fs_size` bytes that were mapped (`storesMapped`). -/
def mkfs_main (SB_SIZE IND_BLOCK : Nat) (raid_mode : Int) (disk_files : List Image)
    (iArg bArg : Int) (uid gid : Nat) (now : Int) : Option (Int × Option FS) :=
  if raid_mode ≠ -1 ∧ raid_mode ≠ 0 ∧ raid_mode ≠ 1 then some (1, none)
  else if disk_files.length > 10 then some (1, none)
  else if ¬ (intOk (roundup iArg 32) ∧ intOk (roundup bArg 32)) then none
  else
    let inodeCount := roundup iArg 32
    let dataCount := roundup bArg 32
    if raid_mode = -1 ∨ disk_files.length = 0 ∨ inodeCount = 0 ∨ dataCount = 0 then some (1, none)
    else if raid_mode = 1 ∧ disk_files.length < 2 then some (1, none)
    else if ¬ (intOk (inodeCount * BLOCK_SIZE) ∧ intOk (dataCount * BLOCK_SIZE)) then none
    else
      let fs_size := fsSize SB_SIZE inodeCount dataCount
      let total_disk_space : Int := ((disk_files.map (fun f => f.st_size)).sum : Nat)
      let last_size : Int := ((disk_files.getLast?.map (fun f => f.st_size)).getD 0 : Nat)
      if (raid_mode = 0 ∧ fs_size > cdiv total_disk_space disk_files.length)
          ∨ (raid_mode = 1 ∧ fs_size > last_size) then some (-1, none)
      else
        match disk_files with
        | [] => some (1, none)
        | img0 :: imgs =>
          if fs_size < 0 ∨ disk_files.any (fun f => decide ((f.st_size : Int) < fs_size)) then none
          else if ¬ storesMapped SB_SIZE inodeCount dataCount then none
          else
            let sb := mkSuperblock SB_SIZE inodeCount dataCount raid_mode disk_files.length
            let d0 := formatDisk0 IND_BLOCK sb fs_size.toNat img0 uid gid now
            some (0, some { d0 := d0, rest := imgs.map (formatCopy d0 fs_size.toNat) })

/-! ## Test fixtures -/

/-- The bytes of an ASCII string. -/
def ascii (str : String) : List Nat := str.toList.map Char.toNat

/-- An image of `n` zero bytes. -/
def zeroImage (n : Nat) : Image := { st_size := n, bytes := fun _ => 0 }

end Wfs

namespace Wfs

/-! ## Concrete disk sets and call sequences used as witnesses -/

/-- The disk set that a `mkfs` run produced, if it formatted the disks. -/
def formatted : Option (Int × Option FS) → Option FS
  | some (_, some s) => some s
  | _ => none

/-- `mkfs -r raid_mode -d … -i 32 -b 32` on `n` zeroed images of 1 MiB, with
`IND_BLOCK = 7` and a superblock of 56 bytes. -/
def fresh (raid_mode : Int) (n : Nat) : Option FS :=
  formatted (mkfs_main 56 7 raid_mode (List.replicate n (zeroImage 1048576)) 32 32 1000 1000 100)

/-- A clock that shows `t` during a whole handler call. -/
def clockAt (t : Int) : Nat → Int := fun _ => t

/-- The mode of a regular file with permissions 0644. -/
def regMode : Nat := S_IFREG ||| 420

/-- mknod `/f`, write "hello" at offset 10, read 5 bytes at offset 10:
the three return values and the bytes read. -/
def sparseWriteScenario : Option (Int × Int × Int × List Nat) := do
  let s0 ← fresh 1 2
  let r1 ← wfs_mknod 7 s0 (ascii "/f") regMode 1000 1000 (clockAt 200)
  let r2 ← wfs_write 7 r1.2 (ascii "/f") (ascii "hello") 10 (clockAt 201)
  let r3 ← wfs_read 7 r2.2 (ascii "/f") 5 10 (clockAt 202)
  some (r1.1, r2.1, r3.1, r3.2.1)

/-- mknod `/f`, write "hello" at offset 0, read with `size = 100` at offset 0:
the size of the inode before the read, the return value of the read and the
number of bytes it stored. -/
def overReadScenario : Option (Int × Int × Nat) := do
  let s0 ← fresh 1 2
  let r1 ← wfs_mknod 7 s0 (ascii "/f") regMode 1000 1000 (clockAt 200)
  let r2 ← wfs_write 7 r1.2 (ascii "/f") (ascii "hello") 0 (clockAt 201)
  let r3 ← wfs_read 7 r2.2 (ascii "/f") 100 0 (clockAt 202)
  some ((r2.2.d0.inodes 1).size, r3.1, r3.2.1.length)

/-- mknod `/f`, write "hello" at offset 0, read 5 at offset 0, getattr:
the return values of the first three calls, the bytes read, the return value of
getattr and `st_size`. -/
def helloScenario (raid_mode : Int) (n : Nat) :
    Option ((Int × Int × Int) × List Nat × Int × Int) := do
  let s0 ← fresh raid_mode n
  let r1 ← wfs_mknod 7 s0 (ascii "/f") regMode 1000 1000 (clockAt 200)
  let r2 ← wfs_write 7 r1.2 (ascii "/f") (ascii "hello") 0 (clockAt 201)
  let r3 ← wfs_read 7 r2.2 (ascii "/f") 5 0 (clockAt 202)
  let r4 ← wfs_getattr 7 r3.2.2 (ascii "/f") (statOf (zeroInode 7)) (clockAt 203)
  some ((r1.1, r2.1, r3.1), r3.2.1, r4.1, r4.2.1.st_size)

/-- Striped mode, two disks: the state after mknod `/big` and the state after
a following write of `buf` at offset 0 (when both calls succeed). -/
def stripeScenario (buf : List Nat) : Option (FS × FS) := do
  let s0 ← fresh 0 2
  let r1 ← wfs_mknod 7 s0 (ascii "/big") regMode 1000 1000 (clockAt 200)
  let r2 ← wfs_write 7 r1.2 (ascii "/big") buf 0 (clockAt 201)
  if r1.1 = 0 ∧ r2.1 = buf.length then some (r1.2, r2.2) else none

/-- The stripe owner of the data block at byte offset `off`:
`((off - d_blocks_ptr) / BLOCK) mod disk_count` (the rule of the spec). -/
def stripeOwner (s : FS) (off : Nat) : Nat :=
  ((off - s.d0.sb.d_blocks_ptr) / BLOCK_SIZE) % s.disk_count

/-- Mirrored mode, two disks, the data bitmap is filled by a write of 30 blocks
to `/f`; then mknod `/a/x` at a later time (it fails), then getattr `/f`:
the two return values and the state at the end. -/
def diskFullScenario : Option (Int × Int × FS) := do
  let s0 ← fresh 1 2
  let r1 ← wfs_mkdir 7 s0 (ascii "/a") 493 1000 1000 (clockAt 200)
  let r2 ← wfs_mknod 7 r1.2 (ascii "/f") regMode 1000 1000 (clockAt 200)
  let r3 ← wfs_write 7 r2.2 (ascii "/f") (List.replicate 15360 65) 0 (clockAt 200)
  let r4 ← wfs_mknod 7 r3.2 (ascii "/a/x") regMode 1000 1000 (clockAt 300)
  let r5 ← wfs_getattr 7 r4.2 (ascii "/f") (statOf (zeroInode 7)) (clockAt 300)
  if r1.1 = 0 ∧ r2.1 = 0 ∧ r3.1 = 15360 then some (r4.1, r5.1, r5.2.2) else none

/-- Mirrored mode, two disks, "world" written to `/f`, then the block zeroed
on disk 1 behind the back of the daemon: the state and the block offset. -/
def corruptedScenario : Option (FS × Nat) := do
  let s0 ← fresh 1 2
  let r1 ← wfs_mknod 7 s0 (ascii "/f") regMode 1000 1000 (clockAt 200)
  let r2 ← wfs_write 7 r1.2 (ascii "/f") (ascii "world") 0 (clockAt 201)
  let p ← (r2.2.d0.inodes 1).blocks[0]?
  some ({ r2.2 with rest := r2.2.rest.map (fun d =>
            { d with mem := memZero d.mem p BLOCK_SIZE }) }, p)

/-- The files `/fA`, `/fB`, … created one after another: the return value of
the `n`-th `wfs_mknod` and the state after it. -/
def createFiles : Nat → FS → Option (Int × FS)
  | 0, s => some (0, s)
  | n + 1, s => do
    let r ← createFiles n s
    wfs_mknod 7 r.2 (ascii "/f" ++ [65 + n]) regMode 1000 1000 (clockAt 200)

/-- A disk set without content, the default where a scenario is undefined. -/
def noFS : FS :=
  { d0 := { sb := ⟨0, 0, 0, 0, 0, 0, 0, 0⟩, imap := fun _ => 0, dmap := fun _ => 0,
            inodes := fun _ => zeroInode 0, mem := fun _ => 0 },
    rest := [] }

end Wfs

namespace Wfs

/-! ## Notions used to state the properties -/

/-- Occurrences of the block copy `x` among the copies `l`, counted the way
the inner voting loop compares (`memcmp(…) == 0`). -/
def cnt (x : List Nat) (l : List (List Nat)) : Nat := (l.filter (fun y => x == y)).length

/-- The arguments of one `wfs_mknod` call (with what `time`, `getuid` and
`getgid` return during the call). -/
structure MknodArgs where
  path : List Nat
  mode : Nat
  uid : Nat
  gid : Nat
  clock : Nat → Int

/-- One `wfs_mknod` call with the arguments `c`. -/
def mknodCall (IND_BLOCK : Nat) (s : FS) (c : MknodArgs) : Option (Int × FS) :=
  wfs_mknod IND_BLOCK s c.path c.mode c.uid c.gid c.clock

/-- The state after the `wfs_mknod` calls `cs`, made one after another, when
every one of them returned 0. -/
def createAll (IND_BLOCK : Nat) : FS → List MknodArgs → Option FS
  | s, [] => some s
  | s, c :: cs =>
    (mknodCall IND_BLOCK s c).bind (fun r =>
      if r.1 = 0 then createAll IND_BLOCK r.2 cs else none)

/-- The inode bits `0..k` are set and the bits `k+1..n-1` are clear. -/
def bitsUpTo (bitmap : Nat → Nat) (n k : Nat) : Prop :=
  ∀ j, j < n → (bitOf bitmap j ≠ 0 ↔ j ≤ k)

/-- One call of a handler by the bridge, with its arguments. -/
inductive Call where
  | getattr (path : List Nat) (clock : Nat → Int)
  | mknod (path : List Nat) (mode uid gid : Nat) (clock : Nat → Int)
  | mkdir (path : List Nat) (mode uid gid : Nat) (clock : Nat → Int)
  | unlink (path : List Nat)
  | rmdir (path : List Nat)
  | read (path : List Nat) (size offset : Nat) (clock : Nat → Int)
  | write (path : List Nat) (buf : List Nat) (offset : Nat) (clock : Nat → Int)
  | readdir (path : List Nat) (clock : Nat → Int)

/-- The return value of a handler call and the state after it. -/
def Call.run (IND_BLOCK : Nat) (s : FS) : Call → Option (Int × FS)
  | .getattr path clock =>
    (wfs_getattr IND_BLOCK s path (statOf (zeroInode IND_BLOCK)) clock).map
      (fun r => (r.1, r.2.2))
  | .mknod path mode uid gid clock => wfs_mknod IND_BLOCK s path mode uid gid clock
  | .mkdir path mode uid gid clock => wfs_mkdir IND_BLOCK s path mode uid gid clock
  | .unlink path => wfs_unlink IND_BLOCK s path
  | .rmdir path => wfs_rmdir IND_BLOCK s path
  | .read path size offset clock =>
    (wfs_read IND_BLOCK s path size offset clock).map (fun r => (r.1, r.2.2))
  | .write path buf offset clock => wfs_write IND_BLOCK s path buf offset clock
  | .readdir path clock =>
    (wfs_readdir IND_BLOCK s path clock).map (fun r => (r.1, r.2.2))

/-- The state after a sequence of handler calls, whatever they return. -/
def runCalls (IND_BLOCK : Nat) : FS → List Call → Option FS
  | s, [] => some s
  | s, c :: cs => (c.run IND_BLOCK s).bind (fun r => runCalls IND_BLOCK r.2 cs)

/-- The superblock and the bytes of the inode bitmap are the same on every disk. -/
def InodeMapMirrored (s : FS) : Prop :=
  ∀ d ∈ s.rest, d.sb = s.d0.sb ∧ ∀ j, j < s.iCount / 8 → d.imap j = s.d0.imap j

/-- Every byte of the inode bitmap of disk 0 is a byte, and the superblock and
the inode bitmap agree on all disks. -/
def MetaInv (s : FS) : Prop := (∀ j, s.d0.imap j < 256) ∧ InodeMapMirrored s

/-- The return values of a sequence of handler calls. -/
def callRets (IND_BLOCK : Nat) : FS → List Call → Option (List Int)
  | _, [] => some []
  | s, c :: cs =>
    (c.run IND_BLOCK s).bind (fun r => (callRets IND_BLOCK r.2 cs).map (fun l => r.1 :: l))

/-- A fresh striped disk set of two disks. -/
def striped0 : FS := (fresh 0 2).getD noFS

/-- The 31 calls `mknod /fA`, `mknod /fB`, … -/
def thirtyOneFiles : List MknodArgs :=
  (List.range 31).map (fun n =>
    { path := ascii "/f" ++ [65 + n], mode := regMode, uid := 1000, gid := 1000,
      clock := clockAt 200 })

/-- The freshly formatted mirrored pair of disks. -/
def full0 : FS := (fresh 1 2).getD noFS

/-- The state after the 31 files were created. -/
def full31 : FS := (createAll 7 full0 thirtyOneFiles).getD noFS

/-- The 32nd call. -/
def call32 : MknodArgs := ⟨ascii "/fz", regMode, 1000, 1000, clockAt 200⟩

/-- The 33rd call. -/
def call33 : MknodArgs := ⟨ascii "/fa", regMode, 1000, 1000, clockAt 200⟩

/-- The return value of the 32nd call. -/
def ret32 : Int := ((mknodCall 7 full31 call32).map Prod.fst).getD 0

/-- The state after the 32nd call. -/
def full32 : FS := ((mknodCall 7 full31 call32).map Prod.snd).getD noFS

end Wfs

namespace Wfs

/-! ## Well-formed files -/

/-- The offset `p` is the start of one of the data blocks. -/
def IsBlock (sb : wfs_sb) (p : Nat) : Prop :=
  ∃ k, k < sb.num_data_blocks ∧ p = sb.d_blocks_ptr + BLOCK_SIZE * k

/-- The offset `p` is the start of a data block whose bit is set in the data
bitmap of the disk. -/
def Allocated (d : Disk) (p : Nat) : Prop :=
  ∃ k, k < d.sb.num_data_blocks ∧ p = d.sb.d_blocks_ptr + BLOCK_SIZE * k ∧ bitOf d.dmap k ≠ 0

/-- The pointer `blocks[IND_BLOCK]` of inode `idx` (0 when there is no
indirect block). -/
def indPtr (IND_BLOCK : Nat) (d : Disk) (idx : Nat) : Nat :=
  (d.inodes idx).blocks.getD IND_BLOCK 0

/-- The number of block pointers of a file: `IND_BLOCK` direct ones and the
slots of the indirect block. -/
def maxBlocks (IND_BLOCK : Nat) : Nat := IND_BLOCK + BLOCK_SIZE / OFF_SIZE

/-- The pointer to block `b` of the file with inode `idx`: `blocks[b]` for
`b < IND_BLOCK`, otherwise slot `b - IND_BLOCK` of the indirect block; 0 when
the block (or the indirect block) is not there. -/
def filePtr (IND_BLOCK : Nat) (d : Disk) (idx b : Nat) : Nat :=
  if b < IND_BLOCK then (d.inodes idx).blocks.getD b 0
  else if indPtr IND_BLOCK d idx = 0 then 0
  else decode64 (memLoad d.mem (indPtr IND_BLOCK d idx + OFF_SIZE * (b - IND_BLOCK)) OFF_SIZE)

/-- The block at offset `p` belongs to the file with inode `idx`, as a data
block or as its indirect block. -/
def Own (IND_BLOCK : Nat) (d : Disk) (idx p : Nat) : Prop :=
  p ≠ 0 ∧ (p = indPtr IND_BLOCK d idx ∨
    ∃ b, b < maxBlocks IND_BLOCK ∧ filePtr IND_BLOCK d idx b = p)

/-- The block map of the file with inode `idx` is well formed: `blocks` has
`IND_BLOCK + 1` cells, the indirect block and every data block are allocated
data blocks, no data block is the indirect block, and no data block occurs
twice. -/
structure FileWF (IND_BLOCK : Nat) (d : Disk) (idx : Nat) : Prop where
  len : (d.inodes idx).blocks.length = IND_BLOCK + 1
  ind : indPtr IND_BLOCK d idx ≠ 0 → Allocated d (indPtr IND_BLOCK d idx)
  ptr : ∀ b, b < maxBlocks IND_BLOCK → filePtr IND_BLOCK d idx b ≠ 0 →
    Allocated d (filePtr IND_BLOCK d idx b) ∧
      filePtr IND_BLOCK d idx b ≠ indPtr IND_BLOCK d idx
  inj : ∀ b, b < maxBlocks IND_BLOCK → ∀ b', b' < maxBlocks IND_BLOCK →
    filePtr IND_BLOCK d idx b ≠ 0 →
    filePtr IND_BLOCK d idx b = filePtr IND_BLOCK d idx b' → b = b'

/-- Every data block whose bit is clear in the data bitmap holds zero bytes
(as after `mkfs` on zeroed images and after `handleRemove`, which zeroes the
blocks it frees). -/
def FreeZero (d : Disk) : Prop :=
  ∀ k, k < d.sb.num_data_blocks → bitOf d.dmap k = 0 →
    ∀ i, i < BLOCK_SIZE → d.mem (d.sb.d_blocks_ptr + BLOCK_SIZE * k + i) = 0

/-- The layout is sane: the data region does not start at offset 0, its end
fits an `off_t`, and the largest file offset fits an `int`. -/
structure Geometry (IND_BLOCK : Nat) (d : Disk) : Prop where
  pos : 0 < d.sb.d_blocks_ptr
  fin : d.sb.d_blocks_ptr + d.sb.num_data_blocks * BLOCK_SIZE < 2 ^ 63
  max : maxBlocks IND_BLOCK * BLOCK_SIZE < 2 ^ 31

/-- The number of clear bits among the first `n` bits of a bitmap. -/
def freeBits (bitmap : Nat → Nat) : Nat → Nat
  | 0 => 0
  | n + 1 => freeBits bitmap n + (if bitOf bitmap n = 0 then 1 else 0)

/-- The number of free data blocks. -/
def Disk.freeCount (d : Disk) : Nat := freeBits d.dmap d.sb.num_data_blocks

/-- Every disk holds the first `w` bytes of `buf` at the file offsets `off`,
`off+1`, … of the file with inode `idx`, in the blocks that the block map of
disk 0 points to. -/
def Stored (IND_BLOCK : Nat) (s : FS) (idx off : Nat) (buf : List Nat) (w : Nat) : Prop :=
  ∀ j, j < w →
    filePtr IND_BLOCK s.d0 idx ((off + j) / BLOCK_SIZE) ≠ 0 ∧
    ∀ d ∈ s.disks,
      d.mem (filePtr IND_BLOCK s.d0 idx ((off + j) / BLOCK_SIZE) + (off + j) % BLOCK_SIZE)
        = buf.getD j 0

/-- Every disk of `t` is a disk of `s` with bytes changed at most at the
offsets in `X`. -/
def MemRel (X : Nat → Prop) (s t : FS) : Prop :=
  ∀ d' ∈ t.disks, ∃ d ∈ s.disks, ∀ a, ¬ X a → d'.mem a = d.mem a

/-- What a write to (or a read of) the file with inode `idx` may change on
disk 0: the superblock and the other inodes stay, of inode `idx` only the
fields given by `f` and the block pointers change, allocated blocks stay
allocated, the file keeps its blocks and gains only blocks that were free, and
bytes change only inside blocks of the file. -/
structure FileStep (IND_BLOCK : Nat) (idx : Nat) (d d' : Disk) : Prop where
  sb : d'.sb = d.sb
  others : ∀ i, i ≠ idx → d'.inodes i = d.inodes i
  mode : (d'.inodes idx).mode = (d.inodes idx).mode
  alloc : ∀ q, Allocated d q → Allocated d' q
  keep : ∀ q, Own IND_BLOCK d idx q → Own IND_BLOCK d' idx q
  fresh : ∀ q, Own IND_BLOCK d' idx q → Own IND_BLOCK d idx q ∨ ¬ Allocated d q
  frame : ∀ a, (∀ q, Own IND_BLOCK d' idx q → ¬ (q ≤ a ∧ a < q + BLOCK_SIZE)) →
    d'.mem a = d.mem a

/-- What the block lookup of one iteration of the loop of `wfs_write` for the
file offset `cur` does: `t` is the state afterwards and `r` the block found
(`none` when the allocation failed). -/
structure LocateRes (IND_BLOCK idx cur : Nat) (s t : FS)
    (r : Option (Nat × Int × Option Nat)) : Prop where
  wf : FileWF IND_BLOCK t.d0 idx
  fz : FreeZero t.d0
  step : FileStep IND_BLOCK idx s.d0 t.d0
  flds : ∃ bl, t.d0.inodes idx = { s.d0.inodes idx with blocks := bl }
  ptrs : ∀ b, b < maxBlocks IND_BLOCK → b ≠ cur / BLOCK_SIZE →
    filePtr IND_BLOCK t.d0 idx b = filePtr IND_BLOCK s.d0 idx b
  ind : indPtr IND_BLOCK s.d0 idx ≠ 0 → indPtr IND_BLOCK t.d0 idx = indPtr IND_BLOCK s.d0 idx
  disks : MemRel (fun a => indPtr IND_BLOCK t.d0 idx ≠ 0 ∧
    indPtr IND_BLOCK t.d0 idx ≤ a ∧ a < indPtr IND_BLOCK t.d0 idx + BLOCK_SIZE) s t
  fail : r = none → t.d0.freeCount = 0 ∧ s.d0.freeCount ≤
    (if IND_BLOCK ≤ cur / BLOCK_SIZE ∧ indPtr IND_BLOCK s.d0 idx = 0 then 1 else 0)
  found : ∀ block blockOff slot, r = some (block, blockOff, slot) →
    block = filePtr IND_BLOCK t.d0 idx (cur / BLOCK_SIZE) ∧ block ≠ 0 ∧
    blockOff = ((cur % BLOCK_SIZE : Nat) : Int) ∧
    slot = (if cur / BLOCK_SIZE < IND_BLOCK then none
      else some (indPtr IND_BLOCK t.d0 idx + OFF_SIZE * (cur / BLOCK_SIZE - IND_BLOCK))) ∧
    s.d0.freeCount ≤ t.d0.freeCount + 1 +
      (if IND_BLOCK ≤ cur / BLOCK_SIZE ∧ indPtr IND_BLOCK s.d0 idx = 0 then 1 else 0)

/-- The number of free data blocks that suffices for the rest of a write of
`n` bytes at offset `off` when `bw` bytes are written: one per block from the
current one on, and one for the indirect block if it is needed and missing. -/
def writeNeed (IND_BLOCK : Nat) (d : Disk) (idx off n bw : Nat) : Nat :=
  ((off + n + (BLOCK_SIZE - 1)) / BLOCK_SIZE - (off + bw) / BLOCK_SIZE) +
    (if IND_BLOCK < (off + n + (BLOCK_SIZE - 1)) / BLOCK_SIZE ∧ indPtr IND_BLOCK d idx = 0
      then 1 else 0)

/-- The invariant of the loop of `wfs_write` on the file with inode `idx`,
started in state `s`, when `bw` bytes of `buf` are written in state `t`. -/
structure WriteInv (IND_BLOCK idx off : Nat) (buf : List Nat) (s t : FS) (bw : Nat) : Prop where
  wf : FileWF IND_BLOCK t.d0 idx
  fz : FreeZero t.d0
  step : FileStep IND_BLOCK idx s.d0 t.d0
  flds : ∃ bl, t.d0.inodes idx = { s.d0.inodes idx with blocks := bl }
  hold : Stored IND_BLOCK t idx off buf bw
  le : bw ≤ buf.length
  aligned : bw = 0 ∨ (off + bw) % BLOCK_SIZE = 0 ∨ bw = buf.length

/-- What a `wfs_write` call that counted `w` bytes does to the file with inode
`idx`: the block map stays well formed, `inode.size` grows by `w`, the first
`w` bytes of `buf` are stored on every disk, the inode is the same on every
disk, and a short count means that no data block is free. -/
structure WriteRes (IND_BLOCK idx off : Nat) (buf : List Nat) (s t : FS) (w : Nat) : Prop where
  wf : FileWF IND_BLOCK t.d0 idx
  fz : FreeZero t.d0
  step : FileStep IND_BLOCK idx s.d0 t.d0
  size : (t.d0.inodes idx).size = (s.d0.inodes idx).size + (w : Int)
  stored : Stored IND_BLOCK t idx off buf w
  le : w ≤ buf.length
  mirror : ∀ d ∈ t.rest, d.inodes idx = t.d0.inodes idx
  full : w < buf.length → t.d0.freeCount = 0

/-- The invariant of the loop of `wfs_read` on the file with inode `idx`,
started in state `s`, whose bytes at offset `off` are `buf` on every disk, when
`br` bytes are read into `out` in state `t`. -/
structure ReadInv (IND_BLOCK idx off : Nat) (buf : List Nat) (s t : FS) (br : Nat)
    (out : List Nat) : Prop where
  wf : FileWF IND_BLOCK t.d0 idx
  fz : FreeZero t.d0
  step : FileStep IND_BLOCK idx s.d0 t.d0
  ino : t.d0.inodes idx = s.d0.inodes idx
  stored : Stored IND_BLOCK t idx off buf buf.length
  out_eq : out = buf.take br
  le : br ≤ buf.length
  aligned : br = 0 ∨ (off + br) % BLOCK_SIZE = 0 ∨ br = buf.length

/-- The `size` fields of the inode table of disk 0. -/
def FS.sizes (s : FS) : Nat → Int := fun i => (s.d0.inodes i).size

/-- The directories are apart from the file with inode `idx`: an inode with
the directory bit is not `idx`, and its direct blocks are allocated data
blocks that do not belong to the file and end with a zero byte. -/
def DirsApart (IND_BLOCK : Nat) (d : Disk) (idx : Nat) : Prop :=
  ∀ i, i < d.sb.num_inodes → (d.inodes i).mode &&& S_IFDIR ≠ 0 →
    i ≠ idx ∧ ∀ j, j < IND_BLOCK → (d.inodes i).blocks.getD j 0 ≠ 0 →
      Allocated d ((d.inodes i).blocks.getD j 0) ∧
      ¬ Own IND_BLOCK d idx ((d.inodes i).blocks.getD j 0) ∧
      d.mem ((d.inodes i).blocks.getD j 0 + (BLOCK_SIZE - 1)) = 0

/-! ### A freshly created file -/

/-- Striped mode, two disks, after `mknod /f` on the fresh disk set: `/f` is
inode 1, with size 0 and no block. -/
def fileState : FS :=
  ((wfs_mknod 7 striped0 (ascii "/f") regMode 1000 1000 (clockAt 200)).map Prod.snd).getD noFS

end Wfs

namespace Wfs

/-! ## Call sequences on directories -/

/-- Mirrored mode, two disks: mkdir `/a`, then mkdir `/a/b`.  The two return
values, the inode indices of `/a` and `/a/b` at the end, and the link counts:
of the root before the calls, of the root and of `/a` after the first call, of
the root, of `/a` and of `/a/b` after the second. -/
def nestedMkdirScenario : Option (List Int) := do
  let s0 ← fresh 1 2
  let r1 ← wfs_mkdir 7 s0 (ascii "/a") 493 1000 1000 (clockAt 200)
  let r2 ← wfs_mkdir 7 r1.2 (ascii "/a/b") 493 1000 1000 (clockAt 201)
  let a ← parsePath 7 r2.2 (ascii "/a")
  let b ← parsePath 7 r2.2 (ascii "/a/b")
  some [r1.1, r2.1, a, b, (s0.d0.inodes 0).nlinks,
    (r1.2.d0.inodes 0).nlinks, (r1.2.d0.inodes 1).nlinks,
    (r2.2.d0.inodes 0).nlinks, (r2.2.d0.inodes 1).nlinks, (r2.2.d0.inodes 2).nlinks]

/-- The state after mkdir `/a` and mkdir `/a/b` on a fresh mirrored pair. -/
def nestedState : FS :=
  ((wfs_mkdir 7 full0 (ascii "/a") 493 1000 1000 (clockAt 200)).bind (fun r1 =>
    (wfs_mkdir 7 r1.2 (ascii "/a/b") 493 1000 1000 (clockAt 201)).map Prod.snd)).getD noFS

/-- Mirrored mode, two disks: mkdir `/name`, rmdir `/name`, rmdir `/name`.
The three return values; the link count, the size of the root and byte 0 of the
inode bitmap before the mkdir and after the first rmdir; the index that the
path had after the mkdir and the index that the next inode allocation returns
after the first rmdir. -/
def mkdirRmdirScenario (name : List Nat) : Option (List Int) := do
  let s0 ← fresh 1 2
  let r1 ← wfs_mkdir 7 s0 (47 :: name) 493 1000 1000 (clockAt 200)
  let i1 ← parsePath 7 r1.2 (47 :: name)
  let r2 ← wfs_rmdir 7 r1.2 (47 :: name)
  let r3 ← wfs_rmdir 7 r2.2 (47 :: name)
  some [r1.1, r2.1, r3.1,
    (s0.d0.inodes 0).nlinks, (r2.2.d0.inodes 0).nlinks,
    (s0.d0.inodes 0).size, (r2.2.d0.inodes 0).size,
    s0.d0.imap 0, r2.2.d0.imap 0,
    i1, (findAndAllocFromMap r2.2.d0.imap r2.2.iCount).1]

/-- Mirrored mode, two disks: mkdir `/a`, mkdir `/a/b`, then readdir of `/a`,
of `/` and of the missing `/zz`.  The five return values, and the names that
the listings of `/a` and of `/` passed to the filler, in order. -/
def readdirScenario : Option (List Int × List (List Nat) × List (List Nat)) := do
  let s0 ← fresh 1 2
  let r1 ← wfs_mkdir 7 s0 (ascii "/a") 493 1000 1000 (clockAt 200)
  let r2 ← wfs_mkdir 7 r1.2 (ascii "/a/b") 493 1000 1000 (clockAt 201)
  let r3 ← wfs_readdir 7 r2.2 (ascii "/a") (clockAt 202)
  let r4 ← wfs_readdir 7 r3.2.2 (ascii "/") (clockAt 203)
  let r5 ← wfs_readdir 7 r4.2.2 (ascii "/zz") (clockAt 204)
  some ([r1.1, r2.1, r3.1, r4.1, r5.1], r3.2.1, r4.2.1)

/-- Mirrored mode, two disks: mknod `/f`, then a write of `buf` at `offset`.
The return value of the write, the size of the file after it, byte 0 of the
data bitmap before and after the write, and the first byte of the block that
slot 0 of the indirect block of the file names after the write (0 when the
file has no indirect block). -/
def pastLimitScenario (offset : Nat) (buf : List Nat) : Option (List Int) := do
  let s0 ← fresh 1 2
  let r1 ← wfs_mknod 7 s0 (ascii "/f") regMode 1000 1000 (clockAt 200)
  let r2 ← wfs_write 7 r1.2 (ascii "/f") buf offset (clockAt 201)
  let ip := (r2.2.d0.inodes 1).blocks.getD 7 0
  some [r2.1, (r2.2.d0.inodes 1).size, r1.2.d0.dmap 0, r2.2.d0.dmap 0,
    if ip = 0 then 0 else r2.2.d0.mem (decode64 (memLoad r2.2.d0.mem ip OFF_SIZE))]

/-- Striped mode, one disk: mknod `/f`, then unlink `/`.  The two return
values, then bit 0 of the inode bitmap and the mode of inode 0 before the
unlink, then the same two after it. -/
def unlinkRootScenario : Option (List Int) := do
  let s0 ← fresh 0 1
  let r1 ← wfs_mknod 7 s0 (ascii "/f") regMode 1000 1000 (clockAt 200)
  let r2 ← wfs_unlink 7 r1.2 (ascii "/")
  some [r1.1, r2.1, bitOf r1.2.d0.imap 0, (r1.2.d0.inodes 0).mode,
    bitOf r2.2.d0.imap 0, (r2.2.d0.inodes 0).mode]

/-! ### States used as instances -/

end Wfs

namespace Wfs

/-! ## `valid_board` of `letter-boxed.c` -/

/-- `board[i][j]`, each row being a C string of which the list holds the bytes
before the terminator: the terminator is read at `j = strlen(board[i])`; a read
further right, or of a row that is not there, is undefined. -/
def boardAt (board : List (List Nat)) (i j : Nat) : Option Nat := do
  let row ← board[i]?
  if j < row.length then row[j]? else if j = row.length then some 0 else none

/-- The loop `for (int column = j + 1; column < letters; column++)` of
`valid_board` with `n` iterations left: `true` when it returns 1. -/
def rowLoop (board : List (List Nat)) (i : Nat) (character : Nat) : Nat → Nat → Option Bool
  | 0, _ => some false
  | n + 1, column => do
    let c ← boardAt board i column
    if character = c then some true else rowLoop board i character n (column + 1)

/-- The loop `for (int row = i + 1; row < sides; row++)` of `valid_board` with
`n` iterations left: `true` when it returns 1. -/
def colLoop (board : List (List Nat)) (j : Nat) (character : Nat) : Nat → Nat → Option Bool
  | 0, _ => some false
  | n + 1, row => do
    let c ← boardAt board row j
    if character = c then some true else colLoop board j character n (row + 1)

/-- The loop `for (int j = 0; j < letters; j++)` of `valid_board` for side `i`
with `n` iterations left: `true` when it returns 1. -/
def lettersLoop (board : List (List Nat)) (i sides letters : Nat) : Nat → Nat → Option Bool
  | 0, _ => some false
  | n + 1, j => do
    let character ← boardAt board i j
    let r ← rowLoop board i character (letters - (j + 1)) (j + 1)
    if r then some true
    else do
      let c ← colLoop board j character (sides - (i + 1)) (i + 1)
      if c then some true else lettersLoop board i sides letters n (j + 1)

/-- The loop `for (int i = 0; i < sides; i++)` of `valid_board` with `n`
iterations left: the return value. -/
def sidesLoop (board : List (List Nat)) (sides : Nat) (letters : Int) : Nat → Nat → Option Int
  | 0, _ => some 0
  | n + 1, i => do
    let row ← board[i]?
    if wrap32 (row.length : Int) ≠ letters then some 1
    else do
      let r ← lettersLoop board i sides letters.toNat letters.toNat 0
      if r then some 1 else sidesLoop board sides letters n (i + 1)

/-- `valid_board(board, sides, letters)`: the return value (the output on
`stdout` is left out).  `none` stands for a read outside a row or outside the
board. -/
def valid_board (board : List (List Nat)) (sides letters : Int) : Option Int :=
  if sides < 3 then some 1 else sidesLoop board sides.toNat letters sides.toNat 0

/-- The letter at position `j` of side `i` of the board. -/
def cell (board : List (List Nat)) (i j : Nat) : Nat := (board.getD i []).getD j 0

/-- The number of cells of the board that hold the letter `c`. -/
def occurrences (board : List (List Nat)) (c : Nat) : Nat :=
  (board.map (fun row => row.count c)).sum

/-! ## The voting rule of the spec -/

/-- The number of disks, disk `d` included, whose copy of the block equals the
copy of disk `d`. -/
def matchCount (blockBuf : List (List Nat)) (d : Nat) : Nat :=
  cnt (blockBuf.getD d []) blockBuf

/-- The winner by the rule of the spec: the disk with the highest count, ties
broken by the lowest disk index. -/
def specWinner (blockBuf : List (List Nat)) : Nat :=
  (List.range blockBuf.length).foldl
    (fun best d => if matchCount blockBuf d > matchCount blockBuf best then d else best) 0

/-- Disk `r` wins by the rule of the spec: no disk has a higher count, and
every disk with a lower index has a lower count. -/
def IsWinner (blockBuf : List (List Nat)) (r : Nat) : Prop :=
  r < blockBuf.length ∧
  (∀ d, d < blockBuf.length → matchCount blockBuf d ≤ matchCount blockBuf r) ∧
  (∀ d, d < r → matchCount blockBuf d < matchCount blockBuf r)

/-! ## The size check of `mkfs` by the rule of the spec -/

/-- The rule of the spec for refusing to format: in mirrored mode some disk is
smaller than the filesystem, in striped mode the filesystem is larger than the
average disk size. -/
def specRefuses (raid_mode fs_size : Int) (sizes : List Nat) : Prop :=
  (raid_mode = 1 ∧ ∃ z ∈ sizes, (z : Int) < fs_size) ∨
  (raid_mode = 0 ∧ fs_size > cdiv ((sizes.sum : Nat) : Int) sizes.length)

/-! ## The mapping of `wfs` -/

/-- The `size` that `main` of `wfs.c` computes from the superblock and passes
to `mmap` for every disk (an `int`). -/
def wfsMapSize (SB_SIZE : Nat) (sb : wfs_sb) : Int :=
  wrap32 (((SB_SIZE + sb.num_inodes / 8 + sb.num_data_blocks / 8
    + BLOCK_SIZE * sb.num_inodes + BLOCK_SIZE * sb.num_data_blocks : Nat)) : Int)

/-! ## Slots of a directory -/

/-- The number of slots with a non-zero first name byte in the directory block
at offset `p` of disk 0. -/
def liveSlots (s : FS) (p : Nat) : Nat :=
  ((List.range (BLOCK_SIZE / DENTRY_SIZE)).filter
    (fun i => s.d0.mem (p + DENTRY_SIZE * i) ≠ 0)).length

/-! ## More call sequences -/

/-- Mirrored mode, two disks: mkdir `/a`.  The return value, the size of the
root, the number of its entries by its size, and the number of slots with a
non-zero first name byte in its only block. -/
def packingScenario : Option (List Int) := do
  let s0 ← fresh 1 2
  let r1 ← wfs_mkdir 7 s0 (ascii "/a") 493 1000 1000 (clockAt 200)
  some [r1.1, (r1.2.d0.inodes 0).size, (r1.2.d0.inodes 0).size / DENTRY_SIZE,
    liveSlots r1.2 ((r1.2.d0.inodes 0).blocks.getD 0 0)]

/-- The calls mknod `/a`, `/b`, `/c`, unlink `/c/`, unlink `/b/`, mknod `/x`,
and a write of one byte to `/c`. -/
def reuseCalls : List Call :=
  [ .mknod (ascii "/a") regMode 1000 1000 (clockAt 200),
    .mknod (ascii "/b") regMode 1000 1000 (clockAt 200),
    .mknod (ascii "/c") regMode 1000 1000 (clockAt 200),
    .unlink (ascii "/c/"),
    .unlink (ascii "/b/"),
    .mknod (ascii "/x") regMode 1000 1000 (clockAt 200),
    .write (ascii "/c") (ascii "A") 0 (clockAt 201) ]

/-- Mirrored mode, two disks: `reuseCalls`, then mknod `/y`.  The return
values of the calls of `reuseCalls`; then bit 3 of the inode bitmap and
`blocks[0]` of inode 3 before the mknod; then the return value of the mknod,
the index that `/y` resolves to, and `size`, `nlinks` and `blocks[0]` of that
inode after it. -/
def reuseScenario : Option (List Int × List Int) := do
  let s0 ← fresh 1 2
  let rets ← callRets 7 s0 reuseCalls
  let s ← runCalls 7 s0 reuseCalls
  let r ← wfs_mknod 7 s (ascii "/y") regMode 1000 1000 (clockAt 300)
  let i ← parsePath 7 r.2 (ascii "/y")
  some (rets, [bitOf s.d0.imap 3, (s.d0.inodes 3).blocks.getD 0 0, r.1, i,
    (r.2.d0.inodes 3).size, (r.2.d0.inodes 3).nlinks, (r.2.d0.inodes 3).blocks.getD 0 0])

/-- The state after `reuseCalls` on a fresh mirrored pair. -/
def reuseState : FS := (runCalls 7 full0 reuseCalls).getD noFS

/-- The state after mknod `/y` in `reuseState`. -/
def reuseEnd : FS :=
  ((wfs_mknod 7 reuseState (ascii "/y") regMode 1000 1000 (clockAt 300)).map Prod.snd).getD noFS

/-- A disk image of `n` bytes that was in use before: every byte is 255. -/
def usedImage (n : Nat) : Image := { st_size := n, bytes := fun _ => 255 }

/-- The calls mknod `/g`, 29 writes of one byte to `/g` at the start of the
blocks 0 to 28 of the file, mknod `/f`, and a write of one byte to `/f` at
offset `7 * 512`. -/
def lastBlockCalls : List Call :=
  .mknod (ascii "/g") regMode 1000 1000 (clockAt 200) ::
  (List.range 29).map (fun k => Call.write (ascii "/g") [65] (512 * k) (clockAt 200)) ++
  [ .mknod (ascii "/f") regMode 1000 1000 (clockAt 200),
    .write (ascii "/f") [65] (7 * 512) (clockAt 200) ]

/-- Striped mode, one used disk image of 1 MiB, `mkfs -i 32 -b 32`, then
`lastBlockCalls`.  The return values of the last two calls; then of inode 2
(`/f`): its bit in the inode bitmap and its pointer `blocks[7]`; the index of
the data block at that pointer and its bit in the data bitmap;
`d_blocks_ptr + num_data_blocks * 512`; and the slots 0, 7 and 8 of the block
at that pointer. -/
def lastBlockScenario : Option (List Int × List Nat) := do
  let s0 ← formatted (mkfs_main 56 7 0 [usedImage 1048576] 32 32 1000 1000 100)
  let rets ← callRets 7 s0 lastBlockCalls
  let s ← runCalls 7 s0 lastBlockCalls
  let ip := (s.d0.inodes 2).blocks.getD 7 0
  some (rets.drop 30, [bitOf s.d0.imap 2, ip, (ip - s.d0.sb.d_blocks_ptr) / BLOCK_SIZE,
    bitOf s.d0.dmap ((ip - s.d0.sb.d_blocks_ptr) / BLOCK_SIZE), s.dataEnd,
    decode64 (memLoad s.d0.mem ip OFF_SIZE),
    decode64 (memLoad s.d0.mem (ip + 7 * OFF_SIZE) OFF_SIZE),
    decode64 (memLoad s.d0.mem (ip + 8 * OFF_SIZE) OFF_SIZE)])

/-- Mirrored mode, two disks: mknod of `/` followed by `name`, the index that
the path resolves to afterwards, and the return value of a second mknod of the
same path. -/
def createResolveScenario (name : List Nat) : Option (List Int) := do
  let s0 ← fresh 1 2
  let r1 ← wfs_mknod 7 s0 (47 :: name) regMode 1000 1000 (clockAt 200)
  let i ← parsePath 7 r1.2 (47 :: name)
  let r2 ← wfs_mknod 7 r1.2 (47 :: name) regMode 1000 1000 (clockAt 201)
  some [r1.1, i, r2.1]

/-- Striped mode, two disks: mknod of `/` followed by `name`, then a write of
`hello` at offset 0, a read of 5 bytes at offset 0 and getattr, all on the same
path.  First list: the return value of mknod, the bit of inode 1 in the inode
bitmap and the size of inode 1 after mknod, the return values of write, read
and getattr, and `st_size` of the stat buffer.  Second list: the block pointers
of inode 1 after mknod, followed by the bytes that the read delivered. -/
def createWriteReadScenario (name : List Nat) : Option (List Int × List Nat) := do
  let s0 ← fresh 0 2
  let r1 ← wfs_mknod 7 s0 (47 :: name) regMode 1000 1000 (clockAt 200)
  let r2 ← wfs_write 7 r1.2 (47 :: name) (ascii "hello") 0 (clockAt 201)
  let r3 ← wfs_read 7 r2.2 (47 :: name) 5 0 (clockAt 202)
  let r4 ← wfs_getattr 7 r3.2.2 (47 :: name) (statOf (zeroInode 7)) (clockAt 203)
  some ([r1.1, bitOf r1.2.d0.imap 1, (r1.2.d0.inodes 1).size, r2.1, r3.1, r4.1, r4.2.1.st_size],
    (r1.2.d0.inodes 1).blocks ++ r3.2.1)

/-- Thirty-three pairwise distinct file names: 28 bytes `a`; then `fB`, `fC`,
... (30 names); then `fz`; then 28 bytes `a` followed by the byte 1. -/
def aliasNames : List (List Nat) :=
  List.replicate 28 97 :: (List.range 30).map (fun n => ascii "f" ++ [66 + n]) ++
  [ascii "fz", List.replicate 28 97 ++ [1]]

/-- One mknod call in `/` for each name of `aliasNames`, in that order. -/
def aliasCalls : List Call :=
  aliasNames.map (fun name => Call.mknod (47 :: name) regMode 1000 1000 (clockAt 200))

/-- Mirrored mode, two disks, `mkfs -i 32 -b 32`, then `aliasCalls`: the return
values of the 33 calls. -/
def aliasScenario : Option (List Int) :=
  (fresh 1 2).bind (fun s0 => callRets 7 s0 aliasCalls)

end Wfs

namespace Wfs

/-! ## Bit-level facts about the bitmaps -/

theorem bitOf_eq_testBit (bm : Nat → Nat) (i : Nat) :
    bitOf bm i = if (bm (i / 8)).testBit (i % 8) then 1 else 0 := by
  unfold bitOf
  rw [Nat.testBit, Nat.and_comm]
  have h : 1 &&& (bm (i / 8) >>> (i % 8)) = (bm (i / 8) >>> (i % 8)) % 2 := by
    rw [Nat.and_comm]; exact Nat.and_one_is_mod _
  rw [h]
  rcases Nat.mod_two_eq_zero_or_one (bm (i / 8) >>> (i % 8)) with h0 | h1
  · simp [h0]
  · simp [h1]

theorem bitOf_le_one (bm : Nat → Nat) (i : Nat) : bitOf bm i = 0 ∨ bitOf bm i = 1 := by
  rw [bitOf_eq_testBit]; split <;> simp

theorem idx_eq_iff (i j : Nat) : j = i ↔ (j / 8 = i / 8 ∧ j % 8 = i % 8) := by
  constructor
  · rintro rfl; exact ⟨rfl, rfl⟩
  · rintro ⟨h1, h2⟩; omega

theorem bitOf_setBit (bm : Nat → Nat) (i j : Nat) :
    bitOf (setBit bm i) j = if j = i then 1 else bitOf bm j := by
  rw [bitOf_eq_testBit, bitOf_eq_testBit]
  unfold setBit upd
  by_cases hb : j / 8 = i / 8
  · simp only [hb, if_true]
    rw [Nat.testBit_lor, Nat.testBit_shiftLeft]
    by_cases hm : j % 8 = i % 8
    · have : j = i := (idx_eq_iff i j).2 ⟨hb, hm⟩
      subst this; simp
    · have hne : ¬ j = i := fun h => hm (by rw [h])
      rw [if_neg hne]
      by_cases hge : j % 8 ≥ i % 8
      · have h1 : (1 : Nat).testBit (j % 8 - i % 8) = false := by
          have : j % 8 - i % 8 ≠ 0 := by omega
          rw [show (1:Nat) = 2 ^ 0 from rfl, Nat.testBit_two_pow]
          simp; omega
        simp [h1]
      · simp [hge]
  · have hne : ¬ j = i := fun h => hb (by rw [h])
    simp [hb, hne]

theorem testBit_mask (k k2 : Nat) (hk : k < 8) (hk2 : k2 < 8) :
    (255 - 1 <<< k).testBit k2 = decide (k2 ≠ k) := by
  interval_cases k <;> interval_cases k2 <;> decide

theorem bitOf_freeBit (bm : Nat → Nat) (i j : Nat) :
    bitOf (freeBitFromMap bm i) j = if j = i then 0 else bitOf bm j := by
  rw [bitOf_eq_testBit, bitOf_eq_testBit]
  unfold freeBitFromMap upd
  by_cases hb : j / 8 = i / 8
  · simp only [hb, if_true]
    rw [Nat.testBit_and, testBit_mask _ _ (Nat.mod_lt _ (by norm_num)) (Nat.mod_lt _ (by norm_num))]
    by_cases hm : j % 8 = i % 8
    · have : j = i := (idx_eq_iff i j).2 ⟨hb, hm⟩
      subst this; simp
    · have hne : ¬ j = i := fun h => hm (by rw [h])
      simp [hm, hne]
  · have hne : ¬ j = i := fun h => hb (by rw [h])
    simp [hb, hne]

/-- What the loop of `findAndAllocFromMap` returns: either the first clear
bit at or after `i` (set afterwards), or -1 with the bitmap untouched when
all bits in `[i, len)` are set. -/
theorem findAndAllocLoop_spec (bm : Nat → Nat) (len : Nat) :
    ∀ fuel i, len ≤ i + fuel →
      (∃ k, i ≤ k ∧ k < len ∧ bitOf bm k = 0 ∧ (∀ j, i ≤ j → j < k → bitOf bm j ≠ 0) ∧
          findAndAllocLoop bm len fuel i = ((k : Int), setBit bm k)) ∨
      ((∀ j, i ≤ j → j < len → bitOf bm j ≠ 0) ∧ findAndAllocLoop bm len fuel i = (-1, bm)) := by
  intro fuel
  induction fuel with
  | zero =>
    intro i h
    right
    exact ⟨fun j h1 h2 => by omega, rfl⟩
  | succ n ih =>
    intro i h
    unfold findAndAllocLoop
    by_cases hi : i < len
    · rw [if_pos hi]
      by_cases hb : bitOf bm i = 0
      · rw [if_pos hb]
        left
        exact ⟨i, le_refl _, hi, hb, fun j h1 h2 => by omega, rfl⟩
      · rw [if_neg hb]
        rcases ih (i + 1) (by omega) with ⟨k, h1, h2, h3, h4, h5⟩ | ⟨h1, h2⟩
        · left
          refine ⟨k, by omega, h2, h3, ?_, h5⟩
          intro j hj1 hj2
          by_cases hji : j = i
          · subst hji; exact hb
          · exact h4 j (by omega) hj2
        · right
          refine ⟨?_, h2⟩
          intro j hj1 hj2
          by_cases hji : j = i
          · subst hji; exact hb
          · exact h1 j (by omega) hj2
    · rw [if_neg hi]
      right
      exact ⟨fun j h1 h2 => by omega, rfl⟩

theorem findAndAlloc_spec (bm : Nat → Nat) (len : Nat) :
    (∃ k, k < len ∧ bitOf bm k = 0 ∧ (∀ j, j < k → bitOf bm j ≠ 0) ∧
        findAndAllocFromMap bm len = ((k : Int), setBit bm k)) ∨
    ((∀ j, j < len → bitOf bm j ≠ 0) ∧ findAndAllocFromMap bm len = (-1, bm)) := by
  unfold findAndAllocFromMap
  rcases findAndAllocLoop_spec bm len len 0 (by omega) with ⟨k, _, h2, h3, h4, h5⟩ | ⟨h1, h2⟩
  · left; exact ⟨k, h2, h3, fun j hj => h4 j (Nat.zero_le _) hj, h5⟩
  · right; exact ⟨fun j hj => h1 j (Nat.zero_le _) hj, h2⟩

end Wfs

namespace Wfs

/-! ## Memory primitives -/

theorem memLoad_length (m : Nat → Nat) (a len : Nat) : (memLoad m a len).length = len := by
  simp [memLoad]

theorem memLoad_getD (m : Nat → Nat) (a len i : Nat) (h : i < len) :
    (memLoad m a len).getD i 0 = m (a + i) := by
  simp [memLoad, List.getD_eq_getElem?_getD, List.getElem?_map, List.getElem?_range h]

theorem memLoad_congr (m1 m2 : Nat → Nat) (a len : Nat)
    (h : ∀ i, i < len → m1 (a + i) = m2 (a + i)) : memLoad m1 a len = memLoad m2 a len := by
  unfold memLoad
  apply List.map_congr_left
  intro i hi
  exact h i (List.mem_range.1 hi)

theorem memStore_in (m : Nat → Nat) (a : Nat) (src : List Nat) (i : Nat) (h : i < src.length) :
    memStore m a src (a + i) = src.getD i 0 := by
  unfold memStore
  rw [if_pos ⟨by omega, by omega⟩]
  congr 1; omega

theorem memStore_out (m : Nat → Nat) (a : Nat) (src : List Nat) (x : Nat)
    (h : x < a ∨ a + src.length ≤ x) : memStore m a src x = m x := by
  unfold memStore
  rw [if_neg]; omega

theorem memLoad_memStore (m : Nat → Nat) (a : Nat) (src : List Nat) :
    memLoad (memStore m a src) a src.length = src := by
  apply List.ext_getElem
  · simp [memLoad]
  · intro i h1 h2
    simp only [memLoad, List.getElem_map, List.getElem_range]
    rw [memStore_in m a src i h2, List.getD_eq_getElem?_getD, List.getElem?_eq_getElem h2]
    rfl

theorem memLoad_eq_iff (m1 m2 : Nat → Nat) (a len : Nat) :
    memLoad m1 a len = memLoad m2 a len ↔ ∀ i, i < len → m1 (a + i) = m2 (a + i) := by
  constructor
  · intro h i hi
    have := congrArg (fun l => l.getD i 0) h
    simp only [memLoad_getD _ _ _ _ hi] at this
    exact this
  · exact memLoad_congr m1 m2 a len

/-! ## The voting loop -/

theorem cnt_cons (x b : List Nat) (l : List (List Nat)) :
    cnt x (b :: l) = (if x = b then 1 else 0) + cnt x l := by
  unfold cnt
  by_cases h : x = b
  · subst h; simp [List.filter_cons]; omega
  · have : (x == b) = false := by simpa using h
    simp [List.filter_cons, this, h]

theorem cnt_add_le (x y : List Nat) (hxy : x ≠ y) (l : List (List Nat)) :
    cnt x l + cnt y l ≤ l.length := by
  induction l with
  | nil => simp [cnt]
  | cons b l ih =>
    rw [cnt_cons, cnt_cons, List.length_cons]
    by_cases h1 : x = b
    · have h2 : ¬ y = b := fun h => hxy (h1.trans h.symm)
      simp [h1, h2] at *; omega
    · by_cases h2 : y = b
      · simp [h1, h2] at *; omega
      · simp [h1, h2]; omega

/-- Once every remaining copy occurs fewer than `bestCount` times, the
selection does not change any more. -/
theorem voteLoop_stable (l : List (List Nat)) :
    ∀ d bd bc, (∀ y, cnt y l < bc) → voteLoop l d bd bc = bd := by
  induction l with
  | nil => intro d bd bc _; rfl
  | cons b l ih =>
    intro d bd bc h
    have hb := h b
    rw [cnt_cons] at hb
    simp only [if_true] at hb
    have hc : 1 + (l.filter (fun b2 => b == b2)).length = 1 + cnt b l := rfl
    unfold voteLoop
    simp only [hc]
    rw [if_neg (by omega), if_neg (by omega)]
    apply ih
    intro y
    have := h y
    rw [cnt_cons] at this
    omega

/-- A copy that occurs more often than every other copy, and more often than
the current `bestCount`, wins: the selected index holds it. -/
theorem voteLoop_majority (x : List Nat) (l : List (List Nat)) :
    ∀ d bd bc, bc < cnt x l → (∀ y, y ≠ x → cnt y l < cnt x l) →
      ∃ i, l[i]? = some x ∧ voteLoop l d bd bc = d + i := by
  induction l with
  | nil => intro d bd bc h _; simp [cnt] at h
  | cons b l ih =>
    intro d bd bc hbc hoth
    have hc : 1 + (l.filter (fun b2 => b == b2)).length = 1 + cnt b l := rfl
    by_cases hbx : b = x
    · subst hbx
      refine ⟨0, by simp, ?_⟩
      have hx : cnt b (b :: l) = 1 + cnt b l := by rw [cnt_cons]; simp
      unfold voteLoop
      simp only [hc]
      rw [if_pos (by omega)]
      rw [voteLoop_stable l (d + 1) d (1 + cnt b l)]
      · rfl
      · intro y
        by_cases hy : y = b
        · subst hy; omega
        · have := hoth y hy
          rw [cnt_cons, hx] at this
          omega
    · have hx : cnt x (b :: l) = cnt x l := by
        rw [cnt_cons]; simp [show ¬ x = b from fun h => hbx h.symm]
      have hb : 1 + cnt b l < cnt x l := by
        have := hoth b hbx
        rw [cnt_cons, hx] at this
        simpa using this
      have hoth2 : ∀ y, y ≠ x → cnt y l < cnt x l := by
        intro y hy
        have := hoth y hy
        rw [cnt_cons, hx] at this
        omega
      rw [hx] at hbc
      unfold voteLoop
      simp only [hc]
      split_ifs with h1 h2
      · obtain ⟨i, hi1, hi2⟩ := ih (d + 1) d (1 + cnt b l) hb hoth2
        exact ⟨i + 1, by simpa using hi1, by rw [hi2]; omega⟩
      · obtain ⟨i, hi1, hi2⟩ := ih (d + 1) d bc hbc hoth2
        exact ⟨i + 1, by simpa using hi1, by rw [hi2]; omega⟩
      · obtain ⟨i, hi1, hi2⟩ := ih (d + 1) bd bc hbc hoth2
        exact ⟨i + 1, by simpa using hi1, by rw [hi2]; omega⟩

/-- The selected disk is always one of the disks at hand. -/
theorem voteLoop_lt (l : List (List Nat)) :
    ∀ d bd bc, bd < d + l.length ∨ (l = [] ∧ bd = 0 ∧ d = 0) → bd ≤ d →
      voteLoop l d bd bc < d + l.length ∨ l = [] := by
  induction l with
  | nil => intro d bd bc _ _; right; rfl
  | cons b l ih =>
    intro d bd bc h hle
    left
    unfold voteLoop
    simp only []
    have key : ∀ bd2 bc2, bd2 ≤ d → voteLoop l (d + 1) bd2 bc2 < d + (b :: l).length := by
      intro bd2 bc2 h2
      rcases ih (d + 1) bd2 bc2 (Or.inl (by simp at *; omega)) (by omega) with h3 | h3
      · simp at *; omega
      · subst h3; simp [voteLoop]; omega
    split_ifs
    · exact key d _ (le_refl _)
    · exact key d _ (le_refl _)
    · exact key bd _ hle

theorem bestDisk_lt (l : List (List Nat)) (h : l ≠ []) : bestDisk l < l.length := by
  unfold bestDisk
  cases l with
  | nil => exact absurd rfl h
  | cons b l =>
    rcases voteLoop_lt (b :: l) 0 0 1 (Or.inl (by simp)) (le_refl _) with h1 | h1
    · simpa using h1
    · simp at h1

/-- With a strict majority of equal copies `x`, the selected disk holds `x`. -/
theorem bestDisk_majority (x : List Nat) (l : List (List Nat))
    (h : l.length < 2 * cnt x l) : l[bestDisk l]? = some x := by
  unfold bestDisk
  by_cases h1 : 1 < cnt x l
  · have hoth : ∀ y, y ≠ x → cnt y l < cnt x l := by
      intro y hy
      have := cnt_add_le y x hy l
      omega
    obtain ⟨i, hi1, hi2⟩ := voteLoop_majority x l 0 0 1 h1 hoth
    rw [hi2]; simpa using hi1
  · cases l with
    | nil => simp [cnt] at h
    | cons b l =>
      cases l with
      | nil =>
        rw [cnt_cons] at h
        by_cases hb : x = b
        · subst hb; simp [voteLoop]
        · simp [hb, cnt] at h
      | cons c l => simp at h; omega

/-! ## The repair loop -/

theorem repairLoop_length (best : Nat) (bb : List Nat) (a : Nat) (l : List Disk) :
    ∀ d, (repairLoop best bb a d l).length = l.length := by
  induction l with
  | nil => intro d; rfl
  | cons x l ih => intro d; simp [repairLoop, ih]

/-- A property of single disks that a block store keeps is kept by the repair loop. -/
theorem repairLoop_forall (P : Disk → Prop) (best : Nat) (bb : List Nat) (a : Nat)
    (hP : ∀ dk, P dk → P { dk with mem := memStore dk.mem a bb }) (l : List Disk) :
    ∀ d, (∀ dk ∈ l, P dk) → ∀ dk ∈ repairLoop best bb a d l, P dk := by
  induction l with
  | nil => intro d _ dk h; simp [repairLoop] at h
  | cons x l ih =>
    intro d h dk hdk
    simp only [repairLoop, List.mem_cons] at hdk
    rcases hdk with rfl | hdk
    · split_ifs
      · exact hP x (h x (List.mem_cons_self _ _))
      · exact h x (List.mem_cons_self _ _)
    · exact ih (d + 1) (fun y hy => h y (List.mem_cons_of_mem _ hy)) dk hdk

/-- After the repair loop every disk holds the winning copy. -/
theorem repairLoop_equal (best : Nat) (bb : List Nat) (a : Nat) (hbb : bb.length = BLOCK_SIZE)
    (l : List Disk) :
    ∀ d, (∀ i dk, l[i]? = some dk → d + i = best → memLoad dk.mem a BLOCK_SIZE = bb) →
      ∀ dk ∈ repairLoop best bb a d l, memLoad dk.mem a BLOCK_SIZE = bb := by
  induction l with
  | nil => intro d _ dk h; simp [repairLoop] at h
  | cons x l ih =>
    intro d h dk hdk
    simp only [repairLoop, List.mem_cons] at hdk
    rcases hdk with rfl | hdk
    · split_ifs with h1
      · show memLoad (memStore x.mem a bb) a BLOCK_SIZE = bb
        rw [← hbb]; exact memLoad_memStore _ _ _
      · by_cases h2 : d = best
        · exact h 0 x (by simp) (by omega)
        · by_contra h3
          exact h1 ⟨h2, fun h4 => h3 h4.symm⟩
    · apply ih (d + 1) _ dk hdk
      intro i dk2 h1 h2
      exact h (i + 1) dk2 (by simpa using h1) (by omega)

theorem voteAndRepair_disks (s : FS) (a : Nat) :
    (voteAndRepair s a).1.disks =
      repairLoop (bestDisk (s.disks.map (fun d => memLoad d.mem a BLOCK_SIZE)))
        ((s.disks.map (fun d => memLoad d.mem a BLOCK_SIZE)).getD
          (bestDisk (s.disks.map (fun d => memLoad d.mem a BLOCK_SIZE))) []) a 0 s.disks := by
  unfold voteAndRepair
  simp only []
  split
  · rename_i d0 rest h
    rw [h]; rfl
  · rename_i h
    have := congrArg List.length h
    rw [repairLoop_length] at this
    simp [FS.disks] at this

theorem voteAndRepair_buf (s : FS) (a : Nat) :
    (voteAndRepair s a).2 =
        ((s.disks.map (fun d => memLoad d.mem a BLOCK_SIZE)).getD
          (bestDisk (s.disks.map (fun d => memLoad d.mem a BLOCK_SIZE))) []) := by
  unfold voteAndRepair
  simp only []
  split <;> rfl

/-- The winning copy is the copy of one of the disks. -/
theorem voteAndRepair_buf_mem (s : FS) (a : Nat) :
    ∃ d ∈ s.disks, (voteAndRepair s a).2 = memLoad d.mem a BLOCK_SIZE := by
  rw [voteAndRepair_buf]
  have hne : s.disks.map (fun d => memLoad d.mem a BLOCK_SIZE) ≠ [] := by simp [FS.disks]
  have hlt := bestDisk_lt _ hne
  rw [List.length_map] at hlt
  refine ⟨s.disks[bestDisk (s.disks.map (fun d => memLoad d.mem a BLOCK_SIZE))], List.getElem_mem _, ?_⟩
  rw [List.getD_eq_getElem?_getD, List.getElem?_map, List.getElem?_eq_getElem hlt]
  simp only [Option.map_some', Option.getD_some]

theorem voteAndRepair_equal (s : FS) (a : Nat) :
    ∀ d ∈ (voteAndRepair s a).1.disks, memLoad d.mem a BLOCK_SIZE = (voteAndRepair s a).2 := by
  rw [voteAndRepair_disks, voteAndRepair_buf]
  have hne : s.disks.map (fun d => memLoad d.mem a BLOCK_SIZE) ≠ [] := by simp [FS.disks]
  have hlt := bestDisk_lt _ hne
  rw [List.length_map] at hlt
  apply repairLoop_equal
  · rw [List.getD_eq_getElem?_getD, List.getElem?_map, List.getElem?_eq_getElem hlt]
    simp [memLoad_length]
  · intro i dk h1 h2
    rw [Nat.zero_add] at h2
    rw [← h2, List.getD_eq_getElem?_getD, List.getElem?_map, h1]
    simp only [Option.map_some', Option.getD_some]

theorem voteAndRepair_majority (s : FS) (a : Nat) (x : List Nat)
    (h : s.disks.length < 2 * cnt x (s.disks.map (fun d => memLoad d.mem a BLOCK_SIZE))) :
    (voteAndRepair s a).2 = x := by
  rw [voteAndRepair_buf]
  have := bestDisk_majority x (s.disks.map (fun d => memLoad d.mem a BLOCK_SIZE))
    (by rw [List.length_map]; exact h)
  rw [List.getD_eq_getElem?_getD, this]; simp only [Option.getD_some]

end Wfs

namespace Wfs

/-! ## `wfs_mknod`: superblock and inode bitmap -/

theorem iCount_congr (s t : FS) (h : t.d0.sb = s.d0.sb) : t.iCount = s.iCount := by
  unfold FS.iCount; rw [h]

theorem rest_nil_of_count (s : FS) (h : ¬ s.disk_count > 1) : s.rest = [] := by
  unfold FS.disk_count at h
  cases hr : s.rest with
  | nil => rfl
  | cons a l => simp [hr] at h

theorem allocData_spec (s s' : FS) (p : Nat) (h : allocData s = some (p, s')) :
    ∃ k, k < s.dCount ∧ bitOf s.d0.dmap k = 0 ∧ (∀ j, j < k → bitOf s.d0.dmap j ≠ 0) ∧
      p = s.d0.sb.d_blocks_ptr + BLOCK_SIZE * k ∧
      s' = { s with d0 := { s.d0 with dmap := setBit s.d0.dmap k } } := by
  unfold allocData at h
  dsimp only at h
  rcases findAndAlloc_spec s.d0.dmap s.dCount with ⟨k, h1, h2, h3, h4⟩ | ⟨_, h4⟩
  · rw [h4] at h
    simp only [Int.natCast_nonneg, not_lt.2, if_false, Option.some.injEq, Prod.mk.injEq,
      Int.toNat_ofNat] at h
    exact ⟨k, h1, h2, h3, h.1.symm, h.2.symm⟩
  · rw [h4] at h
    simp at h

theorem allocData_none (s : FS) (h : allocData s = none) :
    ∀ j, j < s.dCount → bitOf s.d0.dmap j ≠ 0 := by
  unfold allocData at h
  dsimp only at h
  rcases findAndAlloc_spec s.d0.dmap s.dCount with ⟨k, h1, h2, h3, h4⟩ | ⟨h3, h4⟩
  · rw [h4] at h
    simp at h
  · exact h3

theorem mknodReplicate_spec (s s' : FS) (pidx idx dbo : Nat)
    (h : mknodReplicate s pidx idx dbo = some s') :
    s'.d0 = s.d0 ∧ s'.rest.map (fun d => d.sb) = s.rest.map (fun d => d.sb) ∧
      ∀ d ∈ s'.rest, ∀ j, j < s.iCount / 8 → d.imap j = s.d0.imap j := by
  unfold mknodReplicate at h
  split_ifs at h with h1
  · simp only [Option.bind_eq_bind, Option.bind_eq_some] at h
    obtain ⟨a, ha, h⟩ := h
    simp only [Option.some.injEq] at h
    subst h
    refine ⟨?_, ?_, ?_⟩
    · split_ifs <;> rfl
    · split_ifs <;>
        simp [replicate_inode, replicate_block, replicate_dataMap, replicate_inodeMap,
          List.map_map, Function.comp_def]
    · intro d hd j hj
      have hj2 : j < s.d0.sb.num_inodes / 8 := hj
      split_ifs at hd <;>
      · simp only [replicate_inode, replicate_block, replicate_dataMap, replicate_inodeMap,
          List.map_map, List.mem_map, Function.comp_def] at hd
        obtain ⟨d1, _, rfl⟩ := hd
        simp [mapCopy, hj2, FS.iCount]
  · simp only [Option.some.injEq] at h
    subst h
    have := rest_nil_of_count _ h1
    exact ⟨rfl, rfl, by simp [this]⟩

theorem mknodDirSlot_spec (D : Nat) (s s' : FS) (pidx : Nat) (clock : Nat → Int) (r)
    (h : mknodDirSlot D s pidx clock = some (s', r)) :
    s'.d0.sb = s.d0.sb ∧ s'.d0.imap = s.d0.imap ∧ s'.rest = s.rest := by
  unfold mknodDirSlot at h
  simp only [Option.bind_eq_bind, Option.bind_eq_some] at h
  obtain ⟨bn, _, p0, _, h⟩ := h
  split_ifs at h
  · simp only [Option.some.injEq, Prod.mk.injEq] at h
    obtain ⟨rfl, _⟩ := h
    exact ⟨rfl, rfl, rfl⟩
  · split at h
    · simp only [Option.some.injEq, Prod.mk.injEq] at h
      obtain ⟨rfl, _⟩ := h
      exact ⟨rfl, rfl, rfl⟩
    · rename_i p s3 hal
      simp only [Option.some.injEq, Prod.mk.injEq] at h
      obtain ⟨rfl, _⟩ := h
      obtain ⟨k, _, _, _, _, rfl⟩ := allocData_spec _ _ _ hal
      exact ⟨rfl, rfl, rfl⟩
  · simp only [Option.some.injEq, Prod.mk.injEq] at h
    obtain ⟨rfl, _⟩ := h
    exact ⟨rfl, rfl, rfl⟩

theorem mknodFill_spec (s s' : FS) (pidx index bn : Nat) (off : Int) (name : List Nat)
    (mode uid gid : Nat) (clock : Nat → Int)
    (h : mknodFill s pidx index bn off name mode uid gid clock = some s') :
    s'.d0.sb = s.d0.sb ∧ s'.d0.imap = s.d0.imap ∧
      s'.rest.map (fun d => d.sb) = s.rest.map (fun d => d.sb) ∧
      ∀ d ∈ s'.rest, ∀ j, j < s.iCount / 8 → d.imap j = s.d0.imap j := by
  unfold mknodFill at h
  simp only [Option.bind_eq_bind, Option.bind_eq_some] at h
  obtain ⟨p, _, loc, _, dbo, _, h8⟩ := h
  obtain ⟨e1, e2, e3⟩ := mknodReplicate_spec _ _ _ _ _ h8
  refine ⟨?_, ?_, ?_, ?_⟩
  · rw [e1]; split_ifs <;> rfl
  · rw [e1]; split_ifs <;> rfl
  · rw [e2]; split_ifs <;> rfl
  · intro d hd j hj
    have := e3 d hd j (by
      rw [iCount_congr s]; · exact hj
      split_ifs <;> rfl)
    rw [this]
    split_ifs <;> rfl

theorem mknodAddEntry_spec (D : Nat) (s s' : FS) (pidx index : Nat) (name : List Nat)
    (mode uid gid : Nat) (clock : Nat → Int) (ret : Int)
    (h : mknodAddEntry D s pidx index name mode uid gid clock = some (ret, s')) :
    s'.d0.sb = s.d0.sb ∧ s'.rest.map (fun d => d.sb) = s.rest.map (fun d => d.sb) ∧
    ((ret = -ENOSPC ∧ s'.rest = s.rest ∧ s'.d0.imap = freeBitFromMap s.d0.imap index) ∨
     (ret = 0 ∧ s'.d0.imap = s.d0.imap ∧
        ∀ d ∈ s'.rest, ∀ j, j < s.iCount / 8 → d.imap j = s.d0.imap j)) := by
  unfold mknodAddEntry at h
  simp only [Option.bind_eq_bind, Option.bind_eq_some] at h
  obtain ⟨⟨s1, r⟩, h1, h⟩ := h
  obtain ⟨e1, e2, e3⟩ := mknodDirSlot_spec _ _ _ _ _ _ h1
  cases r with
  | none =>
    simp only [Option.some.injEq, Prod.mk.injEq] at h
    obtain ⟨rfl, rfl⟩ := h
    refine ⟨e1, by rw [show ∀ t : FS, ({ t with d0 := { t.d0 with imap := freeBitFromMap t.d0.imap index } } : FS).rest = t.rest from fun _ => rfl, e3], Or.inl ⟨rfl, e3, ?_⟩⟩
    show freeBitFromMap s1.d0.imap index = _
    rw [e2]
  | some v =>
    obtain ⟨bn, off⟩ := v
    simp only [Option.bind_eq_bind, Option.bind_eq_some, Option.some.injEq, Prod.mk.injEq] at h
    obtain ⟨s8, h8, rfl, rfl⟩ := h
    obtain ⟨f1, f2, f3, f4⟩ := mknodFill_spec _ _ _ _ _ _ _ _ _ _ _ h8
    refine ⟨f1.trans e1, by rw [f3, e3], Or.inr ⟨rfl, f2.trans e2, ?_⟩⟩
    intro d hd j hj
    rw [f4 d hd j (by rw [iCount_congr s _ e1]; exact hj), e2]

/-- What `wfs_mknod` does to the superblocks and the inode bitmaps. -/
theorem wfs_mknod_spec (D : Nat) (s s' : FS) (path : List Nat)
    (mode uid gid : Nat) (clock : Nat → Int) (ret : Int)
    (h : wfs_mknod D s path mode uid gid clock = some (ret, s')) :
    s'.d0.sb = s.d0.sb ∧ s'.rest.map (fun d => d.sb) = s.rest.map (fun d => d.sb) ∧
    ((ret ≠ 0 ∧ s'.rest = s.rest ∧ (s'.d0.imap = s.d0.imap ∨
        ∃ k, k < s.iCount ∧ bitOf s.d0.imap k = 0 ∧
          s'.d0.imap = freeBitFromMap (setBit s.d0.imap k) k)) ∨
     (ret = 0 ∧ ∃ k, k < s.iCount ∧ bitOf s.d0.imap k = 0 ∧
        (∀ j, j < k → bitOf s.d0.imap j ≠ 0) ∧ s'.d0.imap = setBit s.d0.imap k ∧
        ∀ d ∈ s'.rest, ∀ j, j < s.iCount / 8 → d.imap j = s'.d0.imap j)) := by
  unfold wfs_mknod at h
  simp only [Option.bind_eq_bind, Option.bind_eq_some] at h
  obtain ⟨r, _, h⟩ := h
  have stay : ∀ e : Int, e ≠ 0 → some (e, s) = some (ret, s') →
      s'.d0.sb = s.d0.sb ∧ s'.rest.map (fun d => d.sb) = s.rest.map (fun d => d.sb) ∧
      ((ret ≠ 0 ∧ s'.rest = s.rest ∧ (s'.d0.imap = s.d0.imap ∨
          ∃ k, k < s.iCount ∧ bitOf s.d0.imap k = 0 ∧
            s'.d0.imap = freeBitFromMap (setBit s.d0.imap k) k)) ∨
       (ret = 0 ∧ ∃ k, k < s.iCount ∧ bitOf s.d0.imap k = 0 ∧
          (∀ j, j < k → bitOf s.d0.imap j ≠ 0) ∧ s'.d0.imap = setBit s.d0.imap k ∧
          ∀ d ∈ s'.rest, ∀ j, j < s.iCount / 8 → d.imap j = s'.d0.imap j)) := by
    intro e he h
    simp only [Option.some.injEq, Prod.mk.injEq] at h
    obtain ⟨rfl, rfl⟩ := h
    exact ⟨rfl, rfl, Or.inl ⟨he, rfl, Or.inl rfl⟩⟩
  split_ifs at h with h1 h2 h3 h4
  · exact stay _ (by decide) h
  · exact stay _ (by decide) h
  · simp only [Option.bind_eq_bind, Option.bind_eq_some] at h
    obtain ⟨pi, _, h⟩ := h
    split_ifs at h
    · exact stay _ (by decide) h
    · exact stay _ (by decide) h
  · simp only [Option.bind_eq_bind, Option.bind_eq_some] at h
    obtain ⟨pi, _, h⟩ := h
    split_ifs at h
    · exact stay _ (by decide) h
    · simp only [Option.bind_eq_bind, Option.bind_eq_some] at h
      obtain ⟨pidx, _, h⟩ := h
      rcases findAndAlloc_spec s.d0.imap s.iCount with ⟨k, k1, k2, k3, k4⟩ | ⟨_, k4⟩
      · rw [k4] at h
        simp only [Int.toNat_ofNat] at h
        obtain ⟨e1, e2, e3⟩ := mknodAddEntry_spec _ _ _ _ _ _ _ _ _ _ _ h
        refine ⟨e1, e2, ?_⟩
        rcases e3 with ⟨g1, g2, g3⟩ | ⟨g1, g2, g3⟩
        · left
          exact ⟨by rw [g1]; decide, g2, Or.inr ⟨k, k1, k2, g3⟩⟩
        · right
          refine ⟨g1, k, k1, k2, k3, g2, ?_⟩
          intro d hd j hj
          rw [g3 d hd j hj, g2]
      · rw [k4] at h4
        simp at h4

theorem mknod_enospc_full (IND_BLOCK : Nat) (s : FS) (path : List Nat) (mode uid gid : Nat)
    (clock : Nat → Int) (r p : Int) (h : parsePath IND_BLOCK s path = some r) (hr : r < 0)
    (hc : (parseParentChild path).1 ≠ [])
    (hl : (parseParentChild path).2.length < MAX_NAME)
    (hp : parsePath IND_BLOCK s (parseParentChild path).2 = some p) (hp0 : 0 ≤ p)
    (hfull : ∀ j, j < s.iCount → bitOf s.d0.imap j ≠ 0) :
    wfs_mknod IND_BLOCK s path mode uid gid clock = some (-ENOSPC, s) := by
  unfold wfs_mknod
  have ha : findAndAllocFromMap s.d0.imap s.iCount = (-1, s.d0.imap) := by
    rcases findAndAlloc_spec s.d0.imap s.iCount with ⟨k, h1, h2, _, _⟩ | ⟨_, h2⟩
    · exact absurd h2 (hfull k h1)
    · exact h2
  simp [h, hr, hc, not_le.2 hr, not_le.2 hl, hp, hp0, not_lt.2 hp0, ha]

/-- A successful `wfs_mknod` sets the next inode bit. -/
theorem mknod_bitsUpTo (D : Nat) (s s' : FS) (c : MknodArgs) (n k : Nat) (ret : Int)
    (hn : s.iCount = n) (hb : bitsUpTo s.d0.imap n k)
    (h : mknodCall D s c = some (ret, s')) :
    s'.iCount = n ∧
      ((ret = 0 ∧ k + 1 < n ∧ bitsUpTo s'.d0.imap n (k + 1)) ∨
       (ret ≠ 0 ∧ bitsUpTo s'.d0.imap n k)) := by
  obtain ⟨e1, _, e3⟩ := wfs_mknod_spec _ _ _ _ _ _ _ _ _ h
  refine ⟨by rw [iCount_congr s s' e1, hn], ?_⟩
  rcases e3 with ⟨g1, _, g3⟩ | ⟨g1, k', k1, k2, k3, k4, _⟩
  · right
    refine ⟨g1, ?_⟩
    rcases g3 with g3 | ⟨k', k1, k2, g3⟩
    · rw [g3]; exact hb
    · intro j hj
      rw [g3, bitOf_freeBit, bitOf_setBit]
      by_cases hjk : j = k'
      · subst hjk
        have := hb j hj
        simp only [if_true]
        constructor
        · intro h0; exact absurd rfl h0
        · intro h0; exact absurd k2 (this.2 h0)
      · simp only [if_neg hjk]; exact hb j hj
  · left
    rw [hn] at k1
    have hk' : k' = k + 1 := by
      have h1 : ¬ k' ≤ k := fun hle => ((hb k' k1).2 hle) k2
      by_contra hne
      have h2 : k + 1 < k' := by omega
      exact h1 (by
        have := (hb (k + 1) (by omega)).1 (k3 (k + 1) h2)
        omega)
    subst hk'
    refine ⟨g1, k1, ?_⟩
    intro j hj
    rw [k4, bitOf_setBit]
    by_cases hjk : j = k + 1
    · subst hjk; simp
    · simp only [if_neg hjk]
      rw [hb j hj]; omega

theorem createAll_bitsUpTo (D : Nat) (n : Nat) (cs : List MknodArgs) :
    ∀ (s s' : FS) (k : Nat), s.iCount = n → k < n → bitsUpTo s.d0.imap n k →
      createAll D s cs = some s' →
      s'.iCount = n ∧ k + cs.length < n ∧ bitsUpTo s'.d0.imap n (k + cs.length) := by
  induction cs with
  | nil =>
    intro s s' k hn hk hb h
    simp only [createAll, Option.some.injEq] at h
    subst h
    exact ⟨hn, by simpa using hk, hb⟩
  | cons c cs ih =>
    intro s s' k hn hk hb h
    simp only [createAll, Option.bind_eq_some] at h
    obtain ⟨⟨ret, s1⟩, h1, h2⟩ := h
    split_ifs at h2 with h3
    obtain ⟨e1, e2⟩ := mknod_bitsUpTo D s s1 c n k ret hn hb h1
    rcases e2 with ⟨_, g2, g3⟩ | ⟨g1, _⟩
    · obtain ⟨f1, f2, f3⟩ := ih s1 s' (k + 1) e1 g2 g3 h2
      simp only [List.length_cons]
      exact ⟨f1, by omega, by rw [show k + (cs.length + 1) = k + 1 + cs.length by omega]; exact f3⟩
    · exact absurd h3 g1


/-- The disk set that a successful `mkfs` run leaves. -/
theorem mkfs_main_some (SB D : Nat) (raid : Int) (imgs : List Image) (iArg bArg : Int)
    (uid gid : Nat) (now : Int) (s0 : FS)
    (r : Int)
    (h : mkfs_main SB D raid imgs iArg bArg uid gid now = some (r, some s0)) :
    intOk (roundup iArg 32) = true ∧ intOk (roundup bArg 32) = true ∧
    roundup iArg 32 ≠ 0 ∧ roundup bArg 32 ≠ 0 ∧
    intOk (roundup iArg 32 * BLOCK_SIZE) = true ∧ intOk (roundup bArg 32 * BLOCK_SIZE) = true ∧
    storesMapped SB (roundup iArg 32) (roundup bArg 32) = true ∧
    ∃ img0 rest, imgs = img0 :: rest ∧
      s0.d0 = formatDisk0 D (mkSuperblock SB (roundup iArg 32) (roundup bArg 32) raid imgs.length)
        (fsSize SB (roundup iArg 32) (roundup bArg 32)).toNat img0 uid gid now ∧
      s0.rest = rest.map (formatCopy s0.d0 (fsSize SB (roundup iArg 32) (roundup bArg 32)).toNat) := by
  unfold mkfs_main at h
  by_cases c1 : raid ≠ -1 ∧ raid ≠ 0 ∧ raid ≠ 1
  · rw [if_pos c1] at h; simp at h
  rw [if_neg c1] at h
  by_cases c2 : imgs.length > 10
  · rw [if_pos c2] at h; simp at h
  rw [if_neg c2] at h
  by_cases c3 : ¬ (intOk (roundup iArg 32) ∧ intOk (roundup bArg 32))
  · rw [if_pos c3] at h; simp at h
  rw [if_neg c3] at h
  dsimp only at h
  by_cases c4 : raid = -1 ∨ imgs.length = 0 ∨ roundup iArg 32 = 0 ∨ roundup bArg 32 = 0
  · rw [if_pos c4] at h; simp at h
  rw [if_neg c4] at h
  by_cases c5 : raid = 1 ∧ imgs.length < 2
  · rw [if_pos c5] at h; simp at h
  rw [if_neg c5] at h
  by_cases c6 : ¬ (intOk (roundup iArg 32 * BLOCK_SIZE) ∧ intOk (roundup bArg 32 * BLOCK_SIZE))
  · rw [if_pos c6] at h; simp at h
  rw [if_neg c6] at h
  split_ifs at h with c7 c8 c9
  · simp at h
  · cases imgs <;> simp at h
  · cases imgs with
    | nil => simp at h
    | cons img0 rest =>
      simp only [Option.some.injEq, Prod.mk.injEq] at h
      obtain ⟨-, h⟩ := h
      subst h
      push_neg at c3 c4 c6
      exact ⟨c3.1, c3.2, c4.2.2.1, c4.2.2.2, c6.1, c6.2, c9, img0, rest, rfl, rfl, rfl⟩
  · cases imgs <;> simp at h

theorem mkfs_main_ok (SB D : Nat) (raid : Int) (imgs : List Image) (iArg bArg : Int)
    (uid gid : Nat) (now : Int) (s0 : FS)
    (h : formatted (mkfs_main SB D raid imgs iArg bArg uid gid now) = some s0) :
    ∃ img0 rest, imgs = img0 :: rest ∧
      s0.d0 = formatDisk0 D (mkSuperblock SB (roundup iArg 32) (roundup bArg 32) raid imgs.length)
        (fsSize SB (roundup iArg 32) (roundup bArg 32)).toNat img0 uid gid now ∧
      s0.rest = rest.map (formatCopy s0.d0 (fsSize SB (roundup iArg 32) (roundup bArg 32)).toNat) := by
  cases hm : mkfs_main SB D raid imgs iArg bArg uid gid now with
  | none => rw [hm] at h; simp [formatted] at h
  | some p =>
    obtain ⟨r, o⟩ := p
    cases o with
    | none => rw [hm] at h; simp [formatted] at h
    | some s =>
      rw [hm] at h
      simp only [formatted, Option.some.injEq] at h
      subst h
      exact (mkfs_main_some _ _ _ _ _ _ _ _ _ _ _ hm).2.2.2.2.2.2.2

theorem fresh_bits (SB D : Nat) (raid : Int) (imgs : List Image) (bArg : Int)
    (uid gid : Nat) (now : Int) (s0 : FS)
    (h : formatted (mkfs_main SB D raid imgs 32 bArg uid gid now) = some s0) :
    s0.iCount = 32 ∧ bitsUpTo s0.d0.imap 32 0 := by
  obtain ⟨img0, rest, _, e2, _⟩ := mkfs_main_ok _ _ _ _ _ _ _ _ _ _ h
  constructor
  · unfold FS.iCount; rw [e2]; rfl
  · rw [e2]
    intro j hj
    show bitOf (upd (fun _ => 0) 0 (0 ||| 1)) j ≠ 0 ↔ j ≤ 0
    interval_cases j <;> decide


theorem lastSlash_root (name : List Nat) (h : 47 ∉ name) :
    ∀ n, n ≤ name.length → lastSlash (47 :: name) (n + 1) = some 0 := by
  intro n
  induction n with
  | zero => intro _; simp [lastSlash]
  | succ n ih =>
    intro hn
    unfold lastSlash
    have hne : (47 :: name).getD (n + 1) 0 ≠ 47 := by
      rw [List.getD_cons_succ, List.getD_eq_getElem?_getD, List.getElem?_eq_getElem (by omega)]
      intro h2
      apply h
      simp only [Option.getD_some] at h2
      rw [← h2]
      exact List.getElem_mem _
    rw [if_neg hne]
    exact ih (by omega)

/-- Splitting the path of a name directly under the root. -/
theorem parseParentChild_root (name : List Nat) (h : 47 ∉ name) (hne : name ≠ []) :
    parseParentChild (47 :: name) = (name.take MAX_NAME, []) := by
  unfold parseParentChild
  rw [List.length_cons, lastSlash_root name h name.length (le_refl _)]
  have : name.length ≠ 0 := fun h0 => hne (List.length_eq_zero.1 h0)
  simp [this]
  intro h0; exact absurd h0.symm this

theorem parsePath_nil (D : Nat) (s : FS) : parsePath D s [] = some 0 := rfl

end Wfs

namespace Wfs

/-! ## Evaluation of the concrete scenarios -/

theorem getD_of_isSome {α : Type} (o : Option α) (d : α) (h : o.isSome = true) :
    o = some (o.getD d) := by
  cases o with
  | none => cases h
  | some v => rfl

theorem pair_of_fst {α β : Type} (o : Option (α × β)) (a : α) (b : β)
    (h : o.map Prod.fst = some a) : o = some (a, (o.map Prod.snd).getD b) := by
  cases o with
  | none => cases h
  | some v =>
    simp only [Option.map_some', Option.some.injEq] at h
    subst h
    rfl

theorem pair_getD_of_isSome {α β : Type} (o : Option (α × β)) (a : α) (b : β)
    (h : o.isSome = true) :
    o = some ((o.map Prod.fst).getD a, (o.map Prod.snd).getD b) := by
  cases o with
  | none => cases h
  | some v => rfl

set_option maxRecDepth 1000000 in
theorem full0_eq :
    formatted (mkfs_main 56 7 1 (List.replicate 2 (zeroImage 1048576)) 32 32 1000 1000 100)
      = some full0 := getD_of_isSome (fresh 1 2) noFS (by decide!)
set_option maxRecDepth 1000000 in
/-- What the evaluation of the 33 calls of the inode-exhaustion scenario, and
of three path lookups in the state with 31 files, gives. -/
theorem full_facts :
    (createAll 7 full0 thirtyOneFiles).isSome = true ∧
    (mknodCall 7 full31 call32).isSome = true ∧
    parsePath 7 full32 call33.path = some (-1) ∧
    parsePath 7 full31 (ascii "/fA") = some 1 ∧
    parsePath 7 full31 (ascii "nodir/") = some (-1) ∧
    parsePath 7 full31 (ascii "/nodir/x") = some (-1) ∧
    parsePath 7 full31 (parseParentChild (ascii "/nodir/x")).2 = some (-1) := by decide!

theorem full31_eq : createAll 7 full0 thirtyOneFiles = some full31 :=
  getD_of_isSome (createAll 7 full0 thirtyOneFiles) noFS full_facts.1

theorem full32_eq : mknodCall 7 full31 call32 = some (ret32, full32) :=
  pair_getD_of_isSome (mknodCall 7 full31 call32) 0 noFS full_facts.2.1

theorem full33_path : parsePath 7 full32 call33.path = some (-1) := full_facts.2.2.1

set_option maxRecDepth 1000000 in
theorem striped0_eq :
    formatted (mkfs_main 56 7 0 (List.replicate 2 (zeroImage 1048576)) 32 32 1000 1000 100)
      = some striped0 := getD_of_isSome (fresh 0 2) noFS (by decide!)
end Wfs

namespace Wfs

/-! ## What the handlers leave alone: superblocks and inode bitmaps -/

end Wfs

namespace Wfs

/-! ## Bytes of the inode bitmap -/

theorem freeBit_setBit (bm : Nat → Nat) (k : Nat) (h : ∀ j, bm j < 256)
    (hk : bitOf bm k = 0) : freeBitFromMap (setBit bm k) k = bm := by
  funext j
  have hr : k % 8 < 8 := Nat.mod_lt _ (by norm_num)
  by_cases hj : j = k / 8
  · subst hj
    simp only [freeBitFromMap, setBit, upd, if_true]
    apply Nat.eq_of_testBit_eq
    intro i
    rw [Nat.testBit_and, Nat.testBit_lor]
    by_cases hi : i < 8
    · rw [testBit_mask _ _ hr hi]
      by_cases hik : i = k % 8
      · subst hik
        rw [bitOf_eq_testBit] at hk
        have : (bm (k / 8)).testBit (k % 8) = false := by
          by_contra hc
          simp only [Bool.not_eq_false] at hc
          rw [hc] at hk; simp at hk
        simp [this]
      · have h1 : (1 <<< (k % 8)).testBit i = false := by
          rw [Nat.testBit_shiftLeft]
          by_cases hge : i ≥ k % 8
          · have : i - k % 8 ≠ 0 := by omega
            rw [show (1:Nat) = 2 ^ 0 from rfl, Nat.testBit_two_pow]
            simp; omega
          · simp [hge]
        simp [h1, hik]
    · have hp : 2 ^ 8 ≤ 2 ^ i := Nat.pow_le_pow_right (by norm_num) (by omega)
      have h2 : (bm (k / 8)).testBit i = false :=
        Nat.testBit_lt_two_pow (lt_of_lt_of_le (h _) (le_trans (by norm_num) hp))
      have h3 : (255 - 1 <<< (k % 8)).testBit i = false :=
        Nat.testBit_lt_two_pow (lt_of_le_of_lt (Nat.sub_le _ _)
          (lt_of_lt_of_le (by norm_num : 255 < 2 ^ 8) hp))
      simp [h2, h3]
  · simp [freeBitFromMap, setBit, upd, hj]

/-! ## What `handleRemove` does to superblocks and inode bitmaps -/

end Wfs

namespace Wfs

/-! ## The superblock and the inode bitmap stay mirrored -/

theorem MetaInv_mkfs (SB D : Nat) (raid : Int) (imgs : List Image) (iArg bArg : Int)
    (uid gid : Nat) (now : Int) (s0 : FS)
    (h : formatted (mkfs_main SB D raid imgs iArg bArg uid gid now) = some s0) : MetaInv s0 := by
  obtain ⟨img0, rest, _, e2, e3⟩ := mkfs_main_ok _ _ _ _ _ _ _ _ _ _ h
  constructor
  · intro j
    rw [e2]
    show upd (fun _ => 0) 0 (0 ||| 1) j < 256
    unfold upd
    split_ifs <;> norm_num
  · intro d hd
    rw [e3, List.mem_map] at hd
    obtain ⟨im, _, rfl⟩ := hd
    exact ⟨rfl, fun _ _ => rfl⟩

end Wfs

namespace Wfs

/-! ## Arithmetic of the handlers -/

theorem wrap32_eq (x : Int) (h1 : -2147483648 ≤ x) (h2 : x < 2147483648) : wrap32 x = x := by
  unfold wrap32; omega

theorem cdiv_natCast (a b : Nat) : cdiv (a : Int) b = ((a / b : Nat) : Int) := by
  unfold cdiv; simp

theorem cmod_natCast (a b : Nat) : cmod (a : Int) b = ((a % b : Nat) : Int) := by
  unfold cmod; simp

theorem decode64_encode64 (v : Nat) (h : v < 2 ^ 64) : decode64 (encode64 v) = v := by
  simp [decode64, encode64, List.range, List.range.loop]
  omega

theorem encode64_length (v : Nat) : (encode64 v).length = OFF_SIZE := by
  simp [encode64, OFF_SIZE]

theorem decode64_zero (m : Nat → Nat) (a : Nat) (h : ∀ i, i < OFF_SIZE → m (a + i) = 0) :
    decode64 (memLoad m a OFF_SIZE) = 0 := by
  have h0 := h 0 (by decide)
  have h1 := h 1 (by decide)
  have h2 := h 2 (by decide)
  have h3 := h 3 (by decide)
  have h4 := h 4 (by decide)
  have h5 := h 5 (by decide)
  have h6 := h 6 (by decide)
  have h7 := h 7 (by decide)
  simp only [Nat.add_zero] at h0
  simp [decode64, memLoad, OFF_SIZE, List.range, List.range.loop, h0, h1, h2, h3, h4, h5, h6, h7]

/-! ## Blocks of the data region -/

theorem Allocated.isBlock {d : Disk} {p : Nat} (h : Allocated d p) : IsBlock d.sb p := by
  obtain ⟨k, h1, h2, _⟩ := h
  exact ⟨k, h1, h2⟩

theorem IsBlock.ge {sb : wfs_sb} {p : Nat} (h : IsBlock sb p) : sb.d_blocks_ptr ≤ p := by
  obtain ⟨k, _, h2⟩ := h
  omega

theorem IsBlock.le {sb : wfs_sb} {p : Nat} (h : IsBlock sb p) :
    p + BLOCK_SIZE ≤ sb.d_blocks_ptr + sb.num_data_blocks * BLOCK_SIZE := by
  obtain ⟨k, h1, h2⟩ := h
  have : BLOCK_SIZE * (k + 1) ≤ BLOCK_SIZE * sb.num_data_blocks := Nat.mul_le_mul_left _ h1
  rw [Nat.mul_comm sb.num_data_blocks]
  rw [Nat.mul_add] at this
  omega

theorem IsBlock.disjoint {sb : wfs_sb} {p q : Nat} (hp : IsBlock sb p) (hq : IsBlock sb q)
    (hne : p ≠ q) (a : Nat) (h1 : p ≤ a ∧ a < p + BLOCK_SIZE) : ¬ (q ≤ a ∧ a < q + BLOCK_SIZE) := by
  obtain ⟨k, _, rfl⟩ := hp
  obtain ⟨j, _, rfl⟩ := hq
  unfold BLOCK_SIZE at *
  intro h2
  apply hne
  have : k = j := by omega
  rw [this]

theorem addr_eq (s : FS) (a : Int) (len x : Nat) (hx : a = (x : Int))
    (h1 : s.d0.sb.d_blocks_ptr ≤ x)
    (h2 : x + len ≤ s.d0.sb.d_blocks_ptr + s.d0.sb.num_data_blocks * BLOCK_SIZE) :
    s.addr a len = some x := by
  unfold FS.addr FS.dataEnd
  subst hx
  rw [if_pos]
  · simp
  · constructor
    · exact_mod_cast h1
    · exact_mod_cast h2

theorem addr_block (s : FS) (p : Nat) (a : Int) (len o : Nat) (hp : IsBlock s.d0.sb p)
    (ha : a = (p : Int) + (o : Int)) (ho : o + len ≤ BLOCK_SIZE) :
    s.addr a len = some (p + o) := by
  apply addr_eq
  · rw [ha]; push_cast; rfl
  · have := hp.ge; omega
  · have := hp.le; omega

/-! ## Free blocks -/

theorem freeBits_setBit (bm : Nat → Nat) (k : Nat) (hk : bitOf bm k = 0) :
    ∀ n, freeBits (setBit bm k) n + (if k < n then 1 else 0) = freeBits bm n := by
  intro n
  induction n with
  | zero => simp [freeBits]
  | succ n ih =>
    simp only [freeBits, bitOf_setBit]
    by_cases h1 : n = k
    · subst h1
      simp only [if_true, hk, lt_irrefl, if_false] at ih ⊢
      simp
      omega
    · rw [if_neg h1]
      by_cases h3 : k < n
      · rw [if_pos h3] at ih
        rw [if_pos (show k < n + 1 by omega)]
        omega
      · rw [if_neg h3] at ih
        rw [if_neg (show ¬ k < n + 1 by omega)]
        omega

theorem freeBits_pos (bm : Nat → Nat) :
    ∀ n, 0 < freeBits bm n → ∃ j, j < n ∧ bitOf bm j = 0 := by
  intro n
  induction n with
  | zero => intro h; simp [freeBits] at h
  | succ n ih =>
    intro h
    simp only [freeBits] at h
    by_cases h0 : bitOf bm n = 0
    · exact ⟨n, by omega, h0⟩
    · rw [if_neg h0] at h
      obtain ⟨j, hj, hb⟩ := ih (by omega)
      exact ⟨j, by omega, hb⟩

theorem freeBits_zero (bm : Nat → Nat) :
    ∀ n, (∀ j, j < n → bitOf bm j ≠ 0) → freeBits bm n = 0 := by
  intro n
  induction n with
  | zero => intro _; rfl
  | succ n ih =>
    intro h
    simp only [freeBits]
    rw [ih (fun j hj => h j (by omega)), if_neg (h n (by omega))]

theorem allocData_isSome (s : FS) (h : 0 < s.d0.freeCount) : ∃ p t, allocData s = some (p, t) := by
  cases hh : allocData s with
  | some v => exact ⟨v.1, v.2, rfl⟩
  | none =>
    have := freeBits_zero _ _ (allocData_none s hh)
    unfold Disk.freeCount at h
    unfold FS.dCount at this
    omega

end Wfs

namespace Wfs

/-! ## Block pointers of a file -/

theorem getD_set (l : List Nat) (i j v : Nat) :
    (List.set l i v).getD j 0 = if i = j ∧ i < l.length then v else l.getD j 0 := by
  simp only [List.getD_eq_getElem?_getD, List.getElem?_set]
  by_cases h : i = j
  · subst h
    by_cases h2 : i < l.length
    · simp [h2]
    · simp [h2, List.getElem?_eq_none (not_lt.1 h2)]
  · simp [h]

theorem indPtr_congr {D : Nat} {d d' : Disk} {idx : Nat}
    (h : (d'.inodes idx).blocks = (d.inodes idx).blocks) : indPtr D d' idx = indPtr D d idx := by
  unfold indPtr; rw [h]

theorem filePtr_congr (D : Nat) (d d' : Disk) (idx b : Nat)
    (hb : (d'.inodes idx).blocks = (d.inodes idx).blocks)
    (hm : D ≤ b → indPtr D d idx ≠ 0 → ∀ i, i < OFF_SIZE →
      d'.mem (indPtr D d idx + OFF_SIZE * (b - D) + i)
        = d.mem (indPtr D d idx + OFF_SIZE * (b - D) + i)) :
    filePtr D d' idx b = filePtr D d idx b := by
  unfold filePtr
  rw [indPtr_congr hb, hb]
  split_ifs with h1 h2
  · rfl
  · rfl
  · rw [memLoad_congr _ _ _ _ (hm (by omega) h2)]

theorem slot_in_block (D b i p : Nat) (hb : b < maxBlocks D) (hD : D ≤ b) (hi : i < OFF_SIZE) :
    p ≤ p + OFF_SIZE * (b - D) + i ∧ p + OFF_SIZE * (b - D) + i < p + BLOCK_SIZE := by
  unfold maxBlocks BLOCK_SIZE OFF_SIZE at *
  omega

/-- Bytes outside the indirect block do not matter for the block pointers. -/
theorem filePtr_congr_out (D : Nat) (d d' : Disk) (idx b : Nat) (hb : b < maxBlocks D)
    (hbl : (d'.inodes idx).blocks = (d.inodes idx).blocks)
    (hm : ∀ a, indPtr D d idx ≤ a ∧ a < indPtr D d idx + BLOCK_SIZE → d'.mem a = d.mem a) :
    filePtr D d' idx b = filePtr D d idx b := by
  apply filePtr_congr _ _ _ _ _ hbl
  intro hD _ i hi
  exact hm _ (slot_in_block D b i _ hb hD hi)

theorem FileWF_same (D : Nat) (d d' : Disk) (idx : Nat) (hw : FileWF D d idx)
    (hl : (d'.inodes idx).blocks.length = D + 1)
    (hi : indPtr D d' idx = indPtr D d idx)
    (hp : ∀ b, b < maxBlocks D → filePtr D d' idx b = filePtr D d idx b)
    (ha : ∀ q, Allocated d q → Allocated d' q) : FileWF D d' idx := by
  refine ⟨hl, ?_, ?_, ?_⟩
  · rw [hi]; intro h; exact ha _ (hw.ind h)
  · intro b hb
    rw [hp b hb, hi]
    intro h
    exact ⟨ha _ (hw.ptr b hb h).1, (hw.ptr b hb h).2⟩
  · intro b hb b' hb'
    rw [hp b hb, hp b' hb']
    exact hw.inj b hb b' hb'

theorem FileWF_newPtr (D : Nat) (d d' : Disk) (idx b0 : Nat) (hw : FileWF D d idx)
    (hl : (d'.inodes idx).blocks.length = D + 1)
    (hi : indPtr D d' idx = indPtr D d idx)
    (hp : ∀ b, b < maxBlocks D → b ≠ b0 → filePtr D d' idx b = filePtr D d idx b)
    (ha : ∀ q, Allocated d q → Allocated d' q)
    (hnew : Allocated d' (filePtr D d' idx b0))
    (hfr : ¬ Allocated d (filePtr D d' idx b0)) : FileWF D d' idx := by
  refine ⟨hl, ?_, ?_, ?_⟩
  · rw [hi]; intro h; exact ha _ (hw.ind h)
  · intro b hb h
    by_cases e : b = b0
    · subst e
      refine ⟨hnew, ?_⟩
      rw [hi]
      intro e2
      apply hfr
      rw [e2]
      apply hw.ind
      rw [← e2]
      exact h
    · rw [hp b hb e] at h ⊢
      rw [hi]
      exact ⟨ha _ (hw.ptr b hb h).1, (hw.ptr b hb h).2⟩
  · intro b hb b' hb' h e
    by_cases e1 : b = b0
    · by_cases e2 : b' = b0
      · rw [e1, e2]
      · exfalso
        subst e1
        apply hfr
        rw [e, hp b' hb' e2]
        apply (hw.ptr b' hb' _).1
        rw [← hp b' hb' e2, ← e]
        exact h
    · by_cases e2 : b' = b0
      · exfalso
        subst e2
        apply hfr
        rw [← e, hp b hb e1]
        apply (hw.ptr b hb _).1
        rw [← hp b hb e1]
        exact h
      · rw [hp b hb e1] at h e
        rw [hp b' hb' e2] at e
        exact hw.inj b hb b' hb' h e

theorem FileWF_newInd (D : Nat) (d d' : Disk) (idx : Nat) (hw : FileWF D d idx)
    (hl : (d'.inodes idx).blocks.length = D + 1)
    (hp : ∀ b, b < maxBlocks D → filePtr D d' idx b = filePtr D d idx b)
    (ha : ∀ q, Allocated d q → Allocated d' q)
    (hnew : Allocated d' (indPtr D d' idx))
    (hfr : ¬ Allocated d (indPtr D d' idx)) : FileWF D d' idx := by
  refine ⟨hl, ?_, ?_, ?_⟩
  · intro _; exact hnew
  · intro b hb
    rw [hp b hb]
    intro h
    refine ⟨ha _ (hw.ptr b hb h).1, ?_⟩
    intro e
    apply hfr
    rw [← e]
    exact (hw.ptr b hb h).1
  · intro b hb b' hb'
    rw [hp b hb, hp b' hb']
    exact hw.inj b hb b' hb'

theorem FileStep_of (D idx : Nat) (d d' : Disk) (hsb : d'.sb = d.sb)
    (hoth : ∀ i, i ≠ idx → d'.inodes i = d.inodes i)
    (hmode : (d'.inodes idx).mode = (d.inodes idx).mode)
    (halloc : ∀ q, Allocated d q → Allocated d' q)
    (hind : indPtr D d idx ≠ 0 → indPtr D d' idx = indPtr D d idx)
    (hptr : ∀ b, b < maxBlocks D → filePtr D d idx b ≠ 0 →
      filePtr D d' idx b = filePtr D d idx b)
    (hfi : indPtr D d' idx ≠ indPtr D d idx → ¬ Allocated d (indPtr D d' idx))
    (hfp : ∀ b, b < maxBlocks D → filePtr D d' idx b ≠ filePtr D d idx b →
      ¬ Allocated d (filePtr D d' idx b))
    (hframe : ∀ a, (∀ q, Own D d' idx q → ¬ (q ≤ a ∧ a < q + BLOCK_SIZE)) →
      d'.mem a = d.mem a) : FileStep D idx d d' := by
  refine ⟨hsb, hoth, hmode, halloc, ?_, ?_, hframe⟩
  · rintro q ⟨hq, h | ⟨b, hb, h⟩⟩
    · refine ⟨hq, Or.inl ?_⟩
      rw [hind (by rw [← h]; exact hq)]
      exact h
    · refine ⟨hq, Or.inr ⟨b, hb, ?_⟩⟩
      rw [hptr b hb (by rw [h]; exact hq)]
      exact h
  · rintro q ⟨hq, h | ⟨b, hb, h⟩⟩
    · by_cases e : indPtr D d' idx = indPtr D d idx
      · exact Or.inl ⟨hq, Or.inl (by rw [h, e])⟩
      · right; rw [h]; exact hfi e
    · by_cases e : filePtr D d' idx b = filePtr D d idx b
      · exact Or.inl ⟨hq, Or.inr ⟨b, hb, by rw [← e, h]⟩⟩
      · right; rw [← h]; exact hfp b hb e

theorem FileStep_refl (D idx : Nat) (d : Disk) : FileStep D idx d d :=
  ⟨rfl, fun _ _ => rfl, rfl, fun _ h => h, fun _ h => h, fun _ h => Or.inl h, fun _ _ => rfl⟩

theorem FileStep_trans {D idx : Nat} {d d' d'' : Disk} (h1 : FileStep D idx d d')
    (h2 : FileStep D idx d' d'') : FileStep D idx d d'' := by
  refine ⟨by rw [h2.sb, h1.sb], fun i hi => by rw [h2.others i hi, h1.others i hi],
    by rw [h2.mode, h1.mode], fun q h => h2.alloc q (h1.alloc q h),
    fun q h => h2.keep q (h1.keep q h), ?_, ?_⟩
  · intro q h
    rcases h2.fresh q h with h | h
    · exact h1.fresh q h
    · exact Or.inr (fun c => h (h1.alloc q c))
  · intro a h
    rw [h2.frame a h, h1.frame a (fun q hq => h q (h2.keep q hq))]

theorem MemRel_refl (X : Nat → Prop) (s : FS) : MemRel X s s :=
  fun d hd => ⟨d, hd, fun _ _ => rfl⟩

theorem MemRel_trans {X Y Z : Nat → Prop} {s t u : FS} (h1 : MemRel X s t) (h2 : MemRel Y t u)
    (hx : ∀ a, X a → Z a) (hy : ∀ a, Y a → Z a) : MemRel Z s u := by
  intro d'' hd''
  obtain ⟨d', hd', e2⟩ := h2 d'' hd''
  obtain ⟨d, hd, e1⟩ := h1 d' hd'
  exact ⟨d, hd, fun a ha => by rw [e2 a (fun c => ha (hy a c)), e1 a (fun c => ha (hx a c))]⟩

/-! ## Allocation of a data block -/

theorem Allocated_setBit {d d' : Disk} {k : Nat} (hsb : d'.sb = d.sb)
    (hm : d'.dmap = setBit d.dmap k) (q : Nat) (h : Allocated d q) : Allocated d' q := by
  obtain ⟨j, h1, h2, h3⟩ := h
  refine ⟨j, by rw [hsb]; exact h1, by rw [hsb]; exact h2, ?_⟩
  rw [hm, bitOf_setBit]
  split_ifs
  · exact one_ne_zero
  · exact h3

theorem Allocated_new {d d' : Disk} {k : Nat} (hsb : d'.sb = d.sb)
    (hm : d'.dmap = setBit d.dmap k) (hk : k < d.sb.num_data_blocks) :
    Allocated d' (d.sb.d_blocks_ptr + BLOCK_SIZE * k) := by
  refine ⟨k, by rw [hsb]; exact hk, by rw [hsb], ?_⟩
  rw [hm, bitOf_setBit, if_pos rfl]
  exact one_ne_zero

theorem not_Allocated_free {d : Disk} {k : Nat} (hb : bitOf d.dmap k = 0) :
    ¬ Allocated d (d.sb.d_blocks_ptr + BLOCK_SIZE * k) := by
  rintro ⟨j, _, h2, h3⟩
  have : j = k := by unfold BLOCK_SIZE at h2; omega
  subst this
  exact h3 hb

theorem FreeZero_setBit {d d' : Disk} {k : Nat} (hsb : d'.sb = d.sb)
    (hm : d'.dmap = setBit d.dmap k) (hz : FreeZero d)
    (hmem : ∀ j, j < d.sb.num_data_blocks → bitOf d.dmap j = 0 → j ≠ k → ∀ i, i < BLOCK_SIZE →
      d'.mem (d.sb.d_blocks_ptr + BLOCK_SIZE * j + i)
        = d.mem (d.sb.d_blocks_ptr + BLOCK_SIZE * j + i)) : FreeZero d' := by
  intro j hj hb i hi
  rw [hsb] at hj ⊢
  rw [hm, bitOf_setBit] at hb
  by_cases e : j = k
  · rw [if_pos e] at hb; exact absurd hb one_ne_zero
  · rw [if_neg e] at hb
    rw [hmem j hj hb e i hi]
    exact hz j hj hb i hi

theorem FreeZero_mem {d d' : Disk} (hsb : d'.sb = d.sb) (hm : d'.dmap = d.dmap)
    (hz : FreeZero d)
    (hmem : ∀ j, j < d.sb.num_data_blocks → bitOf d.dmap j = 0 → ∀ i, i < BLOCK_SIZE →
      d'.mem (d.sb.d_blocks_ptr + BLOCK_SIZE * j + i)
        = d.mem (d.sb.d_blocks_ptr + BLOCK_SIZE * j + i)) : FreeZero d' := by
  intro j hj hb i hi
  rw [hsb] at hj ⊢
  rw [hm] at hb
  rw [hmem j hj hb i hi]
  exact hz j hj hb i hi

theorem freeCount_setBit {d d' : Disk} {k : Nat} (hsb : d'.sb = d.sb)
    (hm : d'.dmap = setBit d.dmap k) (hk : k < d.sb.num_data_blocks)
    (hb : bitOf d.dmap k = 0) : d'.freeCount + 1 = d.freeCount := by
  unfold Disk.freeCount
  rw [hsb, hm]
  have := freeBits_setBit d.dmap k hb d.sb.num_data_blocks
  rw [if_pos hk] at this
  exact this

/-- A free block lies apart from every allocated block. -/
theorem free_apart {d : Disk} {j : Nat} {q : Nat} (hj : j < d.sb.num_data_blocks)
    (hb : bitOf d.dmap j = 0) (hq : Allocated d q) (i : Nat) (hi : i < BLOCK_SIZE) :
    ¬ (q ≤ d.sb.d_blocks_ptr + BLOCK_SIZE * j + i ∧
        d.sb.d_blocks_ptr + BLOCK_SIZE * j + i < q + BLOCK_SIZE) := by
  have hne : d.sb.d_blocks_ptr + BLOCK_SIZE * j ≠ q := by
    intro e
    rw [← e] at hq
    exact not_Allocated_free hb hq
  have h1 : IsBlock d.sb (d.sb.d_blocks_ptr + BLOCK_SIZE * j) := ⟨j, hj, rfl⟩
  exact IsBlock.disjoint h1 hq.isBlock hne _ ⟨by omega, by omega⟩

end Wfs

namespace Wfs

/-! ## The state changes of `wfs_write` and `wfs_read`, one by one -/

/-- A change that leaves the bitmap and the block pointers alone and touches
bytes only inside data blocks of the file. -/
theorem step_same (D idx : Nat) (d d' : Disk) (X : Nat → Prop) (hw : FileWF D d idx)
    (hz : FreeZero d) (hsb : d'.sb = d.sb) (hdm : d'.dmap = d.dmap)
    (hoth : ∀ i, i ≠ idx → d'.inodes i = d.inodes i)
    (hmode : (d'.inodes idx).mode = (d.inodes idx).mode)
    (hbl : (d'.inodes idx).blocks = (d.inodes idx).blocks)
    (hX : ∀ a, X a → ∃ b, b < maxBlocks D ∧ filePtr D d idx b ≠ 0 ∧
      filePtr D d idx b ≤ a ∧ a < filePtr D d idx b + BLOCK_SIZE)
    (hmem : ∀ a, ¬ X a → d'.mem a = d.mem a) :
    FileWF D d' idx ∧ FreeZero d' ∧ FileStep D idx d d' ∧
      (∀ b, b < maxBlocks D → filePtr D d' idx b = filePtr D d idx b) ∧
      indPtr D d' idx = indPtr D d idx ∧ d'.freeCount = d.freeCount := by
  have hi : indPtr D d' idx = indPtr D d idx := indPtr_congr hbl
  have ha : ∀ q, Allocated d q → Allocated d' q := by
    rintro q ⟨j, h1, h2, h3⟩
    exact ⟨j, by rw [hsb]; exact h1, by rw [hsb]; exact h2, by rw [hdm]; exact h3⟩
  have hp : ∀ b, b < maxBlocks D → filePtr D d' idx b = filePtr D d idx b := by
    intro b hb
    apply filePtr_congr _ _ _ _ _ hbl
    intro hD hI i hi
    apply hmem
    intro hx
    obtain ⟨b2, hb2, hne, h1, h2⟩ := hX _ hx
    have hpt := hw.ptr b2 hb2 hne
    exact IsBlock.disjoint hpt.1.isBlock (hw.ind hI).isBlock hpt.2 _ ⟨h1, h2⟩
      (slot_in_block D b i _ hb hD hi)
  refine ⟨FileWF_same D d d' idx hw (by rw [hbl]; exact hw.len) hi hp ha, ?_, ?_, hp, hi, ?_⟩
  · apply FreeZero_mem hsb hdm hz
    intro j hj hb i hi
    apply hmem
    intro hx
    obtain ⟨b2, hb2, hne, h1, h2⟩ := hX _ hx
    exact free_apart hj hb (hw.ptr b2 hb2 hne).1 i hi ⟨h1, h2⟩
  · apply FileStep_of D idx d d' hsb hoth hmode ha (fun _ => hi) (fun b hb _ => hp b hb)
      (fun h => absurd hi h) (fun b hb h => absurd (hp b hb) h)
    intro a h
    apply hmem
    intro hx
    obtain ⟨b2, hb2, hne, h1, h2⟩ := hX _ hx
    exact h (filePtr D d idx b2) ⟨hne, Or.inr ⟨b2, hb2, hp b2 hb2⟩⟩ ⟨h1, h2⟩
  · unfold Disk.freeCount; rw [hsb, hdm]

/-- Allocation of block `k` for the direct pointer `b`. -/
theorem step_direct (D idx b k : Nat) (d d' : Disk) (hw : FileWF D d idx)
    (hz : FreeZero d) (hb : b < D) (h0 : filePtr D d idx b = 0)
    (hk : k < d.sb.num_data_blocks) (hf : bitOf d.dmap k = 0)
    (hsb : d'.sb = d.sb) (hdm : d'.dmap = setBit d.dmap k) (hmem : d'.mem = d.mem)
    (hin : d'.inodes = upd d.inodes idx
      ((d.inodes idx).setBlock b (d.sb.d_blocks_ptr + BLOCK_SIZE * k))) :
    FileWF D d' idx ∧ FreeZero d' ∧ FileStep D idx d d' ∧
      filePtr D d' idx b = d.sb.d_blocks_ptr + BLOCK_SIZE * k ∧
      (∀ b', b' < maxBlocks D → b' ≠ b → filePtr D d' idx b' = filePtr D d idx b') ∧
      indPtr D d' idx = indPtr D d idx ∧ d'.freeCount + 1 = d.freeCount := by
  have hbl : (d'.inodes idx).blocks
      = List.set (d.inodes idx).blocks b (d.sb.d_blocks_ptr + BLOCK_SIZE * k) := by
    rw [hin]; simp [upd, wfs_inode.setBlock]
  have hlen := hw.len
  have hi : indPtr D d' idx = indPtr D d idx := by
    unfold indPtr
    rw [hbl, getD_set, if_neg]
    omega
  have hpe : filePtr D d' idx b = d.sb.d_blocks_ptr + BLOCK_SIZE * k := by
    unfold filePtr
    rw [if_pos hb, hbl, getD_set, if_pos]
    exact ⟨rfl, by omega⟩
  have hpn : ∀ b', b' < maxBlocks D → b' ≠ b → filePtr D d' idx b' = filePtr D d idx b' := by
    intro b' _ hne
    unfold filePtr
    rw [hi, hmem]
    by_cases h1 : b' < D
    · rw [if_pos h1, if_pos h1, hbl, getD_set, if_neg (fun h => hne h.1.symm)]
    · rw [if_neg h1, if_neg h1]
  have ha := Allocated_setBit hsb hdm
  have hnew : Allocated d' (filePtr D d' idx b) := by rw [hpe]; exact Allocated_new hsb hdm hk
  have hfr : ¬ Allocated d (filePtr D d' idx b) := by rw [hpe]; exact not_Allocated_free hf
  refine ⟨FileWF_newPtr D d d' idx b hw (by rw [hbl, List.length_set]; exact hlen) hi hpn ha
    hnew hfr, ?_, ?_, hpe, hpn, hi, freeCount_setBit hsb hdm hk hf⟩
  · exact FreeZero_setBit hsb hdm hz (fun j _ _ _ i _ => by rw [hmem])
  · apply FileStep_of D idx d d' hsb _ _ ha (fun _ => hi) _ (fun h => absurd hi h) _
      (fun a _ => by rw [hmem])
    · intro i hne
      rw [hin]; simp [upd, hne]
    · rw [hin]; simp [upd, wfs_inode.setBlock]
    · intro b' hb' hne
      apply hpn b' hb'
      intro e
      rw [e] at hne
      exact hne h0
    · intro b' hb' hne
      by_cases e : b' = b
      · rw [e]; exact hfr
      · exact absurd (hpn b' hb' e) hne

/-- Allocation of block `k` as the indirect block. -/
theorem step_indirect (D idx k : Nat) (d d' : Disk) (hg : Geometry D d) (hw : FileWF D d idx)
    (hz : FreeZero d) (hI : indPtr D d idx = 0)
    (hk : k < d.sb.num_data_blocks) (hf : bitOf d.dmap k = 0)
    (hsb : d'.sb = d.sb) (hdm : d'.dmap = setBit d.dmap k) (hmem : d'.mem = d.mem)
    (hin : d'.inodes = upd d.inodes idx
      ((d.inodes idx).setBlock D (d.sb.d_blocks_ptr + BLOCK_SIZE * k))) :
    FileWF D d' idx ∧ FreeZero d' ∧ FileStep D idx d d' ∧
      indPtr D d' idx = d.sb.d_blocks_ptr + BLOCK_SIZE * k ∧
      (∀ b', b' < maxBlocks D → filePtr D d' idx b' = filePtr D d idx b') ∧
      d'.freeCount + 1 = d.freeCount := by
  have hbl : (d'.inodes idx).blocks
      = List.set (d.inodes idx).blocks D (d.sb.d_blocks_ptr + BLOCK_SIZE * k) := by
    rw [hin]; simp [upd, wfs_inode.setBlock]
  have hlen := hw.len
  have hi : indPtr D d' idx = d.sb.d_blocks_ptr + BLOCK_SIZE * k := by
    unfold indPtr
    rw [hbl, getD_set, if_pos]
    exact ⟨rfl, by omega⟩
  have hpos : d.sb.d_blocks_ptr + BLOCK_SIZE * k ≠ 0 := by have := hg.pos; omega
  have hp : ∀ b', b' < maxBlocks D → filePtr D d' idx b' = filePtr D d idx b' := by
    intro b' hb'
    unfold filePtr
    rw [hi, hI]
    by_cases h1 : b' < D
    · rw [if_pos h1, if_pos h1, hbl, getD_set, if_neg]
      omega
    · rw [if_neg h1, if_neg h1, if_neg hpos, if_pos rfl, hmem]
      apply decode64_zero
      intro i hi2
      have := hz k hk hf (OFF_SIZE * (b' - D) + i)
        (by unfold maxBlocks BLOCK_SIZE OFF_SIZE at *; omega)
      rw [← this]
      congr 1
      omega
  have ha := Allocated_setBit hsb hdm
  have hnew : Allocated d' (indPtr D d' idx) := by rw [hi]; exact Allocated_new hsb hdm hk
  have hfr : ¬ Allocated d (indPtr D d' idx) := by rw [hi]; exact not_Allocated_free hf
  refine ⟨FileWF_newInd D d d' idx hw (by rw [hbl, List.length_set]; exact hlen) hp ha
    hnew hfr, ?_, ?_, hi, hp, freeCount_setBit hsb hdm hk hf⟩
  · exact FreeZero_setBit hsb hdm hz (fun j _ _ _ i _ => by rw [hmem])
  · apply FileStep_of D idx d d' hsb _ _ ha (fun h => absurd hI h) (fun b hb _ => hp b hb)
      (fun _ => hfr) (fun b hb h => absurd (hp b hb) h) (fun a _ => by rw [hmem])
    · intro i hne
      rw [hin]; simp [upd, hne]
    · rw [hin]; simp [upd, wfs_inode.setBlock]

/-- Allocation of block `k` for slot `b - IND_BLOCK` of the indirect block. -/
theorem step_slot (D idx b k : Nat) (d d' : Disk) (hg : Geometry D d) (hw : FileWF D d idx)
    (hz : FreeZero d) (hI : indPtr D d idx ≠ 0) (hD : D ≤ b) (hb : b < maxBlocks D)
    (h0 : filePtr D d idx b = 0)
    (hk : k < d.sb.num_data_blocks) (hf : bitOf d.dmap k = 0)
    (hsb : d'.sb = d.sb) (hdm : d'.dmap = setBit d.dmap k) (hin : d'.inodes = d.inodes)
    (hmem : d'.mem = memStore d.mem (indPtr D d idx + OFF_SIZE * (b - D))
      (encode64 (d.sb.d_blocks_ptr + BLOCK_SIZE * k))) :
    FileWF D d' idx ∧ FreeZero d' ∧ FileStep D idx d d' ∧
      filePtr D d' idx b = d.sb.d_blocks_ptr + BLOCK_SIZE * k ∧
      (∀ b', b' < maxBlocks D → b' ≠ b → filePtr D d' idx b' = filePtr D d idx b') ∧
      indPtr D d' idx = indPtr D d idx ∧ d'.freeCount + 1 = d.freeCount ∧
      (∀ a, ¬ (indPtr D d idx ≤ a ∧ a < indPtr D d idx + BLOCK_SIZE) → d'.mem a = d.mem a) := by
  have hbl : (d'.inodes idx).blocks = (d.inodes idx).blocks := by rw [hin]
  have hi : indPtr D d' idx = indPtr D d idx := indPtr_congr hbl
  have hout : ∀ a, ¬ (indPtr D d idx ≤ a ∧ a < indPtr D d idx + BLOCK_SIZE) →
      d'.mem a = d.mem a := by
    intro a ha
    rw [hmem]
    apply memStore_out
    rw [encode64_length]
    unfold maxBlocks BLOCK_SIZE OFF_SIZE at *
    omega
  have h64 : d.sb.d_blocks_ptr + BLOCK_SIZE * k < 2 ^ 64 := by
    have h1 : IsBlock d.sb (d.sb.d_blocks_ptr + BLOCK_SIZE * k) := ⟨k, hk, rfl⟩
    have := h1.le
    have := hg.fin
    have : (2:Nat) ^ 63 < 2 ^ 64 := by norm_num
    omega
  have hpe : filePtr D d' idx b = d.sb.d_blocks_ptr + BLOCK_SIZE * k := by
    unfold filePtr
    rw [if_neg (by omega), hi, if_neg hI, hmem]
    have := memLoad_memStore d.mem (indPtr D d idx + OFF_SIZE * (b - D))
      (encode64 (d.sb.d_blocks_ptr + BLOCK_SIZE * k))
    rw [encode64_length] at this
    rw [this, decode64_encode64 _ h64]
  have hpn : ∀ b', b' < maxBlocks D → b' ≠ b → filePtr D d' idx b' = filePtr D d idx b' := by
    intro b' hb' hne
    apply filePtr_congr _ _ _ _ _ hbl
    intro hD' _ i hi2
    rw [hmem]
    apply memStore_out
    rw [encode64_length]
    unfold OFF_SIZE at *
    omega
  have ha := Allocated_setBit hsb hdm
  have hnew : Allocated d' (filePtr D d' idx b) := by rw [hpe]; exact Allocated_new hsb hdm hk
  have hfr : ¬ Allocated d (filePtr D d' idx b) := by rw [hpe]; exact not_Allocated_free hf
  refine ⟨FileWF_newPtr D d d' idx b hw (by rw [hbl]; exact hw.len) hi hpn ha
    hnew hfr, ?_, ?_, hpe, hpn, hi, freeCount_setBit hsb hdm hk hf, hout⟩
  · apply FreeZero_setBit hsb hdm hz
    intro j hj hbj _ i hi2
    exact hout _ (free_apart hj hbj (hw.ind hI) i hi2)
  · apply FileStep_of D idx d d' hsb (fun i _ => by rw [hin]) (by rw [hin]) ha (fun _ => hi) _
      (fun h => absurd hi h) _ _
    · intro b' hb' hne
      apply hpn b' hb'
      intro e
      rw [e] at hne
      exact hne h0
    · intro b' hb' hne
      by_cases e : b' = b
      · rw [e]; exact hfr
      · exact absurd (hpn b' hb' e) hne
    · intro a h
      apply hout
      exact h (indPtr D d idx) ⟨hI, Or.inl hi.symm⟩

end Wfs

namespace Wfs

/-! ## The block lookup of `wfs_write` -/

theorem Geometry_congr {D : Nat} {d d' : Disk} (h : d'.sb = d.sb) (hg : Geometry D d) :
    Geometry D d' :=
  ⟨by rw [h]; exact hg.pos, by rw [h]; exact hg.fin, hg.max⟩

theorem replicateMapIfMirror_d0 (s : FS) : (replicateMapIfMirror s).d0 = s.d0 := by
  unfold replicateMapIfMirror; split_ifs <;> rfl

theorem replicateMapIfMirror_rel (s : FS) : MemRel (fun _ => False) s (replicateMapIfMirror s) := by
  intro d' hd'
  unfold replicateMapIfMirror at hd'
  split_ifs at hd'
  · simp only [FS.disks, replicate_dataMap, List.mem_cons, List.mem_map] at hd'
    rcases hd' with rfl | ⟨d, hd, rfl⟩
    · exact ⟨s.d0, by simp [FS.disks], fun _ _ => rfl⟩
    · exact ⟨d, by simp [FS.disks, hd], fun _ _ => rfl⟩
  · exact ⟨d', hd', fun _ _ => rfl⟩

theorem replicateBlockAt_spec (s : FS) (p : Nat) (hp : IsBlock s.d0.sb p) :
    ∃ t, replicateBlockAt s p = some t ∧ t.d0 = s.d0 ∧
      MemRel (fun a => p ≤ a ∧ a < p + BLOCK_SIZE) s t := by
  unfold replicateBlockAt
  split_ifs
  · rw [addr_eq s (p : Int) BLOCK_SIZE p rfl hp.ge hp.le]
    refine ⟨_, rfl, rfl, ?_⟩
    intro d' hd'
    simp only [FS.disks, replicate_block, List.mem_cons, List.mem_map] at hd'
    rcases hd' with rfl | ⟨d, hd, rfl⟩
    · exact ⟨s.d0, by simp [FS.disks], fun _ _ => rfl⟩
    · refine ⟨d, by simp [FS.disks, hd], fun a ha => ?_⟩
      simp only [memCopy]
      rw [if_neg ha]
  · exact ⟨s, rfl, rfl, MemRel_refl _ s⟩

theorem MemRel_mono {X Y : Nat → Prop} {s t : FS} (h : MemRel X s t) (hxy : ∀ a, X a → Y a) :
    MemRel Y s t := by
  intro d' hd'
  obtain ⟨d, hd, e⟩ := h d' hd'
  exact ⟨d, hd, fun a ha => e a (fun c => ha (hxy a c))⟩

/-- A change of disk 0 that touches its bytes only in `X`. -/
theorem MemRel_d0 (X : Nat → Prop) (s : FS) (d : Disk)
    (h : ∀ a, ¬ X a → d.mem a = s.d0.mem a) : MemRel X s { s with d0 := d } := by
  intro d' hd'
  simp only [FS.disks, List.mem_cons] at hd'
  rcases hd' with rfl | hd
  · exact ⟨s.d0, by simp [FS.disks], h⟩
  · exact ⟨d', by simp [FS.disks, hd], fun _ _ => rfl⟩

theorem ind_arith (D cur : Nat) (h1 : D * BLOCK_SIZE ≤ cur) (h2 : cur < maxBlocks D * BLOCK_SIZE)
    (hmax : maxBlocks D * BLOCK_SIZE < 2 ^ 31) :
    wrap32 ((cur : Int) - ((D * BLOCK_SIZE : Nat) : Int)) = ((cur - D * BLOCK_SIZE : Nat) : Int) ∧
    wrap32 (cdiv ((cur - D * BLOCK_SIZE : Nat) : Int) BLOCK_SIZE)
      = ((cur / BLOCK_SIZE - D : Nat) : Int) ∧
    wrap32 (cmod ((cur - D * BLOCK_SIZE : Nat) : Int) BLOCK_SIZE)
      = ((cur % BLOCK_SIZE : Nat) : Int) ∧
    cur / BLOCK_SIZE - D < BLOCK_SIZE / OFF_SIZE ∧ D ≤ cur / BLOCK_SIZE ∧
    cur / BLOCK_SIZE < maxBlocks D := by
  have e1 : (cur - D * BLOCK_SIZE) / BLOCK_SIZE = cur / BLOCK_SIZE - D := by
    unfold BLOCK_SIZE at *; omega
  have e2 : (cur - D * BLOCK_SIZE) % BLOCK_SIZE = cur % BLOCK_SIZE := by
    unfold BLOCK_SIZE at *; omega
  have hm : maxBlocks D * BLOCK_SIZE < 2147483648 := by norm_num at hmax; exact hmax
  refine ⟨?_, ?_, ?_, ?_, ?_, ?_⟩
  · rw [wrap32_eq]
    · omega
    · omega
    · omega
  · rw [cdiv_natCast, e1, wrap32_eq]
    · omega
    · unfold maxBlocks BLOCK_SIZE OFF_SIZE at *; omega
  · rw [cmod_natCast, e2, wrap32_eq]
    · omega
    · unfold maxBlocks BLOCK_SIZE OFF_SIZE at *; omega
  · unfold maxBlocks BLOCK_SIZE OFF_SIZE at *; omega
  · unfold BLOCK_SIZE at *; omega
  · unfold maxBlocks BLOCK_SIZE OFF_SIZE at *; omega

theorem dir_arith (D cur : Nat) (h1 : cur < D * BLOCK_SIZE)
    (hmax : maxBlocks D * BLOCK_SIZE < 2 ^ 31) :
    blockIdx D (wrap32 ((cur / BLOCK_SIZE : Nat) : Int)) = some (cur / BLOCK_SIZE) ∧
    cur / BLOCK_SIZE < D := by
  have hm : maxBlocks D * BLOCK_SIZE < 2147483648 := by norm_num at hmax; exact hmax
  have h2 : cur / BLOCK_SIZE < D := by unfold BLOCK_SIZE at *; omega
  have h3 : D < 2147483648 := by unfold maxBlocks BLOCK_SIZE OFF_SIZE at *; omega
  refine ⟨?_, h2⟩
  generalize cur / BLOCK_SIZE = q at h2 ⊢
  rw [wrap32_eq]
  · unfold blockIdx
    rw [if_pos]
    · simp
    · constructor
      · omega
      · exact_mod_cast (le_of_lt h2)
  · omega
  · omega

theorem blocks_get (D : Nat) (d : Disk) (idx j : Nat) (hl : (d.inodes idx).blocks.length = D + 1)
    (hj : j ≤ D) : (d.inodes idx).blocks[j]? = some ((d.inodes idx).blocks.getD j 0) := by
  rw [List.getD_eq_getElem?_getD]
  have : j < (d.inodes idx).blocks.length := by omega
  rw [List.getElem?_eq_getElem this]
  rfl

end Wfs

namespace Wfs

theorem LocateRes_stay (D idx cur : Nat) (s : FS) (hw : FileWF D s.d0 idx) (hz : FreeZero s.d0)
    (hp : filePtr D s.d0 idx (cur / BLOCK_SIZE) ≠ 0) :
    LocateRes D idx cur s s (some (filePtr D s.d0 idx (cur / BLOCK_SIZE),
      ((cur % BLOCK_SIZE : Nat) : Int),
      if cur / BLOCK_SIZE < D then none
      else some (indPtr D s.d0 idx + OFF_SIZE * (cur / BLOCK_SIZE - D)))) := by
  refine ⟨hw, hz, FileStep_refl _ _ _, ⟨_, rfl⟩, fun _ _ _ => rfl, fun _ => rfl,
    MemRel_refl _ _, ?_, ?_⟩
  · intro h; cases h
  · intro block blockOff slot h
    simp only [Option.some.injEq, Prod.mk.injEq] at h
    obtain ⟨rfl, rfl, rfl⟩ := h
    exact ⟨rfl, hp, rfl, rfl, le_trans (Nat.le_add_right _ 1) (Nat.le_add_right _ _)⟩

theorem writeDirect_spec (D idx cur : Nat) (s : FS) (hg : Geometry D s.d0)
    (hw : FileWF D s.d0 idx) (hz : FreeZero s.d0) (hc : cur < D * BLOCK_SIZE) :
    ∃ t r, writeDirect D s idx cur = some (t, r) ∧ LocateRes D idx cur s t r := by
  obtain ⟨hbi, hb⟩ := dir_arith D cur hc hg.max
  have hbm : cur / BLOCK_SIZE < maxBlocks D := Nat.lt_of_lt_of_le hb (Nat.le_add_right _ _)
  have hget := blocks_get D s.d0 idx (cur / BLOCK_SIZE) hw.len (le_of_lt hb)
  have hfp : filePtr D s.d0 idx (cur / BLOCK_SIZE)
      = (s.d0.inodes idx).blocks.getD (cur / BLOCK_SIZE) 0 := by
    unfold filePtr; rw [if_pos hb]
  unfold writeDirect
  dsimp only
  rw [hbi]
  simp only [Option.bind_eq_bind, Option.some_bind, hget]
  by_cases h0 : (s.d0.inodes idx).blocks.getD (cur / BLOCK_SIZE) 0 = 0
  · rw [if_pos h0]
    cases hal : allocData s with
    | none =>
      refine ⟨s, none, rfl, hw, hz, FileStep_refl _ _ _, ⟨_, rfl⟩, fun _ _ _ => rfl,
        fun _ => rfl, MemRel_refl _ _, ?_, ?_⟩
      · intro _
        have := freeBits_zero _ _ (allocData_none s hal)
        unfold Disk.freeCount
        unfold FS.dCount at this
        rw [this]
        exact ⟨rfl, Nat.zero_le _⟩
      · intro block blockOff slot h; cases h
    | some v =>
      obtain ⟨p, s1⟩ := v
      obtain ⟨k, hk, hf, _, rfl, rfl⟩ := allocData_spec _ _ _ hal
      refine ⟨_, _, rfl, ?_⟩
      have key := step_direct D idx (cur / BLOCK_SIZE) k s.d0
        (replicateMapIfMirror (FS.modInode { s with d0 := { s.d0 with dmap := setBit s.d0.dmap k } }
          idx (fun i => i.setBlock (cur / BLOCK_SIZE) (s.d0.sb.d_blocks_ptr + BLOCK_SIZE * k)))).d0
        hw hz hb (by rw [hfp]; exact h0) hk hf
        (by rw [replicateMapIfMirror_d0]; rfl) (by rw [replicateMapIfMirror_d0]; rfl)
        (by rw [replicateMapIfMirror_d0]; rfl) (by rw [replicateMapIfMirror_d0]; rfl)
      obtain ⟨k1, k2, k3, k4, k5, k6, k7⟩ := key
      refine ⟨k1, k2, k3, ?_, k5, fun _ => k6, ?_, ?_, ?_⟩
      · rw [replicateMapIfMirror_d0]
        exact ⟨List.set (s.d0.inodes idx).blocks (cur / BLOCK_SIZE)
          (s.d0.sb.d_blocks_ptr + BLOCK_SIZE * k),
          by simp [FS.modInode, FS.setInode, upd, wfs_inode.setBlock]⟩
      · have hm : MemRel (fun _ => False) s
            (FS.modInode { s with d0 := { s.d0 with dmap := setBit s.d0.dmap k } } idx
              (fun i => i.setBlock (cur / BLOCK_SIZE) (s.d0.sb.d_blocks_ptr + BLOCK_SIZE * k))) :=
          MemRel_d0 (fun _ => False) s _ (fun _ _ => rfl)
        exact MemRel_trans hm (replicateMapIfMirror_rel _) (fun _ h => h.elim) (fun _ h => h.elim)
      · intro h; cases h
      · intro block blockOff slot h
        simp only [Option.some.injEq, Prod.mk.injEq] at h
        obtain ⟨rfl, rfl, rfl⟩ := h
        refine ⟨k4.symm, ?_, rfl, by rw [if_pos hb], by omega⟩
        have := hg.pos
        omega
  · rw [if_neg h0]
    refine ⟨s, _, rfl, ?_⟩
    have := LocateRes_stay D idx cur s hw hz (by rw [hfp]; exact h0)
    rw [hfp, if_pos hb] at this
    exact this

end Wfs

namespace Wfs

/-- What the allocation of the indirect block in `wfs_write` does. -/
theorem writeIndirectBlock_spec (D idx : Nat) (s : FS) (hg : Geometry D s.d0)
    (hw : FileWF D s.d0 idx) (hz : FreeZero s.d0) :
    (indPtr D s.d0 idx ≠ 0 ∧ writeIndirectBlock D s idx = some (some s)) ∨
    (indPtr D s.d0 idx = 0 ∧ writeIndirectBlock D s idx = some none ∧ s.d0.freeCount = 0) ∨
    (indPtr D s.d0 idx = 0 ∧ ∃ t, writeIndirectBlock D s idx = some (some t) ∧
      FileWF D t.d0 idx ∧ FreeZero t.d0 ∧ FileStep D idx s.d0 t.d0 ∧
      indPtr D t.d0 idx ≠ 0 ∧
      (∀ b, b < maxBlocks D → filePtr D t.d0 idx b = filePtr D s.d0 idx b) ∧
      (∃ bl, t.d0.inodes idx = { s.d0.inodes idx with blocks := bl }) ∧
      MemRel (fun a => indPtr D t.d0 idx ≤ a ∧ a < indPtr D t.d0 idx + BLOCK_SIZE) s t ∧
      t.d0.freeCount + 1 = s.d0.freeCount) := by
  have hget := blocks_get D s.d0 idx D hw.len (le_refl _)
  unfold writeIndirectBlock
  simp only [Option.bind_eq_bind, Option.some_bind, hget]
  by_cases h0 : (s.d0.inodes idx).blocks.getD D 0 = 0
  · rw [if_pos h0]
    right
    cases hal : allocData s with
    | none =>
      left
      refine ⟨h0, rfl, ?_⟩
      have := freeBits_zero _ _ (allocData_none s hal)
      unfold Disk.freeCount
      unfold FS.dCount at this
      exact this
    | some v =>
      right
      obtain ⟨p, s1⟩ := v
      obtain ⟨k, hk, hf, _, rfl, rfl⟩ := allocData_spec _ _ _ hal
      refine ⟨h0, ?_⟩
      have hblk : IsBlock (replicateMapIfMirror (FS.modInode
          { s with d0 := { s.d0 with dmap := setBit s.d0.dmap k } } idx
          (fun i => i.setBlock D (s.d0.sb.d_blocks_ptr + BLOCK_SIZE * k)))).d0.sb
          (s.d0.sb.d_blocks_ptr + BLOCK_SIZE * k) := by
        rw [replicateMapIfMirror_d0]
        exact ⟨k, hk, rfl⟩
      obtain ⟨t, ht, htd, htm⟩ := replicateBlockAt_spec _ _ hblk
      refine ⟨t, ?_, ?_⟩
      · simp only [Option.bind_eq_bind, ht, Option.some_bind]
      have key := step_indirect D idx k s.d0 t.d0 hg hw hz h0 hk hf
        (by rw [htd, replicateMapIfMirror_d0]; rfl) (by rw [htd, replicateMapIfMirror_d0]; rfl)
        (by rw [htd, replicateMapIfMirror_d0]; rfl) (by rw [htd, replicateMapIfMirror_d0]; rfl)
      obtain ⟨k1, k2, k3, k4, k5, k6⟩ := key
      refine ⟨k1, k2, k3, ?_, k5, ?_, ?_, k6⟩
      · rw [k4]; have := hg.pos; omega
      · rw [htd, replicateMapIfMirror_d0]
        exact ⟨List.set (s.d0.inodes idx).blocks D (s.d0.sb.d_blocks_ptr + BLOCK_SIZE * k),
          by simp [FS.modInode, FS.setInode, upd, wfs_inode.setBlock]⟩
      · have hm : MemRel (fun _ => False) s
            (FS.modInode { s with d0 := { s.d0 with dmap := setBit s.d0.dmap k } } idx
              (fun i => i.setBlock D (s.d0.sb.d_blocks_ptr + BLOCK_SIZE * k))) :=
          MemRel_d0 (fun _ => False) s _ (fun _ _ => rfl)
        have hm2 := MemRel_trans hm (replicateMapIfMirror_rel _) (fun _ h => h)
          (fun _ h => h)
        rw [k4]
        exact MemRel_trans hm2 htm (fun _ h => h.elim) (fun _ h => h)
  · rw [if_neg h0]
    left
    exact ⟨h0, rfl⟩

/-- What the lookup of the slot in the indirect block in `wfs_write` does. -/
theorem writeIndirectSlot_spec (D idx cur : Nat) (s : FS) (bo : Int) (hg : Geometry D s.d0)
    (hw : FileWF D s.d0 idx) (hz : FreeZero s.d0) (hI : indPtr D s.d0 idx ≠ 0)
    (hD : D ≤ cur / BLOCK_SIZE) (hb : cur / BLOCK_SIZE < maxBlocks D)
    (hbo : bo = ((cur % BLOCK_SIZE : Nat) : Int)) :
    ∃ t r, writeIndirectSlot D s idx ((cur / BLOCK_SIZE - D : Nat) : Int) bo = some (t, r) ∧
      LocateRes D idx cur s t r ∧ indPtr D t.d0 idx = indPtr D s.d0 idx := by
  have hget := blocks_get D s.d0 idx D hw.len (le_refl _)
  have hblk : IsBlock s.d0.sb (indPtr D s.d0 idx) := (hw.ind hI).isBlock
  have hslot : s.addr (((s.d0.inodes idx).blocks.getD D 0 : Nat) + (OFF_SIZE : Int) *
      ((cur / BLOCK_SIZE - D : Nat) : Int)) OFF_SIZE
        = some (indPtr D s.d0 idx + OFF_SIZE * (cur / BLOCK_SIZE - D)) := by
    apply addr_block s _ _ _ _ hblk
    · unfold indPtr; push_cast; rfl
    · unfold maxBlocks BLOCK_SIZE OFF_SIZE at *; omega
  have hfp : filePtr D s.d0 idx (cur / BLOCK_SIZE)
      = decode64 (memLoad s.d0.mem (indPtr D s.d0 idx + OFF_SIZE * (cur / BLOCK_SIZE - D))
          OFF_SIZE) := by
    unfold filePtr
    rw [if_neg (not_lt.2 hD), if_neg hI]
  unfold writeIndirectSlot
  simp only [Option.bind_eq_bind, Option.some_bind, hget, hslot]
  rw [← hfp]
  by_cases h0 : filePtr D s.d0 idx (cur / BLOCK_SIZE) = 0
  · rw [if_pos h0]
    cases hal : allocData s with
    | none =>
      have hfc : s.d0.freeCount = 0 := by
        have := freeBits_zero _ _ (allocData_none s hal)
        unfold Disk.freeCount
        unfold FS.dCount at this
        exact this
      refine ⟨s, none, rfl, ⟨hw, hz, FileStep_refl _ _ _, ⟨_, rfl⟩, fun _ _ _ => rfl,
        fun _ => rfl, MemRel_refl _ _, ?_, ?_⟩, rfl⟩
      · intro _
        rw [hfc]
        exact ⟨rfl, Nat.zero_le _⟩
      · intro block blockOff slot h; cases h
    | some v =>
      obtain ⟨p, s1⟩ := v
      obtain ⟨k, hk, hf, _, rfl, rfl⟩ := allocData_spec _ _ _ hal
      have hd6 : (replicateMapIfMirror (FS.store0
          { s with d0 := { s.d0 with dmap := setBit s.d0.dmap k } }
          (indPtr D s.d0 idx + OFF_SIZE * (cur / BLOCK_SIZE - D))
          (encode64 (s.d0.sb.d_blocks_ptr + BLOCK_SIZE * k)))).d0
          = { s.d0 with dmap := setBit s.d0.dmap k,
                        mem := memStore s.d0.mem
                          (indPtr D s.d0 idx + OFF_SIZE * (cur / BLOCK_SIZE - D))
                          (encode64 (s.d0.sb.d_blocks_ptr + BLOCK_SIZE * k)) } := by
        rw [replicateMapIfMirror_d0]; rfl
      have hget6 : ((replicateMapIfMirror (FS.store0
          { s with d0 := { s.d0 with dmap := setBit s.d0.dmap k } }
          (indPtr D s.d0 idx + OFF_SIZE * (cur / BLOCK_SIZE - D))
          (encode64 (s.d0.sb.d_blocks_ptr + BLOCK_SIZE * k)))).d0.inodes idx).blocks[D]?
          = some (indPtr D s.d0 idx) := by
        rw [hd6]; exact hget
      have hblk6 : IsBlock (replicateMapIfMirror (FS.store0
          { s with d0 := { s.d0 with dmap := setBit s.d0.dmap k } }
          (indPtr D s.d0 idx + OFF_SIZE * (cur / BLOCK_SIZE - D))
          (encode64 (s.d0.sb.d_blocks_ptr + BLOCK_SIZE * k)))).d0.sb (indPtr D s.d0 idx) := by
        rw [hd6]; exact hblk
      obtain ⟨t, ht, htd, htm⟩ := replicateBlockAt_spec _ _ hblk6
      have key := step_slot D idx (cur / BLOCK_SIZE) k s.d0 t.d0 hg hw hz hI hD hb h0 hk hf
        (by rw [htd, hd6]) (by rw [htd, hd6]) (by rw [htd, hd6]) (by rw [htd, hd6])
      obtain ⟨k1, k2, k3, k4, k5, k6, k7, k8⟩ := key
      refine ⟨t, some (decode64 (memLoad t.d0.mem
        (indPtr D s.d0 idx + OFF_SIZE * (cur / BLOCK_SIZE - D)) OFF_SIZE), bo,
        some (indPtr D s.d0 idx + OFF_SIZE * (cur / BLOCK_SIZE - D))), ?_,
        ⟨k1, k2, k3, ?_, k5, fun _ => k6, ?_, ?_, ?_⟩, k6⟩
      · simp only [Option.bind_eq_bind, hget6, ht, Option.some_bind]
      · rw [htd, hd6]
        exact ⟨_, rfl⟩
      · have hm : MemRel (fun a => indPtr D s.d0 idx ≤ a ∧ a < indPtr D s.d0 idx + BLOCK_SIZE) s
            (FS.store0 { s with d0 := { s.d0 with dmap := setBit s.d0.dmap k } }
              (indPtr D s.d0 idx + OFF_SIZE * (cur / BLOCK_SIZE - D))
              (encode64 (s.d0.sb.d_blocks_ptr + BLOCK_SIZE * k))) := by
          apply MemRel_d0
          intro a ha
          have := k8 a ha
          rw [htd, hd6] at this
          exact this
        have hm2 := MemRel_trans hm (replicateMapIfMirror_rel _) (fun _ h => h)
          (fun _ h => h.elim)
        rw [k6]
        exact MemRel_trans hm2 htm (fun _ h => ⟨hI, h⟩) (fun _ h => ⟨hI, h⟩)
      · intro h; cases h
      · intro block blockOff slot h
        simp only [Option.some.injEq, Prod.mk.injEq] at h
        obtain ⟨rfl, rfl, rfl⟩ := h
        have hfp7 : filePtr D t.d0 idx (cur / BLOCK_SIZE)
            = decode64 (memLoad t.d0.mem (indPtr D s.d0 idx + OFF_SIZE * (cur / BLOCK_SIZE - D))
                OFF_SIZE) := by
          unfold filePtr
          rw [if_neg (not_lt.2 hD), k6, if_neg hI]
        refine ⟨hfp7.symm, ?_, hbo, ?_, by omega⟩
        · rw [← hfp7, k4]; have := hg.pos; omega
        · rw [if_neg (not_lt.2 hD), k6]
  · rw [if_neg h0]
    refine ⟨s, _, rfl, ?_, rfl⟩
    have := LocateRes_stay D idx cur s hw hz h0
    rw [if_neg (not_lt.2 hD), ← hbo] at this
    exact this

end Wfs

namespace Wfs

/-- What the block lookup of `wfs_write` does for a file offset below the
maximum file size. -/
theorem writeLocate_spec (D idx cur : Nat) (s : FS) (hg : Geometry D s.d0)
    (hw : FileWF D s.d0 idx) (hz : FreeZero s.d0) (hc : cur < maxBlocks D * BLOCK_SIZE) :
    ∃ t r, writeLocate D s idx cur = some (t, r) ∧ LocateRes D idx cur s t r := by
  by_cases h1 : D * BLOCK_SIZE ≤ cur
  · obtain ⟨a1, a2, a3, a4, a5, a6⟩ := ind_arith D cur h1 hc hg.max
    have hcond : ¬ ((((cur / BLOCK_SIZE - D : Nat) : Int) < 0) ∨
        (((cur / BLOCK_SIZE - D : Nat) : Int) ≥ ((BLOCK_SIZE / OFF_SIZE : Nat) : Int))) := by
      generalize cur / BLOCK_SIZE - D = x at a4
      generalize BLOCK_SIZE / OFF_SIZE = y at a4
      omega
    unfold writeLocate
    rw [if_pos h1]
    dsimp only
    rw [a1, a2, a3, if_neg hcond]
    rcases writeIndirectBlock_spec D idx s hg hw hz with ⟨hI, e⟩ | ⟨hI, e, hfc⟩ | ⟨hI, t1, e, w1, z1, st1, hI1, p1, f1, m1, c1⟩
    · simp only [e, Option.bind_eq_bind, Option.some_bind]
      obtain ⟨t, r, h, res, _⟩ := writeIndirectSlot_spec D idx cur s _ hg hw hz hI a5 a6 rfl
      exact ⟨t, r, h, res⟩
    · simp only [e, Option.bind_eq_bind, Option.some_bind]
      refine ⟨s, none, rfl, hw, hz, FileStep_refl _ _ _, ⟨_, rfl⟩, fun _ _ _ => rfl,
        fun _ => rfl, MemRel_refl _ _, ?_, ?_⟩
      · intro _
        rw [hfc]
        exact ⟨rfl, Nat.zero_le _⟩
      · intro block blockOff slot h; cases h
    · simp only [e, Option.bind_eq_bind, Option.some_bind]
      obtain ⟨t, r, h, res, hi2⟩ := writeIndirectSlot_spec D idx cur t1 _
        (Geometry_congr st1.sb hg) w1 z1 hI1 a5 a6 rfl
      refine ⟨t, r, h, res.wf, res.fz, FileStep_trans st1 res.step, ?_, ?_, fun h => absurd hI h, ?_, ?_, ?_⟩
      · obtain ⟨bl1, e1⟩ := f1
        obtain ⟨bl2, e2⟩ := res.flds
        exact ⟨bl2, by rw [e2, e1]⟩
      · intro b hb hne
        rw [res.ptrs b hb hne, p1 b hb]
      · rw [← hi2] at m1
        exact MemRel_trans m1 res.disks (fun _ h => ⟨by rw [hi2]; exact hI1, h⟩) (fun _ h => h)
      · intro hr
        obtain ⟨r1, r2⟩ := res.fail hr
        rw [if_neg (fun h => hI1 h.2)] at r2
        refine ⟨r1, ?_⟩
        rw [if_pos ⟨a5, hI⟩]
        omega
      · intro block blockOff slot hr
        obtain ⟨r1, r2, r3, r4, r5⟩ := res.found block blockOff slot hr
        rw [if_neg (fun h => hI1 h.2)] at r5
        refine ⟨r1, r2, r3, r4, ?_⟩
        rw [if_pos ⟨a5, hI⟩]
        omega
  · have hc2 : cur < D * BLOCK_SIZE := not_le.1 h1
    unfold writeLocate
    rw [if_neg h1]
    exact writeDirect_spec D idx cur s hg hw hz hc2

end Wfs

namespace Wfs

/-! ## The copy of one chunk in `wfs_write` -/

theorem indPtr_ne_of_filePtr (D idx b : Nat) (d : Disk) (hD : D ≤ b)
    (hp : filePtr D d idx b ≠ 0) : indPtr D d idx ≠ 0 := by
  intro h
  apply hp
  unfold filePtr
  rw [if_neg (not_lt.2 hD), if_pos h]

theorem writeBlockAddr_eq (D idx cur : Nat) (t : FS) (hg : Geometry D t.d0)
    (hw : FileWF D t.d0 idx) (hp : filePtr D t.d0 idx (cur / BLOCK_SIZE) ≠ 0) :
    writeBlockAddr D t idx cur (if cur / BLOCK_SIZE < D then none
      else some (indPtr D t.d0 idx + OFF_SIZE * (cur / BLOCK_SIZE - D)))
      = some (filePtr D t.d0 idx (cur / BLOCK_SIZE)) := by
  by_cases h : cur / BLOCK_SIZE < D
  · rw [if_pos h]
    have hc : cur < D * BLOCK_SIZE := by unfold BLOCK_SIZE at *; omega
    obtain ⟨hbi, _⟩ := dir_arith D cur hc hg.max
    unfold writeBlockAddr
    simp only [Option.bind_eq_bind, hbi, Option.some_bind]
    rw [blocks_get D t.d0 idx _ hw.len (le_of_lt h)]
    unfold filePtr
    rw [if_pos h]
  · rw [if_neg h]
    unfold writeBlockAddr
    unfold filePtr
    rw [if_neg h, if_neg (indPtr_ne_of_filePtr D idx _ t.d0 (not_lt.1 h) hp)]

theorem chunk_arith (n bw o : Nat) (hbw : bw < n) (hn : n < 2147483648) (ho : o < BLOCK_SIZE) :
    wrap32 ((n : Int) - (bw : Int)) = ((n - bw : Nat) : Int) ∧
    (if ((n - bw : Nat) : Int) < (BLOCK_SIZE : Int) - (o : Int) then ((n - bw : Nat) : Int)
      else (BLOCK_SIZE : Int) - (o : Int)) = ((min (n - bw) (BLOCK_SIZE - o) : Nat) : Int) ∧
    ¬ ((((min (n - bw) (BLOCK_SIZE - o) : Nat) : Int) < 0) ∨
      ((bw : Int) + ((min (n - bw) (BLOCK_SIZE - o) : Nat) : Int) ≥ 2147483648)) ∧
    0 < min (n - bw) (BLOCK_SIZE - o) ∧ o + min (n - bw) (BLOCK_SIZE - o) ≤ BLOCK_SIZE := by
  unfold BLOCK_SIZE at *
  refine ⟨?_, ?_, ?_, ?_, ?_⟩
  · rw [wrap32_eq] <;> omega
  · split_ifs <;> omega
  · omega
  · omega
  · omega

theorem take_drop_length (buf : List Nat) (bw len : Nat) (h : bw + len ≤ buf.length) :
    ((buf.drop bw).take len).length = len := by
  rw [List.length_take, List.length_drop]
  omega

theorem take_drop_getD (buf : List Nat) (bw len i : Nat) (hi : i < len) :
    ((buf.drop bw).take len).getD i 0 = buf.getD (bw + i) 0 := by
  simp only [List.getD_eq_getElem?_getD, List.getElem?_take, hi, if_true, List.getElem?_drop]

/-- What the copy of one chunk does: the bytes are stored at the same offset
of every disk, nothing else changes. -/
theorem writeChunk_spec (D idx off bw : Nat) (buf : List Nat) (t : FS) (hg : Geometry D t.d0)
    (hw : FileWF D t.d0 idx) (hz : FreeZero t.d0) (hbw : bw < buf.length)
    (hn : off + buf.length ≤ maxBlocks D * BLOCK_SIZE)
    (hp : filePtr D t.d0 idx ((bw + off) / BLOCK_SIZE) ≠ 0) :
    ∃ u, writeChunk D t idx buf off bw (filePtr D t.d0 idx ((bw + off) / BLOCK_SIZE))
        (((bw + off) % BLOCK_SIZE : Nat) : Int)
        (if (bw + off) / BLOCK_SIZE < D then none
          else some (indPtr D t.d0 idx + OFF_SIZE * ((bw + off) / BLOCK_SIZE - D)))
        = some (u, min (buf.length - bw) (BLOCK_SIZE - (bw + off) % BLOCK_SIZE)) ∧
      FileWF D u.d0 idx ∧ FreeZero u.d0 ∧ FileStep D idx t.d0 u.d0 ∧
      (∀ b, b < maxBlocks D → filePtr D u.d0 idx b = filePtr D t.d0 idx b) ∧
      u.d0.inodes idx = t.d0.inodes idx ∧ indPtr D u.d0 idx = indPtr D t.d0 idx ∧
      u.d0.freeCount = t.d0.freeCount ∧
      ∀ d' ∈ u.disks, ∃ d ∈ t.disks,
        d'.mem = memStore d.mem
          (filePtr D t.d0 idx ((bw + off) / BLOCK_SIZE) + (bw + off) % BLOCK_SIZE)
          ((buf.drop bw).take (min (buf.length - bw) (BLOCK_SIZE - (bw + off) % BLOCK_SIZE))) := by
  have hmax := hg.max
  have hmax2 : maxBlocks D * BLOCK_SIZE < 2147483648 := by norm_num at hmax; exact hmax
  have hq : (bw + off) / BLOCK_SIZE < maxBlocks D := by
    rw [Nat.div_lt_iff_lt_mul (by decide)]
    omega
  have ho : (bw + off) % BLOCK_SIZE < BLOCK_SIZE := Nat.mod_lt _ (by decide)
  obtain ⟨c1, c2, c3, c4, c5⟩ := chunk_arith buf.length bw ((bw + off) % BLOCK_SIZE) hbw
    (by omega) ho
  have hblk : IsBlock t.d0.sb (filePtr D t.d0 idx ((bw + off) / BLOCK_SIZE)) :=
    (hw.ptr _ hq hp).1.isBlock
  generalize hlen : min (buf.length - bw) (BLOCK_SIZE - (bw + off) % BLOCK_SIZE) = len at *
  generalize ho2 : (bw + off) % BLOCK_SIZE = o at *
  generalize hP : filePtr D t.d0 idx ((bw + off) / BLOCK_SIZE) = P at *
  have hcl : ((buf.drop bw).take len).length = len :=
    take_drop_length buf bw len (by rw [← hlen]; omega)
  have haddr : t.addr ((P : Int) + (o : Int)) len = some (P + o) :=
    addr_block t P _ len o hblk rfl c5
  -- the state of disk 0 after the copy
  have key := step_same D idx t.d0 (t.store0 (P + o) ((buf.drop bw).take len)).d0
    (fun x => P + o ≤ x ∧ x < P + o + len) hw hz rfl rfl (fun _ _ => rfl) rfl rfl
    (fun a ha => ⟨(bw + off) / BLOCK_SIZE, hq, by rw [hP]; exact hp,
      by rw [hP]; omega, by rw [hP]; omega⟩)
    (fun a ha => by
      show memStore t.d0.mem (P + o) _ a = t.d0.mem a
      apply memStore_out
      rw [hcl]
      omega)
  obtain ⟨k1, k2, k3, k4, k5, k6⟩ := key
  have hba : writeBlockAddr D (t.store0 (P + o) ((buf.drop bw).take len)) idx (bw + off)
      (if (bw + off) / BLOCK_SIZE < D then none
        else some (indPtr D t.d0 idx + OFF_SIZE * ((bw + off) / BLOCK_SIZE - D))) = some P := by
    have := writeBlockAddr_eq D idx (bw + off) (t.store0 (P + o) ((buf.drop bw).take len))
      ⟨hg.pos, hg.fin, hg.max⟩ k1 (by rw [k4 _ hq, hP]; exact hp)
    rw [k5, k4 _ hq, hP] at this
    exact this
  have hsrc : memLoad (t.store0 (P + o) ((buf.drop bw).take len)).d0.mem (P + o) len
      = (buf.drop bw).take len := by
    have := memLoad_memStore t.d0.mem (P + o) ((buf.drop bw).take len)
    rw [hcl] at this
    exact this
  unfold writeChunk
  dsimp only
  rw [c1, c2, if_neg c3]
  simp only [Int.toNat_ofNat, Option.bind_eq_bind, haddr, Option.some_bind, hba, hsrc]
  unfold replicate_partial_block
  by_cases hdc : (t.store0 (P + o) ((buf.drop bw).take len)).disk_count > 1
  · rw [if_pos hdc, hcl]
    have haddr2 : (t.store0 (P + o) ((buf.drop bw).take len)).addr ((P : Int) + (o : Int)) len
        = some (P + o) := haddr
    rw [haddr2]
    refine ⟨_, rfl, k1, k2, k3, k4, rfl, k5, k6, ?_⟩
    intro d' hd'
    simp only [FS.disks, List.mem_cons, List.mem_map] at hd'
    rcases hd' with rfl | ⟨d, hd, rfl⟩
    · exact ⟨t.d0, by simp [FS.disks], rfl⟩
    · exact ⟨d, by simp [FS.disks]; exact Or.inr hd, rfl⟩
  · rw [if_neg hdc]
    refine ⟨_, rfl, k1, k2, k3, k4, rfl, k5, k6, ?_⟩
    have hr : t.rest = [] := rest_nil_of_count t hdc
    intro d' hd'
    simp only [FS.disks, FS.store0, hr, List.mem_cons, List.mem_nil_iff, or_false] at hd'
    subst hd'
    exact ⟨t.d0, by simp [FS.disks], rfl⟩

end Wfs

namespace Wfs

/-! ## The loop of `wfs_write` -/

theorem Stored_locate (D idx off bw cur : Nat) (buf : List Nat) (t t1 : FS) (r)
    (hcur : cur = bw + off) (hs : Stored D t idx off buf bw) (res : LocateRes D idx cur t t1 r)
    (hal : bw = 0 ∨ (off + bw) % BLOCK_SIZE = 0) (hc : cur < maxBlocks D * BLOCK_SIZE) :
    Stored D t1 idx off buf bw := by
  intro j hj
  have hlt : (off + j) / BLOCK_SIZE < cur / BLOCK_SIZE := by
    unfold BLOCK_SIZE at *; omega
  have hb : (off + j) / BLOCK_SIZE < maxBlocks D := by
    have : cur / BLOCK_SIZE < maxBlocks D := by
      rw [Nat.div_lt_iff_lt_mul (by decide)]; exact hc
    omega
  obtain ⟨h1, h2⟩ := hs j hj
  have hp := res.ptrs _ hb (ne_of_lt hlt)
  rw [hp]
  refine ⟨h1, ?_⟩
  intro d' hd'
  obtain ⟨d, hd, e⟩ := res.disks d' hd'
  rw [e, h2 d hd]
  rintro ⟨hI, hx⟩
  have hp1 : filePtr D t1.d0 idx ((off + j) / BLOCK_SIZE) ≠ 0 := by rw [hp]; exact h1
  have hpt := res.wf.ptr _ hb hp1
  rw [hp] at hpt
  have hm : (off + j) % BLOCK_SIZE < BLOCK_SIZE := Nat.mod_lt _ (by decide)
  exact IsBlock.disjoint hpt.1.isBlock (res.wf.ind hI).isBlock hpt.2 _ ⟨by omega, by omega⟩ hx

theorem Stored_chunk (D idx off bw len : Nat) (buf : List Nat) (t u : FS)
    (hw : FileWF D t.d0 idx) (hs : Stored D t idx off buf bw)
    (hal : bw = 0 ∨ (off + bw) % BLOCK_SIZE = 0)
    (hq : (bw + off) / BLOCK_SIZE < maxBlocks D)
    (hp : filePtr D t.d0 idx ((bw + off) / BLOCK_SIZE) ≠ 0)
    (hlen : (bw + off) % BLOCK_SIZE + len ≤ BLOCK_SIZE) (hbl : bw + len ≤ buf.length)
    (hptr : ∀ b, b < maxBlocks D → filePtr D u.d0 idx b = filePtr D t.d0 idx b)
    (hd : ∀ d' ∈ u.disks, ∃ d ∈ t.disks,
        d'.mem = memStore d.mem
          (filePtr D t.d0 idx ((bw + off) / BLOCK_SIZE) + (bw + off) % BLOCK_SIZE)
          ((buf.drop bw).take len)) :
    Stored D u idx off buf (bw + len) := by
  have hcl : ((buf.drop bw).take len).length = len := take_drop_length buf bw len hbl
  intro j hj
  by_cases hjb : j < bw
  · have hlt : (off + j) / BLOCK_SIZE < (bw + off) / BLOCK_SIZE := by
      unfold BLOCK_SIZE at *; omega
    have hb : (off + j) / BLOCK_SIZE < maxBlocks D := by omega
    obtain ⟨h1, h2⟩ := hs j hjb
    rw [hptr _ hb]
    refine ⟨h1, ?_⟩
    intro d' hd'
    obtain ⟨d, hdm, e⟩ := hd d' hd'
    rw [e, memStore_out, h2 d hdm]
    rw [hcl]
    have hne : filePtr D t.d0 idx ((off + j) / BLOCK_SIZE)
        ≠ filePtr D t.d0 idx ((bw + off) / BLOCK_SIZE) := by
      intro e2
      have := hw.inj _ hb _ hq h1 e2
      omega
    have hm : (off + j) % BLOCK_SIZE < BLOCK_SIZE := Nat.mod_lt _ (by decide)
    have hdis := IsBlock.disjoint (hw.ptr _ hb h1).1.isBlock (hw.ptr _ hq hp).1.isBlock hne
      (filePtr D t.d0 idx ((off + j) / BLOCK_SIZE) + (off + j) % BLOCK_SIZE)
      ⟨by omega, by omega⟩
    by_contra hc
    apply hdis
    omega
  · have e1 : (off + j) / BLOCK_SIZE = (bw + off) / BLOCK_SIZE := by
      unfold BLOCK_SIZE at *; omega
    have e2 : (off + j) % BLOCK_SIZE = (bw + off) % BLOCK_SIZE + (j - bw) := by
      unfold BLOCK_SIZE at *; omega
    rw [e1, e2, hptr _ hq]
    refine ⟨hp, ?_⟩
    intro d' hd'
    obtain ⟨d, _, e⟩ := hd d' hd'
    rw [e, ← Nat.add_assoc, memStore_in _ _ _ _ (by rw [hcl]; omega),
      take_drop_getD buf bw len (j - bw) (by omega)]
    congr 1
    omega

/-- The loop of `wfs_write` on a well-formed file: it ends, the bytes it
counts are stored on every disk, and it writes everything when there are
enough free data blocks. -/
theorem writeLoop_spec (D idx off : Nat) (buf : List Nat) (s : FS) (hg : Geometry D s.d0)
    (hn : off + buf.length ≤ maxBlocks D * BLOCK_SIZE) :
    ∀ fuel (t : FS) (bw : Nat), WriteInv D idx off buf s t bw → buf.length - bw < fuel →
      ∃ w u, writeLoop D idx buf off fuel t bw = some (w, u) ∧ WriteInv D idx off buf s u w ∧
        bw ≤ w ∧ (w < buf.length → u.d0.freeCount = 0) ∧
        (bw < buf.length → writeNeed D t.d0 idx off buf.length bw ≤ t.d0.freeCount →
          w = buf.length) := by
  intro fuel
  induction fuel with
  | zero => intro t bw _ h; omega
  | succ fuel ih =>
    intro t bw inv hf
    have hgt : Geometry D t.d0 := Geometry_congr inv.step.sb hg
    unfold writeLoop
    by_cases hbw : bw < buf.length
    · rw [if_pos hbw]
      have hc : bw + off < maxBlocks D * BLOCK_SIZE := by omega
      have hq : (bw + off) / BLOCK_SIZE < maxBlocks D := by
        rw [Nat.div_lt_iff_lt_mul (by decide)]; exact hc
      have hal : bw = 0 ∨ (off + bw) % BLOCK_SIZE = 0 := by
        rcases inv.aligned with h | h | h
        · exact Or.inl h
        · exact Or.inr h
        · omega
      obtain ⟨t1, r, hl, res⟩ := writeLocate_spec D idx (bw + off) t hgt inv.wf inv.fz hc
      have hs1 := Stored_locate D idx off bw (bw + off) buf t t1 r rfl inv.hold res hal hc
      have hfl : ∃ bl, t1.d0.inodes idx = { s.d0.inodes idx with blocks := bl } := by
        obtain ⟨bl1, e1⟩ := inv.flds
        obtain ⟨bl2, e2⟩ := res.flds
        exact ⟨bl2, by rw [e2, e1]⟩
      simp only [hl, Option.bind_eq_bind, Option.some_bind]
      cases r with
      | none =>
        obtain ⟨f1, f2⟩ := res.fail rfl
        refine ⟨bw, t1, rfl, ⟨res.wf, res.fz, FileStep_trans inv.step res.step, hfl, hs1, inv.le,
          inv.aligned⟩, le_refl _, fun _ => f1, ?_⟩
        intro _ hneed
        exfalso
        unfold writeNeed at hneed
        have hlt : (off + bw) / BLOCK_SIZE < (off + buf.length + (BLOCK_SIZE - 1)) / BLOCK_SIZE := by
          unfold BLOCK_SIZE; omega
        have e : (bw + off) / BLOCK_SIZE = (off + bw) / BLOCK_SIZE := by rw [Nat.add_comm]
        rw [e] at f2
        generalize (off + bw) / BLOCK_SIZE = b at *
        generalize (off + buf.length + (BLOCK_SIZE - 1)) / BLOCK_SIZE = hi at *
        split_ifs at hneed f2 <;> omega
      | some v =>
        obtain ⟨block, bo, slot⟩ := v
        obtain ⟨r1, r2, r3, r4, r5⟩ := res.found block bo slot rfl
        subst r1 r3 r4
        have hgt1 : Geometry D t1.d0 := Geometry_congr res.step.sb hgt
        obtain ⟨u, hch, k1, k2, k3, k4, k5, k6, k7, k8⟩ :=
          writeChunk_spec D idx off bw buf t1 hgt1 res.wf res.fz hbw hn r2
        have ho : (bw + off) % BLOCK_SIZE < BLOCK_SIZE := Nat.mod_lt _ (by decide)
        obtain ⟨_, _, _, c4, c5⟩ := chunk_arith buf.length bw ((bw + off) % BLOCK_SIZE) hbw
          (by have := hg.max; norm_num at this; omega) ho
        have hs2 := Stored_chunk D idx off bw _ buf t1 u res.wf hs1 hal hq r2 c5
          (by omega) k4 k8
        simp only [hch, Option.bind_eq_bind, Option.some_bind]
        have inv2 : WriteInv D idx off buf s u
            (bw + min (buf.length - bw) (BLOCK_SIZE - (bw + off) % BLOCK_SIZE)) := by
          refine ⟨k1, k2, FileStep_trans (FileStep_trans inv.step res.step) k3, ?_, hs2, by omega, ?_⟩
          · rw [k5]; exact hfl
          · unfold BLOCK_SIZE at *; omega
        obtain ⟨w, u2, hw2, inv3, g1, g2, g3⟩ := ih u _ inv2 (by omega)
        refine ⟨w, u2, hw2, inv3, by omega, g2, ?_⟩
        intro _ hneed
        by_cases hdone : bw + min (buf.length - bw) (BLOCK_SIZE - (bw + off) % BLOCK_SIZE)
            < buf.length
        · apply g3 hdone
          unfold writeNeed at hneed ⊢
          rw [k6, k7]
          have hi1 : D ≤ (bw + off) / BLOCK_SIZE → indPtr D t1.d0 idx ≠ 0 :=
            fun h => indPtr_ne_of_filePtr D idx _ t1.d0 h r2
          have hind := res.ind
          have e : (bw + off) / BLOCK_SIZE = (off + bw) / BLOCK_SIZE := by rw [Nat.add_comm]
          have e3 : (off + (bw + min (buf.length - bw) (BLOCK_SIZE - (bw + off) % BLOCK_SIZE)))
              / BLOCK_SIZE = (off + bw) / BLOCK_SIZE + 1 := by
            unfold BLOCK_SIZE at *; omega
          have hlt : (off + bw) / BLOCK_SIZE
              < (off + buf.length + (BLOCK_SIZE - 1)) / BLOCK_SIZE := by
            unfold BLOCK_SIZE; omega
          rw [e3]
          rw [e] at r5 hi1
          generalize (off + bw) / BLOCK_SIZE = b at *
          generalize (off + buf.length + (BLOCK_SIZE - 1)) / BLOCK_SIZE = hi at *
          generalize indPtr D t1.d0 idx = i1 at *
          generalize indPtr D t.d0 idx = i0 at *
          generalize t1.d0.freeCount = f1 at *
          generalize t.d0.freeCount = f0 at *
          split_ifs at hneed r5 ⊢ <;> omega
        · have : w ≤ buf.length := inv3.le
          omega
    · rw [if_neg hbw]
      have := inv.le
      exact ⟨bw, t, rfl, inv, le_refl _, fun h => by omega, fun h => absurd h hbw⟩

end Wfs

namespace Wfs

/-! ## `wfs_write` on a well-formed file -/

/-- A change of fields of inode `idx` other than `mode` and `blocks`. -/
theorem step_fields (D idx : Nat) (d : Disk) (f : wfs_inode → wfs_inode)
    (hw : FileWF D d idx) (hz : FreeZero d)
    (hm : (f (d.inodes idx)).mode = (d.inodes idx).mode)
    (hb : (f (d.inodes idx)).blocks = (d.inodes idx).blocks) :
    FileWF D { d with inodes := upd d.inodes idx (f (d.inodes idx)) } idx ∧
    FreeZero { d with inodes := upd d.inodes idx (f (d.inodes idx)) } ∧
    FileStep D idx d { d with inodes := upd d.inodes idx (f (d.inodes idx)) } ∧
    (∀ b, filePtr D { d with inodes := upd d.inodes idx (f (d.inodes idx)) } idx b
      = filePtr D d idx b) := by
  have e : (upd d.inodes idx (f (d.inodes idx))) idx = f (d.inodes idx) := by simp [upd]
  have key := step_same D idx d { d with inodes := upd d.inodes idx (f (d.inodes idx)) }
    (fun _ => False) hw hz rfl rfl (fun i hi => by simp [upd, hi])
    (by show (upd d.inodes idx (f (d.inodes idx)) idx).mode = _; rw [e, hm])
    (by show (upd d.inodes idx (f (d.inodes idx)) idx).blocks = _; rw [e, hb])
    (fun _ h => h.elim) (fun _ _ => rfl)
  refine ⟨key.1, key.2.1, key.2.2.1, ?_⟩
  intro b
  apply filePtr_congr
  · show (upd d.inodes idx (f (d.inodes idx)) idx).blocks = _
    rw [e, hb]
  · intro _ _ _ _; rfl

/-- The stored bytes stay when the block pointers and the bytes of all disks stay. -/
theorem Stored_congr (D idx off w : Nat) (buf : List Nat) (t u : FS)
    (hp : ∀ b, filePtr D u.d0 idx b = filePtr D t.d0 idx b)
    (hd : ∀ d' ∈ u.disks, ∃ d ∈ t.disks, d'.mem = d.mem)
    (hs : Stored D t idx off buf w) : Stored D u idx off buf w := by
  intro j hj
  obtain ⟨h1, h2⟩ := hs j hj
  rw [hp]
  refine ⟨h1, ?_⟩
  intro d' hd'
  obtain ⟨d, hdm, e⟩ := hd d' hd'
  rw [e]
  exact h2 d hdm

theorem inodeIdx_natCast (s : FS) (idx : Nat) (h : idx < s.iCount) :
    s.inodeIdx (idx : Int) = some idx := by
  unfold FS.inodeIdx
  rw [if_pos ⟨Int.natCast_nonneg _, by exact_mod_cast h⟩]
  simp

/-- `wfs_write` on a well-formed file returns, and does what `WriteRes` says. -/
theorem wfs_write_spec (D idx off : Nat) (buf path : List Nat) (s : FS) (clock : Nat → Int)
    (hg : Geometry D s.d0) (hw : FileWF D s.d0 idx) (hz : FreeZero s.d0)
    (hp : parsePath D s path = some (idx : Int)) (hi : idx < s.iCount)
    (hn : off + buf.length ≤ maxBlocks D * BLOCK_SIZE) :
    ∃ (w : Nat) (t : FS), wfs_write D s path buf off clock
        = some (if w ≠ 0 then (w : Int) else -ENOSPC, t) ∧
      WriteRes D idx off buf s t w ∧
      (0 < buf.length → writeNeed D s.d0 idx off buf.length 0 ≤ s.d0.freeCount →
        w = buf.length) := by
  obtain ⟨a1, a2, a3, a4⟩ := step_fields D idx s.d0
    (fun i => { i with atim := clock 0, mtim := clock 1 }) hw hz rfl rfl
  have inv0 : WriteInv D idx off buf (s.modInode idx
      (fun i => { i with atim := clock 0, mtim := clock 1 }))
      (s.modInode idx (fun i => { i with atim := clock 0, mtim := clock 1 })) 0 :=
    ⟨a1, a2, FileStep_refl _ _ _, ⟨_, rfl⟩, fun j hj => absurd hj (Nat.not_lt_zero _),
      Nat.zero_le _, Or.inl rfl⟩
  obtain ⟨w, u, hl, inv, _, g2, g3⟩ := writeLoop_spec D idx off buf
    (s.modInode idx (fun i => { i with atim := clock 0, mtim := clock 1 }))
    (Geometry_congr a3.sb hg) hn (buf.length + 1) _ 0 inv0 (by omega)
  obtain ⟨b1, b2, b3, b4⟩ := step_fields D idx u.d0
    (fun i => { i with size := i.size + (w : Int) }) inv.wf inv.fz rfl rfl
  refine ⟨w, replicate_inode (u.modInode idx (fun i => { i with size := i.size + (w : Int) })) idx,
    ?_, ⟨b1, b2, FileStep_trans (FileStep_trans a3 inv.step) b3, ?_, ?_, inv.le, ?_, ?_⟩, ?_⟩
  · unfold wfs_write
    simp only [hp, Option.bind_eq_bind, Option.some_bind]
    rw [if_neg (not_lt.2 (Int.natCast_nonneg _)), inodeIdx_natCast s idx hi]
    simp only [Option.some_bind, hl]
  · obtain ⟨bl, e⟩ := inv.flds
    show ((upd u.d0.inodes idx _) idx).size = _
    simp only [upd, if_true]
    rw [e]
    simp [FS.modInode, FS.setInode, upd]
  · apply Stored_congr D idx off w buf u _ b4 _ inv.hold
    intro d' hd'
    simp only [FS.disks, replicate_inode, FS.modInode, FS.setInode, List.mem_cons,
      List.mem_map] at hd'
    rcases hd' with rfl | ⟨d, hd, rfl⟩
    · exact ⟨u.d0, by simp [FS.disks], rfl⟩
    · exact ⟨d, by simp [FS.disks]; exact Or.inr hd, rfl⟩
  · intro d hd
    simp only [replicate_inode, List.mem_map] at hd
    obtain ⟨d1, _, rfl⟩ := hd
    simp only [upd, if_true]
    rfl
  · intro h
    exact g2 h
  · intro h0 hneed
    apply g3 h0
    have e : indPtr D (s.modInode idx
        (fun i => { i with atim := clock 0, mtim := clock 1 })).d0 idx = indPtr D s.d0 idx := by
      apply indPtr_congr
      simp [FS.modInode, FS.setInode, upd]
    unfold writeNeed at hneed ⊢
    rw [e]
    exact hneed

end Wfs

namespace Wfs

/-! ## `wfs_read` on a well-formed file -/

theorem repairLoop_mem (best : Nat) (bb : List Nat) (a : Nat) (l : List Disk) :
    ∀ i, ∀ d' ∈ repairLoop best bb a i l,
      ∃ d ∈ l, d' = d ∨ d' = { d with mem := memStore d.mem a bb } := by
  induction l with
  | nil => intro i d' h; simp [repairLoop] at h
  | cons x l ih =>
    intro i d' h
    simp only [repairLoop, List.mem_cons] at h
    rcases h with h | h
    · refine ⟨x, by simp, ?_⟩
      rw [h]
      split_ifs
      · exact Or.inr rfl
      · exact Or.inl rfl
    · obtain ⟨d, hd, e⟩ := ih _ d' h
      exact ⟨d, by simp [hd], e⟩

theorem voteAndRepair_mem (t : FS) (a : Nat) :
    ∀ d' ∈ (voteAndRepair t a).1.disks,
      ∃ d ∈ t.disks, d' = d ∨ d' = { d with mem := memStore d.mem a (voteAndRepair t a).2 } := by
  intro d' hd'
  rw [voteAndRepair_disks] at hd'
  rw [voteAndRepair_buf]
  exact repairLoop_mem _ _ _ _ _ d' hd'

theorem voteAndRepair_d0 (t : FS) (a : Nat) :
    (voteAndRepair t a).1.d0 = t.d0 ∨
    (voteAndRepair t a).1.d0 = { t.d0 with mem := memStore t.d0.mem a (voteAndRepair t a).2 } := by
  have h := voteAndRepair_disks t a
  rw [← voteAndRepair_buf] at h
  simp only [FS.disks, repairLoop, List.cons.injEq] at h
  rw [h.1]
  split_ifs
  · exact Or.inr rfl
  · exact Or.inl rfl

theorem voteAndRepair_length (t : FS) (a : Nat) : (voteAndRepair t a).2.length = BLOCK_SIZE := by
  obtain ⟨d, _, e⟩ := voteAndRepair_buf_mem t a
  rw [e, memLoad_length]

theorem readBlockAddr_eq (D idx cur : Nat) (t : FS) (hg : Geometry D t.d0)
    (hw : FileWF D t.d0 idx) (hc : cur < maxBlocks D * BLOCK_SIZE) :
    readBlockAddr D t (t.d0.inodes idx) cur = some (filePtr D t.d0 idx (cur / BLOCK_SIZE)) := by
  have hmax := hg.max
  have hm : maxBlocks D * BLOCK_SIZE < 2147483648 := by norm_num at hmax; exact hmax
  have hq : cur / BLOCK_SIZE < maxBlocks D := by
    rw [Nat.div_lt_iff_lt_mul (by decide)]; exact hc
  have hq2 : cur / BLOCK_SIZE < 2147483648 := by
    have : maxBlocks D ≤ maxBlocks D * BLOCK_SIZE := Nat.le_mul_of_pos_right _ (by decide)
    omega
  unfold readBlockAddr
  dsimp only
  generalize hqe : cur / BLOCK_SIZE = q at *
  rw [wrap32_eq _ (by omega) (by omega)]
  by_cases h : q < D
  · rw [if_neg (by omega)]
    have hbi : blockIdx D (q : Int) = some q := by
      unfold blockIdx
      rw [if_pos ⟨by omega, by omega⟩]
      simp
    simp only [Option.bind_eq_bind, hbi, Option.some_bind]
    rw [blocks_get D t.d0 idx _ hw.len (le_of_lt h)]
    unfold filePtr
    rw [if_pos h]
  · rw [if_pos (by omega)]
    simp only [Option.bind_eq_bind, blocks_get D t.d0 idx D hw.len (le_refl _), Option.some_bind]
    unfold filePtr
    rw [if_neg h]
    by_cases hI : indPtr D t.d0 idx = 0
    · have hI2 : (t.d0.inodes idx).blocks.getD D 0 = 0 := hI
      rw [if_pos hI, if_pos hI2]
    · have hI2 : ¬ (t.d0.inodes idx).blocks.getD D 0 = 0 := hI
      rw [if_neg hI, if_neg hI2]
      have hslot : t.addr ((((t.d0.inodes idx).blocks.getD D 0 : Nat) : Int) + (OFF_SIZE : Int) *
          ((q : Int) - (D : Int))) OFF_SIZE = some (indPtr D t.d0 idx + OFF_SIZE * (q - D)) := by
        apply addr_block t _ _ _ _ (hw.ind hI).isBlock
        · unfold indPtr
          have : ((q - D : Nat) : Int) = (q : Int) - (D : Int) := by omega
          push_cast
          rw [this]
        · unfold maxBlocks BLOCK_SIZE OFF_SIZE at *; omega
      simp only [hslot, Option.some_bind]

theorem read_arith (n br o : Nat) (hbr : br < n) (hn : n < 2147483648) (ho : o < BLOCK_SIZE) :
    wrap32 ((n : Int) - (br : Int)) = ((n - br : Nat) : Int) ∧
    (if ((n - br : Nat) : Int) > (BLOCK_SIZE : Int) - (o : Int) then (BLOCK_SIZE : Int) - (o : Int)
      else ((n - br : Nat) : Int)) = ((min (n - br) (BLOCK_SIZE - o) : Nat) : Int) ∧
    ¬ ((((min (n - br) (BLOCK_SIZE - o) : Nat) : Int) < 0) ∨
      ((br : Int) + ((min (n - br) (BLOCK_SIZE - o) : Nat) : Int) ≥ 2147483648)) := by
  unfold BLOCK_SIZE at *
  refine ⟨?_, ?_, ?_⟩
  · rw [wrap32_eq] <;> omega
  · split_ifs <;> omega
  · omega

theorem load_chunk (m : Nat → Nat) (P o len br : Nat) (buf : List Nat)
    (h : ∀ i, i < len → m (P + o + i) = buf.getD (br + i) 0)
    (ho : o + len ≤ BLOCK_SIZE) (hb : br + len ≤ buf.length) :
    ((memLoad m P BLOCK_SIZE).drop o).take len = (buf.drop br).take len := by
  apply List.ext_getElem?
  intro i
  simp only [List.getElem?_take, List.getElem?_drop]
  by_cases hi : i < len
  · rw [if_pos hi, if_pos hi]
    have h1 : o + i < (memLoad m P BLOCK_SIZE).length := by rw [memLoad_length]; omega
    have h2 : br + i < buf.length := by omega
    rw [List.getElem?_eq_getElem h1, List.getElem?_eq_getElem h2]
    have e1 := memLoad_getD m P BLOCK_SIZE (o + i) (by omega)
    rw [List.getD_eq_getElem?_getD, List.getElem?_eq_getElem h1] at e1
    have e2 := h i hi
    rw [List.getD_eq_getElem?_getD, List.getElem?_eq_getElem h2] at e2
    simp only [Option.getD_some] at e1 e2
    rw [e1, ← e2, Nat.add_assoc]
  · rw [if_neg hi, if_neg hi]

theorem Stored_repair (D idx off b0 : Nat) (buf bb : List Nat) (t u : FS) (e : Disk)
    (hw : FileWF D t.d0 idx) (hn : off + buf.length ≤ maxBlocks D * BLOCK_SIZE)
    (hs : Stored D t idx off buf buf.length) (hb0 : b0 < maxBlocks D)
    (hp0 : filePtr D t.d0 idx b0 ≠ 0) (he : e ∈ t.disks)
    (hbb : bb = memLoad e.mem (filePtr D t.d0 idx b0) BLOCK_SIZE)
    (hptr : ∀ b, b < maxBlocks D → filePtr D u.d0 idx b = filePtr D t.d0 idx b)
    (hd : ∀ d' ∈ u.disks, ∃ d ∈ t.disks, d' = d ∨
      d' = { d with mem := memStore d.mem (filePtr D t.d0 idx b0) bb }) :
    Stored D u idx off buf buf.length := by
  intro j hj
  have hb : (off + j) / BLOCK_SIZE < maxBlocks D := by
    rw [Nat.div_lt_iff_lt_mul (by decide)]; omega
  have hm : (off + j) % BLOCK_SIZE < BLOCK_SIZE := Nat.mod_lt _ (by decide)
  obtain ⟨h1, h2⟩ := hs j hj
  rw [hptr _ hb]
  refine ⟨h1, ?_⟩
  intro d' hd'
  obtain ⟨d, hdm, e1 | e1⟩ := hd d' hd'
  · rw [e1]; exact h2 d hdm
  · rw [e1]
    show memStore d.mem (filePtr D t.d0 idx b0) bb _ = _
    have hbl : bb.length = BLOCK_SIZE := by rw [hbb, memLoad_length]
    by_cases hpe : filePtr D t.d0 idx ((off + j) / BLOCK_SIZE) = filePtr D t.d0 idx b0
    · rw [hpe, memStore_in _ _ _ _ (by rw [hbl]; exact hm), hbb, memLoad_getD _ _ _ _ hm, ← hpe]
      exact h2 e he
    · rw [memStore_out, h2 d hdm]
      rw [hbl]
      have hdis := IsBlock.disjoint (hw.ptr _ hb h1).1.isBlock (hw.ptr _ hb0 hp0).1.isBlock hpe
        (filePtr D t.d0 idx ((off + j) / BLOCK_SIZE) + (off + j) % BLOCK_SIZE)
        ⟨by omega, by omega⟩
      by_contra hc
      apply hdis
      omega

/-- The loop of `wfs_read` over bytes that every disk holds: it ends and
delivers them. -/
theorem readLoop_spec (D idx off : Nat) (buf : List Nat) (s : FS) (hg : Geometry D s.d0)
    (hn : off + buf.length ≤ maxBlocks D * BLOCK_SIZE)
    (hsz : ((off + buf.length : Nat) : Int) ≤ (s.d0.inodes idx).size) :
    ∀ fuel (t : FS) (br : Nat) (out : List Nat), ReadInv D idx off buf s t br out →
      buf.length - br < fuel →
      ∃ u, readLoop D idx buf.length off fuel t br out = some (buf.length, buf, u) ∧
        ReadInv D idx off buf s u buf.length buf := by
  intro fuel
  induction fuel with
  | zero => intro t br out _ h; omega
  | succ fuel ih =>
    intro t br out inv hf
    have hgt : Geometry D t.d0 := Geometry_congr inv.step.sb hg
    have hmax := hg.max
    have hm : maxBlocks D * BLOCK_SIZE < 2147483648 := by norm_num at hmax; exact hmax
    unfold readLoop
    dsimp only
    by_cases hbr : br < buf.length
    · have hcond : br < buf.length ∧ ((br + off : Nat) : Int) < (t.d0.inodes idx).size := by
        refine ⟨hbr, ?_⟩
        rw [inv.ino]
        omega
      rw [if_pos hcond]
      have hc : br + off < maxBlocks D * BLOCK_SIZE := by omega
      have hq : (br + off) / BLOCK_SIZE < maxBlocks D := by
        rw [Nat.div_lt_iff_lt_mul (by decide)]; exact hc
      have ho : (br + off) % BLOCK_SIZE < BLOCK_SIZE := Nat.mod_lt _ (by decide)
      obtain ⟨hp, hall⟩ := inv.stored br hbr
      rw [Nat.add_comm off br] at hp hall
      have hblk := (inv.wf.ptr _ hq hp).1.isBlock
      have haddr : t.addr ((filePtr D t.d0 idx ((br + off) / BLOCK_SIZE) : Nat) : Int) BLOCK_SIZE
          = some (filePtr D t.d0 idx ((br + off) / BLOCK_SIZE)) :=
        addr_eq t _ BLOCK_SIZE _ rfl hblk.ge hblk.le
      obtain ⟨c1, c2, c3⟩ := read_arith buf.length br ((br + off) % BLOCK_SIZE) hbr (by omega) ho
      obtain ⟨_, _, _, c4, c5⟩ := chunk_arith buf.length br ((br + off) % BLOCK_SIZE) hbr
        (by omega) ho
      simp only [readBlockAddr_eq D idx (br + off) t hgt inv.wf hc, Option.bind_eq_bind,
        Option.some_bind, if_neg hp, haddr]
      rw [c1, c2, if_neg c3]
      simp only [Int.toNat_ofNat]
      generalize hlen : min (buf.length - br) (BLOCK_SIZE - (br + off) % BLOCK_SIZE) = len at *
      generalize hP : filePtr D t.d0 idx ((br + off) / BLOCK_SIZE) = P at *
      -- the state after the vote
      have hvl := voteAndRepair_length t P
      obtain ⟨e, he, hbb⟩ := voteAndRepair_buf_mem t P
      have key : FileWF D (voteAndRepair t P).1.d0 idx ∧ FreeZero (voteAndRepair t P).1.d0 ∧
          FileStep D idx t.d0 (voteAndRepair t P).1.d0 ∧
          (∀ b, b < maxBlocks D → filePtr D (voteAndRepair t P).1.d0 idx b = filePtr D t.d0 idx b) ∧
          indPtr D (voteAndRepair t P).1.d0 idx = indPtr D t.d0 idx ∧
          (voteAndRepair t P).1.d0.freeCount = t.d0.freeCount ∧
          (voteAndRepair t P).1.d0.inodes idx = t.d0.inodes idx := by
        rcases voteAndRepair_d0 t P with h | h
        · rw [h]
          exact ⟨inv.wf, inv.fz, FileStep_refl _ _ _, fun _ _ => rfl, rfl, rfl, rfl⟩
        · rw [h]
          have := step_same D idx t.d0
            { t.d0 with mem := memStore t.d0.mem P (voteAndRepair t P).2 }
            (fun x => P ≤ x ∧ x < P + BLOCK_SIZE) inv.wf inv.fz rfl rfl (fun _ _ => rfl) rfl rfl
            (fun a ha => ⟨(br + off) / BLOCK_SIZE, hq, by rw [hP]; exact hp,
              by rw [hP]; exact ha.1, by rw [hP]; exact ha.2⟩)
            (fun a ha => by
              show memStore t.d0.mem P _ a = t.d0.mem a
              apply memStore_out
              rw [hvl]
              omega)
          exact ⟨this.1, this.2.1, this.2.2.1, this.2.2.2.1, this.2.2.2.2.1, this.2.2.2.2.2, rfl⟩
      obtain ⟨k1, k2, k3, k4, _, _, k7⟩ := key
      have hst : Stored D (voteAndRepair t P).1 idx off buf buf.length := by
        apply Stored_repair D idx off ((br + off) / BLOCK_SIZE) buf (voteAndRepair t P).2 t _ e
          inv.wf hn inv.stored hq (by rw [hP]; exact hp) he (by rw [hP]; exact hbb) k4
        rw [hP]
        exact voteAndRepair_mem t P
      have hout : out ++ ((voteAndRepair t P).2.drop ((br + off) % BLOCK_SIZE)).take len
          = buf.take (br + len) := by
        rw [inv.out_eq, hbb, List.take_add]
        congr 1
        apply load_chunk _ _ _ _ _ _ _ c5 (by rw [← hlen]; omega)
        intro i hi
        have hj : br + i < buf.length := by rw [← hlen] at hi; omega
        obtain ⟨_, h2⟩ := inv.stored (br + i) hj
        have e1 : (off + (br + i)) / BLOCK_SIZE = (br + off) / BLOCK_SIZE := by
          unfold BLOCK_SIZE at *; omega
        have e2 : (off + (br + i)) % BLOCK_SIZE = (br + off) % BLOCK_SIZE + i := by
          unfold BLOCK_SIZE at *; omega
        rw [e1, e2, hP] at h2
        rw [← h2 e he, Nat.add_assoc]
      rw [hout]
      have inv2 : ReadInv D idx off buf s (voteAndRepair t P).1 (br + len) (buf.take (br + len)) := by
        refine ⟨k1, k2, FileStep_trans inv.step k3, by rw [k7, inv.ino], hst, rfl, by rw [← hlen]; omega, ?_⟩
        rw [← hlen]
        unfold BLOCK_SIZE at *
        omega
      exact ih _ _ _ inv2 (by omega)
    · have hcond : ¬ (br < buf.length ∧ ((br + off : Nat) : Int) < (t.d0.inodes idx).size) :=
        fun h => hbr h.1
      rw [if_neg hcond]
      have hle := inv.le
      have e : br = buf.length := by omega
      subst e
      have e2 : out = buf := by rw [inv.out_eq, List.take_length]
      subst e2
      exact ⟨t, rfl, inv⟩

end Wfs

namespace Wfs

/-! ## `wfs_read` and `wfs_getattr` after a write -/

/-- `wfs_read` of bytes that every disk holds returns them. -/
theorem wfs_read_spec (D idx off : Nat) (buf path : List Nat) (s : FS) (clock : Nat → Int)
    (hg : Geometry D s.d0) (hw : FileWF D s.d0 idx) (hz : FreeZero s.d0)
    (hp : parsePath D s path = some (idx : Int)) (hi : idx < s.iCount)
    (hn0 : 0 < buf.length) (hn : off + buf.length ≤ maxBlocks D * BLOCK_SIZE)
    (hsz : ((off + buf.length : Nat) : Int) ≤ (s.d0.inodes idx).size)
    (hs : Stored D s idx off buf buf.length) :
    ∃ t, wfs_read D s path buf.length off clock = some ((buf.length : Int), buf, t) ∧
      FileWF D t.d0 idx ∧ FreeZero t.d0 ∧ FileStep D idx s.d0 t.d0 ∧
      (t.d0.inodes idx).size = (s.d0.inodes idx).size ∧
      Stored D t idx off buf buf.length := by
  obtain ⟨a1, a2, a3, a4⟩ := step_fields D idx s.d0
    (fun i => { i with atim := clock 0 }) hw hz rfl rfl
  have hd0 : (if (s.modInode idx (fun i => { i with atim := clock 0 })).disk_count > 1 ∧
      (s.modInode idx (fun i => { i with atim := clock 0 })).d0.sb.raid_mode = 1
      then replicate_inode (s.modInode idx (fun i => { i with atim := clock 0 })) idx
      else s.modInode idx (fun i => { i with atim := clock 0 })).d0
      = (s.modInode idx (fun i => { i with atim := clock 0 })).d0 := by
    split_ifs <;> rfl
  have hdk : ∀ d' ∈ (if (s.modInode idx (fun i => { i with atim := clock 0 })).disk_count > 1 ∧
      (s.modInode idx (fun i => { i with atim := clock 0 })).d0.sb.raid_mode = 1
      then replicate_inode (s.modInode idx (fun i => { i with atim := clock 0 })) idx
      else s.modInode idx (fun i => { i with atim := clock 0 })).disks,
      ∃ d ∈ s.disks, d'.mem = d.mem := by
    intro d' hd'
    split_ifs at hd'
    · simp only [FS.disks, replicate_inode, FS.modInode, FS.setInode, List.mem_cons,
        List.mem_map] at hd'
      rcases hd' with rfl | ⟨d, hd, rfl⟩
      · exact ⟨s.d0, by simp [FS.disks], rfl⟩
      · exact ⟨d, by simp [FS.disks]; exact Or.inr hd, rfl⟩
    · simp only [FS.disks, FS.modInode, FS.setInode, List.mem_cons] at hd'
      rcases hd' with rfl | hd
      · exact ⟨s.d0, by simp [FS.disks], rfl⟩
      · exact ⟨d', by simp [FS.disks]; exact Or.inr hd, rfl⟩
  generalize hs2 : (if (s.modInode idx (fun i => { i with atim := clock 0 })).disk_count > 1 ∧
      (s.modInode idx (fun i => { i with atim := clock 0 })).d0.sb.raid_mode = 1
      then replicate_inode (s.modInode idx (fun i => { i with atim := clock 0 })) idx
      else s.modInode idx (fun i => { i with atim := clock 0 })) = s2 at hd0 hdk
  have hsize : (s2.d0.inodes idx).size = (s.d0.inodes idx).size := by
    rw [hd0]; simp [FS.modInode, FS.setInode, upd]
  have inv0 : ReadInv D idx off buf s2 s2 0 [] := by
    refine ⟨by rw [hd0]; exact a1, by rw [hd0]; exact a2, FileStep_refl _ _ _, rfl, ?_, by simp,
      Nat.zero_le _, Or.inl rfl⟩
    exact Stored_congr D idx off _ buf s s2 (by rw [hd0]; exact a4) hdk hs
  have hg2 : Geometry D s2.d0 := by rw [hd0]; exact Geometry_congr a3.sb hg
  obtain ⟨u, hu, inv⟩ := readLoop_spec D idx off buf s2 hg2 hn (by rw [hsize]; exact hsz)
    (buf.length + 1) s2 0 [] inv0 (by omega)
  refine ⟨u, ?_, inv.wf, inv.fz, ?_, by rw [inv.ino, hsize], inv.stored⟩
  · unfold wfs_read
    simp only [hp, Option.bind_eq_bind, Option.some_bind]
    rw [if_neg (not_lt.2 (Int.natCast_nonneg _)), inodeIdx_natCast s idx hi]
    simp only [Option.some_bind]
    rw [if_neg (by omega)]
    simp only [hs2, hu, Option.some_bind]
  · have : FileStep D idx s.d0 s2.d0 := by rw [hd0]; exact a3
    exact FileStep_trans this inv.step

/-! ## Path resolution does not look at the file -/

theorem load_frame (s s' : FS) (a : Nat) (hsb : s'.d0.sb = s.d0.sb)
    (hm : s'.d0.mem a = s.d0.mem a) : s'.load a = s.load a := by
  unfold FS.load FS.addr FS.dataEnd
  rw [hsb]
  split_ifs
  · simp only [Option.map_some', Int.toNat_ofNat, hm]
  · rfl

theorem addr_frame (s s' : FS) (a : Int) (len : Nat) (hsb : s'.d0.sb = s.d0.sb) :
    s'.addr a len = s.addr a len := by
  unfold FS.addr FS.dataEnd
  rw [hsb]

theorem load_ne_zero (s : FS) (a b : Nat) (h : s.load a = some b) : b = s.d0.mem a := by
  unfold FS.load FS.addr at h
  split_ifs at h
  · simp only [Option.map_some', Int.toNat_ofNat, Option.some.injEq] at h
    exact h.symm
  · simp at h

theorem strcmpEq_frame (s s' : FS) (B : Nat) (hsb : s'.d0.sb = s.d0.sb)
    (hz : s.d0.mem (B - 1) = 0) :
    ∀ (cstr : List Nat) (e : Nat), (∀ a, e ≤ a → a < B → s'.d0.mem a = s.d0.mem a) → e < B →
      strcmpEq s' e cstr = strcmpEq s e cstr := by
  intro cstr
  induction cstr with
  | nil => intro e _ _; rfl
  | cons c cs ih =>
    intro e hag he
    unfold strcmpEq
    rw [load_frame s s' e hsb (hag e (le_refl _) he)]
    cases hl : s.load e with
    | none => simp only [Option.map_none', Option.bind_eq_bind, Option.none_bind]
    | some b =>
      simp only [Option.bind_eq_bind, Option.some_bind]
      by_cases h1 : b ≠ c
      · rw [if_pos h1, if_pos h1]
      · rw [if_neg h1, if_neg h1]
        by_cases h2 : c = 0
        · rw [if_pos h2, if_pos h2]
        · rw [if_neg h2, if_neg h2]
          have hb : b = s.d0.mem e := load_ne_zero s e b hl
          have hne : e ≠ B - 1 := by
            intro e1
            rw [e1, hz] at hb
            apply h2
            have : b = c := not_not.1 h1
            rw [← this, hb]
          exact ih (e + 1) (fun a h3 h4 => hag a (by omega) h4) (by omega)

theorem addr_some (s : FS) (x len a : Nat) (h : s.addr (x : Int) len = some a) : a = x := by
  unfold FS.addr at h
  split_ifs at h
  simp only [Int.toNat_ofNat, Option.some.injEq] at h
  exact h.symm

theorem scanEntries_frame (s s' : FS) (p : Nat) (cstr : List Nat) (hsb : s'.d0.sb = s.d0.sb)
    (hag : ∀ a, p ≤ a → a < p + BLOCK_SIZE → s'.d0.mem a = s.d0.mem a)
    (hz : s.d0.mem (p + (BLOCK_SIZE - 1)) = 0) :
    ∀ n i, i + n = BLOCK_SIZE / DENTRY_SIZE →
      scanEntries s' cstr n (p + DENTRY_SIZE * i) = scanEntries s cstr n (p + DENTRY_SIZE * i) := by
  intro n
  induction n with
  | zero =>
    intro i _
    unfold scanEntries FS.load
    rw [addr_frame s s' _ _ hsb]
    cases s.addr ((p + DENTRY_SIZE * i : Nat) : Int) 1 with
    | none => simp only [Option.map_none', Option.bind_eq_bind, Option.none_bind]
    | some a =>
      simp only [Option.map_some', Option.bind_eq_bind, Option.some_bind]
      split_ifs <;> rfl
  | succ n ih =>
    intro i hi
    have h16 : BLOCK_SIZE / DENTRY_SIZE = 16 := by decide
    have hlt : p + DENTRY_SIZE * i + DENTRY_SIZE ≤ p + BLOCK_SIZE := by
      unfold DENTRY_SIZE MAX_NAME BLOCK_SIZE at *; omega
    have hD : DENTRY_SIZE = 32 := by decide
    have hM : MAX_NAME = 28 := by decide
    unfold scanEntries
    rw [load_frame s s' _ hsb (hag _ (by omega) (by omega))]
    cases hl : s.load (p + DENTRY_SIZE * i) with
    | none => simp only [Option.map_none', Option.bind_eq_bind, Option.none_bind]
    | some b =>
      simp only [Option.bind_eq_bind, Option.some_bind]
      by_cases h0 : b = 0
      · rw [if_pos h0, if_pos h0]
      · rw [if_neg h0, if_neg h0]
        have hcmp := strcmpEq_frame s s' (p + BLOCK_SIZE) hsb
          (by rw [Nat.add_sub_assoc (by decide)]; exact hz) cstr (p + DENTRY_SIZE * i)
          (fun a h1 h2 => hag a (by omega) h2) (by omega)
        rw [hcmp]
        cases strcmpEq s (p + DENTRY_SIZE * i) cstr with
        | none => simp only [Option.map_none', Option.bind_eq_bind, Option.none_bind]
        | some eq =>
          simp only [Option.some_bind]
          cases eq with
          | true =>
            simp only [if_true]
            rw [addr_frame s s' _ _ hsb]
            cases ha : s.addr ((p + DENTRY_SIZE * i + MAX_NAME : Nat) : Int) 4 with
            | none => simp only [Option.map_none', Option.bind_eq_bind, Option.none_bind]
            | some a =>
              have := addr_some s _ _ _ ha
              subst this
              simp only [Option.some_bind]
              rw [memLoad_congr s'.d0.mem s.d0.mem _ 4
                (fun k hk => hag _ (by omega) (by omega))]
          | false =>
            simp only [Bool.false_eq_true, if_false]
            have := ih (i + 1) (by omega)
            rw [Nat.mul_add, Nat.mul_one, ← Nat.add_assoc] at this
            exact this

theorem scanBlocks_frame (D : Nat) (s s' : FS) (curr : wfs_inode) (cstr : List Nat)
    (hsb : s'.d0.sb = s.d0.sb)
    (hag : ∀ j, j < D → curr.blocks.getD j 0 ≠ 0 →
      (∀ a, curr.blocks.getD j 0 ≤ a → a < curr.blocks.getD j 0 + BLOCK_SIZE →
        s'.d0.mem a = s.d0.mem a) ∧ s.d0.mem (curr.blocks.getD j 0 + (BLOCK_SIZE - 1)) = 0) :
    ∀ k bi, bi + k = D → scanBlocks s' curr cstr k bi = scanBlocks s curr cstr k bi := by
  intro k
  induction k with
  | zero =>
    intro bi _
    unfold scanBlocks
    cases curr.blocks[bi]? with
    | none => simp only [Option.map_none', Option.bind_eq_bind, Option.none_bind]
    | some p =>
      simp only [Option.bind_eq_bind, Option.some_bind]
  | succ k ih =>
    intro bi hbi
    unfold scanBlocks
    cases hp : curr.blocks[bi]? with
    | none => simp only [Option.map_none', Option.bind_eq_bind, Option.none_bind]
    | some p =>
      simp only [Option.bind_eq_bind, Option.some_bind]
      by_cases h0 : p = 0
      · rw [if_pos h0, if_pos h0]
      · rw [if_neg h0, if_neg h0]
        have hgd : curr.blocks.getD bi 0 = p := by
          rw [List.getD_eq_getElem?_getD, hp]; rfl
        obtain ⟨g1, g2⟩ := hag bi (by omega) (by rw [hgd]; exact h0)
        rw [hgd] at g1 g2
        have := scanEntries_frame s s' p cstr hsb g1 g2 (BLOCK_SIZE / DENTRY_SIZE) 0 (by simp)
        simp only [Nat.mul_zero, Nat.add_zero] at this
        rw [this]
        cases scanEntries s cstr (BLOCK_SIZE / DENTRY_SIZE) p with
        | none => simp only [Option.map_none', Option.bind_eq_bind, Option.none_bind]
        | some r =>
          simp only [Option.some_bind]
          cases r with
          | some n => dsimp only
          | none => exact ih (bi + 1) (by omega)

theorem frame_block (D idx p : Nat) (d d' : Disk) (hst : FileStep D idx d d')
    (hw : FileWF D d' idx) (hA : Allocated d p) (hO : ¬ Own D d idx p) :
    ∀ a, p ≤ a → a < p + BLOCK_SIZE → d'.mem a = d.mem a := by
  intro a h1 h2
  apply hst.frame
  intro q hq hin
  have hqa : Allocated d' q := by
    obtain ⟨hq0, h | ⟨b, hb, h⟩⟩ := hq
    · rw [h]; apply hw.ind; rw [← h]; exact hq0
    · rw [← h]; apply (hw.ptr b hb _).1; rw [h]; exact hq0
  have hne : p ≠ q := by
    intro e
    rcases hst.fresh q hq with h | h
    · rw [← e] at h; exact hO h
    · rw [← e] at h; exact h hA
  have hqb : IsBlock d.sb q := by
    have := hqa.isBlock
    rw [hst.sb] at this
    exact this
  exact IsBlock.disjoint hA.isBlock hqb hne a ⟨h1, h2⟩ hin

theorem parsePathLoop_frame (D idx : Nat) (s s' : FS) (hd : DirsApart D s.d0 idx)
    (hst : FileStep D idx s.d0 s'.d0) (hw : FileWF D s'.d0 idx) :
    ∀ (toks : List (List Nat)) (i : Int),
      parsePathLoop D s' toks i = parsePathLoop D s toks i := by
  intro toks
  induction toks with
  | nil => intro i; simp only [parsePathLoop]
  | cons tok toks ih =>
    intro i
    unfold parsePathLoop
    unfold FS.inodeAt FS.iCount
    rw [hst.sb]
    by_cases hi : 0 ≤ i ∧ i < (s.d0.sb.num_inodes : Int)
    · rw [if_pos hi, if_pos hi]
      simp only [Option.bind_eq_bind, Option.some_bind]
      have hlt : i.toNat < s.d0.sb.num_inodes := by omega
      by_cases hidx : i.toNat = idx
      · rw [hidx, hst.mode]
        have hnd : (s.d0.inodes idx).mode &&& S_IFDIR = 0 := by
          by_contra hc
          have := (hd i.toNat hlt (by rw [hidx]; exact hc)).1
          exact this hidx
        rw [if_pos hnd, if_pos hnd]
      · rw [hst.others _ hidx]
        by_cases hdir : (s.d0.inodes i.toNat).mode &&& S_IFDIR = 0
        · rw [if_pos hdir, if_pos hdir]
        · rw [if_neg hdir, if_neg hdir]
          obtain ⟨_, hb⟩ := hd i.toNat hlt hdir
          have hsc := scanBlocks_frame D s s' (s.d0.inodes i.toNat) (tok ++ [0]) hst.sb
            (fun j hj hne => ⟨frame_block D idx _ s.d0 s'.d0 hst hw (hb j hj hne).1
              (hb j hj hne).2.1, (hb j hj hne).2.2⟩) D 0 (by simp)
          rw [hsc]
          cases scanBlocks s (s.d0.inodes i.toNat) (tok ++ [0]) D 0 with
          | none => simp only [Option.map_none', Option.bind_eq_bind, Option.none_bind]
          | some r =>
            simp only [Option.some_bind]
            cases r with
            | none => simp only [Option.map_none', Option.bind_eq_bind, Option.none_bind]
            | some n => exact ih n
    · rw [if_neg hi, if_neg hi]
      simp only [Option.bind_eq_bind, Option.none_bind]

/-- Path resolution gives the same inode after a write to (or a read of) a
file that lies apart from the directories. -/
theorem parsePath_frame (D idx : Nat) (s s' : FS) (path : List Nat) (hd : DirsApart D s.d0 idx)
    (hst : FileStep D idx s.d0 s'.d0) (hw : FileWF D s'.d0 idx) :
    parsePath D s' path = parsePath D s path :=
  parsePathLoop_frame D idx s s' hd hst hw _ _

end Wfs

namespace Wfs

/-! ## The loop of `wfs_write` leaves `inode.size` alone -/

end Wfs

namespace Wfs

/-! ## `wfs_mknod` when the directory or the data region is full -/

theorem inodeIdx_some_natCast (s : FS) (idx i : Nat) (h : s.inodeIdx (idx : Int) = some i) :
    i = idx := by
  unfold FS.inodeIdx at h
  split_ifs at h
  simp only [Int.toNat_ofNat, Option.some.injEq] at h
  exact h.symm

end Wfs

namespace Wfs

/-! ## The bytes that `wfs_mknod` stores -/

theorem padName_length (name : List Nat) : (padName name).length = MAX_NAME := by
  unfold padName
  simp only [List.length_append, List.length_take, List.length_replicate]
  omega

theorem encode32_length (v : Int) : (encode32 v).length = 4 := rfl

theorem mknodDirSlot_mem (D : Nat) (s s' : FS) (pidx : Nat) (clock : Nat → Int) (bn : Nat)
    (off : Int) (h : mknodDirSlot D s pidx clock = some (s', some (bn, off))) :
    s'.d0.mem = s.d0.mem ∧
      bn = (wrap32 (cdiv (s.d0.inodes pidx).size BLOCK_SIZE)).toNat ∧
      off = wrap32 (cmod (s.d0.inodes pidx).size BLOCK_SIZE) := by
  unfold mknodDirSlot at h
  simp only [Option.bind_eq_bind, Option.bind_eq_some] at h
  obtain ⟨bn', hbn, p0, _, h⟩ := h
  have hb : bn' = (wrap32 (cdiv (s.d0.inodes pidx).size BLOCK_SIZE)).toNat := by
    unfold blockIdx at hbn
    split_ifs at hbn
    simp only [Option.some.injEq] at hbn
    exact hbn.symm
  split_ifs at h
  · simp at h
  · split at h
    · simp at h
    · rename_i p s3 hal
      simp only [Option.some.injEq, Prod.mk.injEq] at h
      obtain ⟨rfl, rfl, rfl⟩ := h
      obtain ⟨k, _, _, _, _, rfl⟩ := allocData_spec _ _ _ hal
      exact ⟨rfl, hb, rfl⟩
  · simp only [Option.some.injEq, Prod.mk.injEq] at h
    obtain ⟨rfl, rfl, rfl⟩ := h
    exact ⟨rfl, hb, rfl⟩

theorem mknodFill_mem (s s' : FS) (pidx index bn : Nat) (off : Int) (name : List Nat)
    (mode uid gid : Nat) (clock : Nat → Int)
    (h : mknodFill s pidx index bn off name mode uid gid clock = some s') :
    (s'.d0.inodes pidx).blocks = (s.d0.inodes pidx).blocks ∧
    ∀ a : Nat, ¬ ((((s.d0.inodes pidx).blocks.getD bn 0 : Nat) : Int) + off ≤ (a : Int) ∧
        (a : Int) < (((s.d0.inodes pidx).blocks.getD bn 0 : Nat) : Int) + off + DENTRY_SIZE) →
      s'.d0.mem a = s.d0.mem a := by
  unfold mknodFill at h
  simp only [Option.bind_eq_bind, Option.bind_eq_some] at h
  obtain ⟨p, hp, loc, hloc, dbo, _, h8⟩ := h
  obtain ⟨e1, _, _⟩ := mknodReplicate_spec _ _ _ _ _ h8
  have hpd : (s.d0.inodes pidx).blocks.getD bn 0 = p := by
    rw [List.getD_eq_getElem?_getD, hp]; rfl
  constructor
  · rw [e1]
    by_cases hi : index = pidx
    · subst hi
      split_ifs <;> simp [FS.modInode, FS.setInode, FS.store0, upd]
    · split_ifs <;> simp [FS.modInode, FS.setInode, FS.store0, upd, hi, Ne.symm hi]
  · intro a ha
    rw [e1, hpd] at *
    have hm : ∀ t : FS, t.d0.mem = memStore s.d0.mem loc (padName name ++ encode32 index) →
        t.d0.mem a = s.d0.mem a := by
      intro t ht
      rw [ht]
      unfold memStore
      rw [if_neg]
      rw [List.length_append, padName_length, encode32_length]
      unfold FS.addr at hloc
      split_ifs at hloc with c
      simp only [Option.some.injEq] at hloc
      have c1 := c.1
      unfold DENTRY_SIZE MAX_NAME at *
      omega
    split_ifs
    · exact hm _ rfl
    · exact hm _ rfl

/-- The bytes of the data region that a `wfs_mknod` call changes on disk 0 lie
in the entry at the old `size` of the parent directory. -/
theorem wfs_mknod_mem (D : Nat) (s s' : FS) (path : List Nat) (mode uid gid : Nat)
    (clock : Nat → Int) (ret : Int) (pidx : Nat)
    (h : wfs_mknod D s path mode uid gid clock = some (ret, s'))
    (hpp : parsePath D s (parseParentChild path).2 = some (pidx : Int)) :
    ∀ a : Nat, ¬ ((((s'.d0.inodes pidx).blocks.getD
          (wrap32 (cdiv (s.d0.inodes pidx).size BLOCK_SIZE)).toNat 0 : Nat) : Int)
          + wrap32 (cmod (s.d0.inodes pidx).size BLOCK_SIZE) ≤ (a : Int) ∧
        (a : Int) < (((s'.d0.inodes pidx).blocks.getD
          (wrap32 (cdiv (s.d0.inodes pidx).size BLOCK_SIZE)).toNat 0 : Nat) : Int)
          + wrap32 (cmod (s.d0.inodes pidx).size BLOCK_SIZE) + DENTRY_SIZE) →
      s'.d0.mem a = s.d0.mem a := by
  intro a ha
  unfold wfs_mknod at h
  simp only [Option.bind_eq_bind, Option.bind_eq_some] at h
  obtain ⟨r, _, h⟩ := h
  have stay : ∀ e : Int, some (e, s) = some (ret, s') → s'.d0.mem a = s.d0.mem a := by
    intro e h
    simp only [Option.some.injEq, Prod.mk.injEq] at h
    rw [← h.2]
  by_cases h1 : r ≥ 0
  · rw [if_pos h1] at h; exact stay _ h
  rw [if_neg h1] at h
  by_cases h2 : (parseParentChild path).1 = []
  · rw [if_pos h2] at h; exact stay _ h
  rw [if_neg h2] at h
  by_cases h3 : MAX_NAME ≤ (parseParentChild path).2.length
  · rw [if_pos h3] at h; exact absurd h (by simp)
  rw [if_neg h3, hpp] at h
  simp only [Option.bind_eq_bind, Option.some_bind] at h
  rw [if_neg (by simp)] at h
  by_cases h5 : (findAndAllocFromMap s.d0.imap s.iCount).1 < 0
  · rw [if_pos h5] at h; exact stay _ h
  · rw [if_neg h5] at h
    · simp only [Option.bind_eq_bind, Option.bind_eq_some] at h
      obtain ⟨p0, hp0, h⟩ := h
      have := inodeIdx_some_natCast _ _ _ hp0
      subst this
      unfold mknodAddEntry at h
      simp only [Option.bind_eq_bind, Option.bind_eq_some] at h
      obtain ⟨⟨s1, r1⟩, hs1, h⟩ := h
      cases r1 with
      | none =>
        simp only [Option.some.injEq, Prod.mk.injEq] at h
        obtain ⟨_, rfl⟩ := h
        have := mknodDirSlot_spec _ _ _ _ _ _ hs1
        unfold mknodDirSlot at hs1
        simp only [Option.bind_eq_bind, Option.bind_eq_some] at hs1
        obtain ⟨bn', _, q0, _, hs1⟩ := hs1
        split_ifs at hs1
        · simp only [Option.some.injEq, Prod.mk.injEq] at hs1
          rw [← hs1.1]; rfl
        · split at hs1
          · simp only [Option.some.injEq, Prod.mk.injEq] at hs1
            rw [← hs1.1]; rfl
          · simp at hs1
        · simp at hs1
      | some v =>
        obtain ⟨bn, off⟩ := v
        simp only [Option.bind_eq_bind, Option.bind_eq_some, Option.some.injEq,
          Prod.mk.injEq] at h
        obtain ⟨s8, h8, _, rfl⟩ := h
        obtain ⟨m1, m2, m3⟩ := mknodDirSlot_mem _ _ _ _ _ _ _ hs1
        obtain ⟨f1, f2⟩ := mknodFill_mem _ _ _ _ _ _ _ _ _ _ _ h8
        rw [f2 a, m1]
        rw [← f1, m2, m3]
        exact ha

end Wfs

namespace Wfs

/-! ## A freshly created file, and the claims about `wfs_write` -/

theorem FileWF_fresh (D idx : Nat) (d : Disk)
    (h : (d.inodes idx).blocks = List.replicate (D + 1) 0) : FileWF D d idx := by
  have hi : indPtr D d idx = 0 := by
    unfold indPtr; rw [h]; simp [List.getD_eq_getElem?_getD]
  have hp : ∀ b, filePtr D d idx b = 0 := by
    intro b
    unfold filePtr
    rw [hi, h]
    by_cases hb : b < D
    · rw [if_pos hb]
      simp only [List.getD_eq_getElem?_getD, List.getElem?_replicate]
      split_ifs <;> rfl
    · rw [if_neg hb, if_pos rfl]
  refine ⟨by rw [h]; simp, fun h0 => absurd hi h0, fun b _ h0 => absurd (hp b) h0,
    fun b _ _ _ h0 => absurd (hp b) h0⟩

set_option maxRecDepth 1000000 in
theorem fileState_eq :
    (wfs_mknod 7 striped0 (ascii "/f") regMode 1000 1000 (clockAt 200)).map Prod.snd
      = some fileState :=
  getD_of_isSome ((wfs_mknod 7 striped0 (ascii "/f") regMode 1000 1000 (clockAt 200)).map
    Prod.snd) noFS (by decide!)

set_option maxRecDepth 1000000 in
theorem fileState_geometry : Geometry 7 fileState.d0 := ⟨by decide!, by decide!, by decide⟩

theorem striped0_mem (a : Nat) (ha : 16896 + BLOCK_SIZE ≤ a) : striped0.d0.mem a = 0 := by
  obtain ⟨img0, rest, hi, e2, _⟩ := mkfs_main_ok _ _ _ _ _ _ _ _ _ _ striped0_eq
  have h0 : img0 = zeroImage 1048576 := by
    simp only [List.replicate, List.cons.injEq] at hi
    exact hi.1.symm
  rw [e2, h0]
  generalize hsb : mkSuperblock 56 (roundup 32 32) (roundup 32 32) 0
      (List.replicate 2 (zeroImage 1048576)).length = sb
  have hd : sb.d_blocks_ptr = 16896 := by rw [← hsb]; decide
  simp only [formatDisk0, hd, memStore, zeroImage, MAX_NAME, DENTRY_SIZE, encode32,
    List.length_cons, List.length_nil]
  unfold BLOCK_SIZE at ha
  rw [if_neg (by omega), if_neg (by omega), if_neg (by omega), if_neg (by omega)]
  split_ifs <;> rfl

set_option maxRecDepth 1000000 in
theorem fileState_mknod :
    wfs_mknod 7 striped0 (ascii "/f") regMode 1000 1000 (clockAt 200) = some (0, fileState) :=
  pair_of_fst (wfs_mknod 7 striped0 (ascii "/f") regMode 1000 1000 (clockAt 200)) 0 noFS
    (by decide!)

set_option maxRecDepth 1000000 in
theorem fileState_layout :
    parsePath 7 striped0 (parseParentChild (ascii "/f")).2 = some ((0 : Nat) : Int) ∧
    fileState.d0.sb.d_blocks_ptr = 16896 ∧ bitOf fileState.d0.dmap 0 ≠ 0 ∧
    (striped0.d0.inodes 0).size = 0 ∧ (fileState.d0.inodes 0).blocks.getD 0 0 = 16896 := by
  decide!

theorem fileState_freeZero : FreeZero fileState.d0 := by
  obtain ⟨e1, e2, e3, e4, e5⟩ := fileState_layout
  have hm := wfs_mknod_mem 7 striped0 fileState (ascii "/f") regMode 1000 1000 (clockAt 200) 0 0
    fileState_mknod e1
  rw [e4] at hm
  have hw0 : (wrap32 (cdiv 0 BLOCK_SIZE)).toNat = 0 := by decide
  have hw1 : wrap32 (cmod 0 BLOCK_SIZE) = 0 := by decide
  rw [hw0, hw1, e5] at hm
  intro k hk hb i hi
  have hk0 : k ≠ 0 := by
    rintro rfl
    exact e3 hb
  rw [e2]
  unfold BLOCK_SIZE at *
  rw [hm _ (by unfold DENTRY_SIZE MAX_NAME; push_cast; omega), striped0_mem _ (by unfold BLOCK_SIZE; omega)]

set_option maxRecDepth 1000000 in
set_option synthInstance.maxSize 4000 in
set_option synthInstance.maxHeartbeats 400000 in
theorem fileState_dirsApart : DirsApart 7 fileState.d0 1 := by
  unfold DirsApart Own Allocated
  decide!

set_option maxRecDepth 1000000 in
theorem fileState_path : parsePath 7 fileState (ascii "/f") = some ((1 : Nat) : Int) := by
  decide!

set_option maxRecDepth 1000000 in
theorem fileState_fresh : (fileState.d0.inodes 1).size = 0 ∧
    (fileState.d0.inodes 1).blocks = List.replicate (7 + 1) 0 ∧ 1 < fileState.iCount := by
  decide!

set_option maxRecDepth 1000000 in
theorem fileState_free : writeNeed 7 fileState.d0 1 0 (ascii "hello").length 0
    ≤ fileState.d0.freeCount := by decide!

end Wfs

namespace Wfs

theorem getattr_size (D idx : Nat) (s : FS) (path : List Nat) (st0 : Stat) (clock : Nat → Int)
    (hp : parsePath D s path = some (idx : Int)) (hi : idx < s.iCount) :
    ∃ st t, wfs_getattr D s path st0 clock = some (0, st, t) ∧
      st.st_size = (s.d0.inodes idx).size := by
  unfold wfs_getattr
  simp only [hp, Option.bind_eq_bind, Option.some_bind]
  rw [if_neg (not_lt.2 (Int.natCast_nonneg _)), inodeIdx_natCast s idx hi]
  simp only [Option.some_bind]
  refine ⟨_, _, rfl, ?_⟩
  split_ifs <;> simp [statOf, replicate_inode, FS.modInode, FS.setInode, upd]

end Wfs

namespace Wfs

/-! ## The allocator on a fresh bitmap, and allocate after free -/

theorem roundup_pos (iArg : Int) (h : 0 < iArg) : 32 ≤ roundup iArg 32 := by
  unfold roundup cmod
  simp only [Nat.cast_ofNat]
  rw [if_pos (le_of_lt h)]
  split_ifs <;> omega

theorem fresh_alloc_one (SB D : Nat) (raid : Int) (imgs : List Image) (iArg bArg : Int)
    (uid gid : Nat) (now : Int) (s0 : FS) (hi : 0 < iArg)
    (h : formatted (mkfs_main SB D raid imgs iArg bArg uid gid now) = some s0) :
    (findAndAllocFromMap s0.d0.imap s0.iCount).1 = 1 := by
  obtain ⟨img0, rest, _, e2, _⟩ := mkfs_main_ok _ _ _ _ _ _ _ _ _ _ h
  have hc : 32 ≤ s0.iCount := by
    unfold FS.iCount; rw [e2]
    show 32 ≤ (roundup iArg 32).toNat
    have := roundup_pos iArg hi
    omega
  have hm : s0.d0.imap = upd (fun _ => 0) 0 (0 ||| 1) := by rw [e2]; rfl
  have h0 : bitOf s0.d0.imap 0 ≠ 0 := by rw [hm]; decide
  have h1 : bitOf s0.d0.imap 1 = 0 := by rw [hm]; decide
  rcases findAndAlloc_spec s0.d0.imap s0.iCount with ⟨k, _, k2, k3, k4⟩ | ⟨k1, _⟩
  · rw [k4]
    have : k = 1 := by
      rcases Nat.lt_trichotomy k 1 with hk | hk | hk
      · have : k = 0 := by omega
        subst this; exact absurd k2 h0
      · exact hk
      · exact absurd h1 (k3 1 hk)
    subst this; rfl
  · exact absurd h1 (k1 1 (by omega))

theorem alloc_free_alloc (bm : Nat → Nat) (len k : Nat) (hb : ∀ j, bm j < 256)
    (h : (findAndAllocFromMap bm len).1 = (k : Int)) :
    findAndAllocFromMap (freeBitFromMap (findAndAllocFromMap bm len).2 k) len
      = ((k : Int), (findAndAllocFromMap bm len).2) := by
  rcases findAndAlloc_spec bm len with ⟨k', _, k2, _, k4⟩ | ⟨_, k4⟩
  · rw [k4] at h ⊢
    have h' : ((k' : Nat) : Int) = (k : Int) := h
    have : k' = k := by exact_mod_cast h'
    subst this
    dsimp only
    rw [freeBit_setBit bm k' hb k2, k4]
  · rw [k4] at h
    have h' : (-1 : Int) = (k : Int) := h
    omega

theorem full0_imap_lt : ∀ j, full0.d0.imap j < 256 := (MetaInv_mkfs _ _ _ _ _ _ _ _ _ _ full0_eq).1

end Wfs

namespace Wfs

/-! ## Freeing data blocks -/

end Wfs

namespace Wfs

/-! ## `handleRemove` frees the blocks of the inode -/

end Wfs

namespace Wfs

/-! ## The directory entry that `handleRemove` removes -/

theorem addr_inv (s : FS) (a : Int) (len x : Nat) (h : s.addr a len = some x) :
    (s.d0.sb.d_blocks_ptr : Int) ≤ a ∧ a = (x : Int) := by
  unfold FS.addr at h
  split_ifs at h with c
  simp only [Option.some.injEq] at h
  refine ⟨c.1, ?_⟩
  have : 0 ≤ a := le_trans (Int.natCast_nonneg _) c.1
  omega

end Wfs

namespace Wfs

/-! ## What a successful `handleRemove` leaves of the inode -/

end Wfs

namespace Wfs

/-! ## Evaluation of the instances -/

end Wfs

namespace Wfs

/-! ## The layout that `mkfs` computes -/

theorem roundup_32 (n : Int) (h : 0 ≤ n) :
    roundup n 32 % 32 = 0 ∧ n ≤ roundup n 32 ∧ roundup n 32 < n + 32 := by
  unfold roundup cmod
  rw [if_pos h]
  split_ifs with c
  · push_cast at c ⊢; omega
  · push_cast at c ⊢; omega

theorem roundup_512 (n : Int) :
    (0 ≤ n → roundup n 512 % 512 = 0 ∧ n ≤ roundup n 512 ∧ roundup n 512 < n + 512) ∧
    (n < 0 → roundup n 512 < n + 1024) := by
  unfold roundup cmod
  constructor
  · intro h
    rw [if_pos h]
    split_ifs with c
    · push_cast at c ⊢; omega
    · push_cast at c ⊢; omega
  · intro h
    rw [if_neg (show ¬ 0 ≤ n by omega)]
    split_ifs with c
    · omega
    · push_cast at c ⊢; omega

theorem layout_arith (SB : Nat) (ni nd : Int) (h1 : 0 < ni) (h2 : 0 < nd)
    (m1 : ni % 32 = 0) (m2 : nd % 32 = 0)
    (o1 : intOk (ni * BLOCK_SIZE) = true) (o2 : intOk (nd * BLOCK_SIZE) = true)
    (sm : storesMapped SB ni nd = true) :
    iBlocksPtr SB ni nd % 512 = 0 ∧ (SB : Int) + ni / 8 + nd / 8 ≤ iBlocksPtr SB ni nd ∧
    dBlocksPtr SB ni nd % 512 = 0 ∧
    iBlocksPtr SB ni nd + ni * 512 ≤ dBlocksPtr SB ni nd := by
  unfold intOk at o1 o2
  unfold storesMapped at sm
  simp only [decide_eq_true_eq] at o1 o2 sm
  obtain ⟨s1, s2, s3, s4, s5⟩ := sm
  have hf : fsSize SB ni nd < 2147483648 := by
    unfold fsSize wrap32; omega
  have ci : cdiv ni 8 = ni / 8 := by unfold cdiv; rw [if_pos (show 0 ≤ ni by omega)]; rfl
  have cd : cdiv nd 8 = nd / 8 := by unfold cdiv; rw [if_pos (show 0 ≤ nd by omega)]; rfl
  have B : ((BLOCK_SIZE : Nat) : Int) = 512 := rfl
  rw [B] at o1 o2
  -- no wrap in the argument of the first `roundup`
  have hi : iBlocksPtr SB ni nd = roundup ((SB : Int) + ni / 8 + nd / 8) 512 := by
    have e : iBlocksPtr SB ni nd
        = roundup (wrap32 ((SB : Int) + ni / 8 + nd / 8)) 512 := by
      unfold iBlocksPtr; rw [ci, cd]; rfl
    rw [e]
    congr 1
    by_contra hw
    have hneg : wrap32 ((SB : Int) + ni / 8 + nd / 8) < -1024 := by
      unfold wrap32 at hw ⊢; omega
    have := (roundup_512 (wrap32 ((SB : Int) + ni / 8 + nd / 8))).2 (by omega)
    rw [e] at s2
    omega
  have r1 := (roundup_512 ((SB : Int) + ni / 8 + nd / 8)).1 (by omega)
  rw [← hi] at r1
  have hd : dBlocksPtr SB ni nd = roundup (iBlocksPtr SB ni nd + ni * 512) 512 := by
    have e : dBlocksPtr SB ni nd
        = roundup (wrap32 (iBlocksPtr SB ni nd + ni * 512)) 512 := by
      unfold dBlocksPtr; rfl
    rw [e]
    congr 1
    by_contra hw
    rw [e] at s4 s5
    rcases lt_or_le (wrap32 (iBlocksPtr SB ni nd + ni * 512)) 0 with hn | hp
    · have := (roundup_512 (wrap32 (iBlocksPtr SB ni nd + ni * 512))).2 hn
      unfold wrap32 at hw hn this s4; omega
    · have := (roundup_512 (wrap32 (iBlocksPtr SB ni nd + ni * 512))).1 hp
      unfold fsSize at s1 s3 s5 hf
      rw [ci, cd, B] at s1 s3 s5 hf
      unfold wrap32 at hw hp this s1 s3 s5 hf
      omega
  have r2 := (roundup_512 (iBlocksPtr SB ni nd + ni * 512)).1 (by omega)
  rw [← hd] at r2
  exact ⟨r1.1, r1.2.1, r2.1, r2.2.1⟩


theorem formatted_some (o : Option (Int × Option FS)) (s : FS) (h : formatted o = some s) :
    ∃ r, o = some (r, some s) := by
  cases o with
  | none => simp [formatted] at h
  | some p =>
    obtain ⟨r, o⟩ := p
    cases o with
    | none => simp [formatted] at h
    | some s1 =>
      simp only [formatted, Option.some.injEq] at h
      subst h
      exact ⟨r, rfl⟩

theorem sum_sizes_ge (imgs : List Image) (f : Int)
    (h : ∀ img ∈ imgs, f ≤ (img.st_size : Int)) :
    (imgs.length : Int) * f ≤ (((imgs.map (fun g => g.st_size)).sum : Nat) : Int) := by
  induction imgs with
  | nil => simp
  | cons a t ih =>
    have h1 := h a (List.mem_cons_self _ _)
    have h2 := ih (fun img hm => h img (List.mem_cons_of_mem _ hm))
    simp only [List.length_cons, List.map_cons, List.sum_cons]
    rw [Nat.cast_add, Nat.cast_add, Nat.cast_one]
    have e : ((t.length : Int) + 1) * f = (t.length : Int) * f + f := by ring
    rw [e]
    omega

/-- With counts of at least 1 whose layout fits a C `int`, a valid mode, one to
ten disks (two or more in mirrored mode) and every image at least `fs_size`
bytes long, `main` of `mkfs.c` formats the disks and returns 0. -/
theorem mkfs_main_total (SB D : Nat) (raid : Int) (imgs : List Image) (iArg bArg : Int)
    (uid gid : Nat) (now : Int) (hi : 1 ≤ iArg) (hb : 1 ≤ bArg)
    (fit : (SB : Int) + roundup iArg 32 / 8 + roundup bArg 32 / 8
      + roundup iArg 32 * 512 + roundup bArg 32 * 512 < 2147483648)
    (hr : raid = 0 ∨ (raid = 1 ∧ 2 ≤ imgs.length))
    (hn : 1 ≤ imgs.length ∧ imgs.length ≤ 10)
    (hs : ∀ img ∈ imgs, fsSize SB (roundup iArg 32) (roundup bArg 32) ≤ (img.st_size : Int)) :
    ∃ s0, mkfs_main SB D raid imgs iArg bArg uid gid now = some (0, some s0) := by
  obtain ⟨a1, a2, a3⟩ := roundup_32 iArg (by omega)
  obtain ⟨b1, b2, b3⟩ := roundup_32 bArg (by omega)
  generalize hni : roundup iArg 32 = ni at *
  generalize hnd : roundup bArg 32 = nd at *
  have B : ((BLOCK_SIZE : Nat) : Int) = 512 := rfl
  have ci : cdiv ni 8 = ni / 8 := by unfold cdiv; rw [if_pos (show 0 ≤ ni by omega)]; rfl
  have cd : cdiv nd 8 = nd / 8 := by unfold cdiv; rw [if_pos (show 0 ≤ nd by omega)]; rfl
  have hf : fsSize SB ni nd = (SB : Int) + ni / 8 + nd / 8 + ni * 512 + nd * 512 := by
    unfold fsSize wrap32; rw [ci, cd, B]; omega
  have hip : iBlocksPtr SB ni nd = roundup ((SB : Int) + ni / 8 + nd / 8) 512 := by
    unfold iBlocksPtr; rw [ci, cd]
    congr 1
    unfold wrap32; omega
  have r1 := (roundup_512 ((SB : Int) + ni / 8 + nd / 8)).1 (by omega)
  rw [← hip] at r1
  have hdp : dBlocksPtr SB ni nd = roundup (iBlocksPtr SB ni nd + ni * 512) 512 := by
    unfold dBlocksPtr
    congr 1
    rw [B]
    unfold wrap32; omega
  have r2 := (roundup_512 (iBlocksPtr SB ni nd + ni * 512)).1 (by omega)
  rw [← hdp] at r2
  have sm : storesMapped SB ni nd = true := by
    unfold storesMapped
    simp only [decide_eq_true_eq]
    rw [hf]
    unfold DENTRY_SIZE MAX_NAME
    push_cast
    refine ⟨by omega, by omega, by omega, by omega, by omega⟩
  have o1 : intOk ni = true ∧ intOk nd = true := by
    unfold intOk; simp only [decide_eq_true_eq]; omega
  have o2 : intOk (ni * BLOCK_SIZE) = true ∧ intOk (nd * BLOCK_SIZE) = true := by
    unfold intOk; simp only [decide_eq_true_eq]; rw [B]; omega
  cases imgs with
  | nil => simp at hn
  | cons img0 rest =>
    have hsum := sum_sizes_ge (img0 :: rest) _ hs
    have c7 : ¬ ((raid = 0 ∧ fsSize SB ni nd >
          cdiv ((((img0 :: rest).map (fun f => f.st_size)).sum : Nat) : Int) (img0 :: rest).length)
        ∨ (raid = 1 ∧ fsSize SB ni nd >
          ((((img0 :: rest).getLast?.map (fun f => f.st_size)).getD 0 : Nat) : Int))) := by
      rintro (⟨_, h⟩ | ⟨_, h⟩)
      · unfold cdiv at h
        rw [if_pos (Int.ofNat_nonneg _)] at h
        have hpos : (0 : Int) < (((img0 :: rest).length : Nat) : Int) := by
          simp only [List.length_cons]; push_cast; omega
        have hsum2 : fsSize SB ni nd * (((img0 :: rest).length : Nat) : Int)
            ≤ ((((img0 :: rest).map (fun f => f.st_size)).sum : Nat) : Int) := by
          rw [mul_comm]; exact hsum
        have := Int.le_ediv_of_mul_le hpos hsum2
        omega
      · have hl : (img0 :: rest).getLast? = some ((img0 :: rest).getLast (by simp)) :=
          List.getLast?_eq_getLast _ _
        rw [hl] at h
        have := hs _ (List.getLast_mem (l := img0 :: rest) (by simp))
        simp only [Option.map_some', Option.getD_some] at h
        omega
    have c8 : ¬ (fsSize SB ni nd < 0 ∨
        (img0 :: rest).any (fun f => decide ((f.st_size : Int) < fsSize SB ni nd)) = true) := by
      rintro (h | h)
      · rw [hf] at h; omega
      · rw [List.any_eq_true] at h
        obtain ⟨x, hx, hlt⟩ := h
        have := hs x hx
        simp only [decide_eq_true_eq] at hlt
        omega
    have c1 : ¬ (raid ≠ -1 ∧ raid ≠ 0 ∧ raid ≠ 1) := by
      rcases hr with h | h
      · simp [h]
      · simp [h.1]
    have c2 : ¬ ((img0 :: rest).length > 10) := by omega
    have c3 : ¬ ¬ (intOk ni = true ∧ intOk nd = true) := not_not.mpr o1
    have c4 : ¬ (raid = -1 ∨ (img0 :: rest).length = 0 ∨ ni = 0 ∨ nd = 0) := by
      rintro (h | h | h | h)
      · rcases hr with h2 | h2
        · omega
        · omega
      · simp at h
      · omega
      · omega
    have c5 : ¬ (raid = 1 ∧ (img0 :: rest).length < 2) := by
      rintro ⟨h1, h2⟩
      rcases hr with h | h
      · omega
      · omega
    have c6 : ¬ ¬ (intOk (ni * BLOCK_SIZE) = true ∧ intOk (nd * BLOCK_SIZE) = true) :=
      not_not.mpr o2
    have c9 : ¬ ¬ (storesMapped SB ni nd = true) := not_not.mpr sm
    refine ⟨{ d0 := formatDisk0 D (mkSuperblock SB ni nd raid (img0 :: rest).length)
                (fsSize SB ni nd).toNat img0 uid gid now,
              rest := rest.map (formatCopy
                (formatDisk0 D (mkSuperblock SB ni nd raid (img0 :: rest).length)
                  (fsSize SB ni nd).toNat img0 uid gid now) (fsSize SB ni nd).toNat) }, ?_⟩
    unfold mkfs_main
    simp only [hni, hnd]
    rw [if_neg c1, if_neg c2, if_neg c3, if_neg c4, if_neg c5, if_neg c6, if_neg c7, if_neg c8,
      if_neg c9]

end Wfs

namespace Wfs

/-! ## The voting loop and the rule of the spec -/

/-- The count of the voting loop for the copy at position `j` of `l`: the copy
itself and the equal copies after it. -/
theorem cnt_drop_pos (l : List (List Nat)) (j : Nat) (h : j < l.length) :
    1 ≤ cnt (l.getD j []) (l.drop j) := by
  rw [List.drop_eq_getElem_cons h, cnt_cons]
  have : l.getD j [] = l[j] := by
    rw [List.getD_eq_getElem?_getD, List.getElem?_eq_getElem h]; rfl
  rw [if_pos this]
  omega

/-- The result of the voting loop: either the selection stays, and no remaining
copy has a count above `bestCount`, or the first remaining copy with the
highest count is selected. -/
theorem voteLoop_first_max (l : List (List Nat)) :
    ∀ d bd bc, bd ≤ d →
      (voteLoop l d bd bc = bd ∧ ∀ j, j < l.length → cnt (l.getD j []) (l.drop j) ≤ bc) ∨
      (∃ j, j < l.length ∧ voteLoop l d bd bc = d + j ∧
        bc < cnt (l.getD j []) (l.drop j) ∧
        (∀ i, i < l.length → cnt (l.getD i []) (l.drop i) ≤ cnt (l.getD j []) (l.drop j)) ∧
        (∀ i, i < j → cnt (l.getD i []) (l.drop i) < cnt (l.getD j []) (l.drop j))) := by
  induction l with
  | nil => intro d bd bc _; left; exact ⟨rfl, fun j hj => by simp at hj⟩
  | cons b l ih =>
    intro d bd bc hle
    have hc : 1 + (l.filter (fun b2 => b == b2)).length = cnt b (b :: l) := by
      rw [cnt_cons]; simp; rfl
    have h0 : cnt ((b :: l).getD 0 []) ((b :: l).drop 0) = cnt b (b :: l) := rfl
    have hs : ∀ k, cnt ((b :: l).getD (k + 1) []) ((b :: l).drop (k + 1))
        = cnt (l.getD k []) (l.drop k) := fun k => rfl
    unfold voteLoop
    simp only [hc]
    by_cases c1 : cnt b (b :: l) > bc
    · rw [if_pos c1]
      right
      rcases ih (d + 1) d (cnt b (b :: l)) (by omega) with ⟨e, hall⟩ | ⟨j, hj, e, hgt, hmax, hfirst⟩
      · refine ⟨0, by simp, by rw [e]; rfl, by rw [h0]; exact c1, ?_, fun i hi => by omega⟩
        intro i hi
        cases i with
        | zero => exact le_refl _
        | succ k =>
          rw [hs, h0]
          exact hall k (by simpa using hi)
      · refine ⟨j + 1, by simpa using hj, by rw [e]; omega, by rw [hs]; omega, ?_, ?_⟩
        · intro i hi
          cases i with
          | zero => rw [h0, hs]; omega
          | succ k => rw [hs, hs]; exact hmax k (by simpa using hi)
        · intro i hi
          cases i with
          | zero => rw [h0, hs]; omega
          | succ k => rw [hs, hs]; exact hfirst k (by omega)
    · rw [if_neg c1, if_neg (by omega)]
      rcases ih (d + 1) bd bc (by omega) with ⟨e, hall⟩ | ⟨j, hj, e, hgt, hmax, hfirst⟩
      · left
        refine ⟨e, ?_⟩
        intro i hi
        cases i with
        | zero => rw [h0]; omega
        | succ k => rw [hs]; exact hall k (by simpa using hi)
      · right
        refine ⟨j + 1, by simpa using hj, by rw [e]; omega, by rw [hs]; omega, ?_, ?_⟩
        · intro i hi
          cases i with
          | zero => rw [h0, hs]; omega
          | succ k => rw [hs, hs]; exact hmax k (by simpa using hi)
        · intro i hi
          cases i with
          | zero => rw [h0, hs]; omega
          | succ k => rw [hs, hs]; exact hfirst k (by omega)

/-- The disk that `wfs_read` selects is the first one with the highest count
of the voting loop. -/
theorem bestDisk_first_max (l : List (List Nat)) (h : l ≠ []) :
    bestDisk l < l.length ∧
    (∀ i, i < l.length →
      cnt (l.getD i []) (l.drop i) ≤ cnt (l.getD (bestDisk l) []) (l.drop (bestDisk l))) ∧
    (∀ i, i < bestDisk l →
      cnt (l.getD i []) (l.drop i) < cnt (l.getD (bestDisk l) []) (l.drop (bestDisk l))) := by
  have hl : 0 < l.length := List.length_pos.mpr h
  unfold bestDisk
  rcases voteLoop_first_max l 0 0 1 (le_refl _) with ⟨e, hall⟩ | ⟨j, hj, e, _, hmax, hfirst⟩
  · rw [e]
    have := cnt_drop_pos l 0 hl
    exact ⟨hl, fun i hi => by have := hall i hi; omega, fun i hi => by omega⟩
  · rw [e, Nat.zero_add]
    exact ⟨hj, hmax, hfirst⟩

theorem cnt_append (x : List Nat) (l1 l2 : List (List Nat)) :
    cnt x (l1 ++ l2) = cnt x l1 + cnt x l2 := by
  unfold cnt
  rw [List.filter_append, List.length_append]

theorem matchCount_split (l : List (List Nat)) (d : Nat) :
    matchCount l d = cnt (l.getD d []) (l.take d) + cnt (l.getD d []) (l.drop d) := by
  unfold matchCount
  rw [← cnt_append, List.take_append_drop]

theorem cnt_eq_zero (x : List Nat) (l : List (List Nat)) (h : ∀ y ∈ l, y ≠ x) : cnt x l = 0 := by
  unfold cnt
  rw [List.length_eq_zero, List.filter_eq_nil_iff]
  intro y hy
  simp only [beq_iff_eq]
  exact fun e => h y hy e.symm

/-- Every disk has a first disk with the same copy, for which the count of the
voting loop is the count of the spec. -/
theorem first_equal (l : List (List Nat)) (d : Nat) :
    ∃ d0, d0 ≤ d ∧ matchCount l d0 = matchCount l d ∧
      cnt (l.getD d0 []) (l.drop d0) = matchCount l d := by
  classical
  have hex : ∃ k, k ≤ d ∧ l.getD k [] = l.getD d [] := ⟨d, le_refl _, rfl⟩
  refine ⟨Nat.find hex, (Nat.find_spec hex).1, ?_, ?_⟩
  · unfold matchCount; rw [(Nat.find_spec hex).2]
  · have hz : cnt (l.getD (Nat.find hex) []) (l.take (Nat.find hex)) = 0 := by
      apply cnt_eq_zero
      intro y hy
      obtain ⟨k, hk, rfl⟩ := List.getElem_of_mem hy
      rw [List.length_take] at hk
      have hk1 : k < Nat.find hex := by omega
      have hk2 : k < l.length := by omega
      have := Nat.find_min hex hk1
      rw [List.getElem_take]
      intro e
      apply this
      refine ⟨by have := (Nat.find_spec hex).1; omega, ?_⟩
      rw [← (Nat.find_spec hex).2, ← e, List.getD_eq_getElem?_getD, List.getElem?_eq_getElem hk2]
      rfl
    have := matchCount_split l (Nat.find hex)
    rw [hz, Nat.zero_add] at this
    rw [← this]
    unfold matchCount; rw [(Nat.find_spec hex).2]

/-- The disk that `wfs_read` selects wins by the rule of the spec. -/
theorem bestDisk_isWinner (l : List (List Nat)) (h : l ≠ []) : IsWinner l (bestDisk l) := by
  obtain ⟨h1, h2, h3⟩ := bestDisk_first_max l h
  have hle : cnt (l.getD (bestDisk l) []) (l.drop (bestDisk l)) ≤ matchCount l (bestDisk l) := by
    rw [matchCount_split]; omega
  refine ⟨h1, ?_, ?_⟩
  · intro d hd
    obtain ⟨d0, hd0, _, e⟩ := first_equal l d
    have := h2 d0 (by omega)
    omega
  · intro d hd
    obtain ⟨d0, hd0, _, e⟩ := first_equal l d
    have := h3 d0 (by omega)
    omega

theorem isWinner_unique (l : List (List Nat)) (r1 r2 : Nat)
    (h1 : IsWinner l r1) (h2 : IsWinner l r2) : r1 = r2 := by
  obtain ⟨a1, a2, a3⟩ := h1
  obtain ⟨b1, b2, b3⟩ := h2
  rcases Nat.lt_trichotomy r1 r2 with h | h | h
  · have := b3 r1 h
    have := a2 r2 b1
    omega
  · exact h
  · have := a3 r2 h
    have := b2 r1 a1
    omega

theorem foldl_first_max (f : Nat → Nat) (n : Nat) :
    (List.range n).foldl (fun best d => if f d > f best then d else best) 0 < max n 1 ∧
    (∀ d, d < n →
      f d ≤ f ((List.range n).foldl (fun best d => if f d > f best then d else best) 0)) ∧
    (∀ d, d < (List.range n).foldl (fun best d => if f d > f best then d else best) 0 →
      f d < f ((List.range n).foldl (fun best d => if f d > f best then d else best) 0)) := by
  induction n with
  | zero => exact ⟨by simp, fun d hd => by omega, fun d hd => by simp at hd⟩
  | succ n ih =>
    rw [List.range_succ, List.foldl_append]
    generalize (List.range n).foldl (fun best d => if f d > f best then d else best) 0 = r at ih
    obtain ⟨i1, i2, i3⟩ := ih
    simp only [List.foldl_cons, List.foldl_nil]
    by_cases c : f n > f r
    · rw [if_pos c]
      refine ⟨by simp, ?_, ?_⟩
      · intro d hd
        rcases Nat.lt_succ_iff_lt_or_eq.mp hd with h | h
        · have := i2 d h; omega
        · rw [h]
      · intro d hd
        have := i2 d hd; omega
    · rw [if_neg c]
      refine ⟨?_, ?_, i3⟩
      · have : max n 1 ≤ max (n + 1) 1 := by omega
        omega
      · intro d hd
        rcases Nat.lt_succ_iff_lt_or_eq.mp hd with h | h
        · exact i2 d h
        · rw [h]; omega

/-- The fold of the spec yields the winner by the rule of the spec. -/
theorem specWinner_isWinner (l : List (List Nat)) (h : l ≠ []) : IsWinner l (specWinner l) := by
  have hl : 0 < l.length := List.length_pos.mpr h
  obtain ⟨h1, h2, h3⟩ := foldl_first_max (matchCount l) l.length
  exact ⟨by unfold specWinner; omega, h2, h3⟩

end Wfs

namespace Wfs

/-! ## Removal of a directory entry: swap with the last entry -/

end Wfs

namespace Wfs

/-! ## The end of the data region and the size that is mapped -/

/-- In a run of `mkfs` that passed its checks, no conversion to `int` wraps:
`fs_size` is the sum of the region sizes, `i_blocks_ptr` is that of the
superblock and the bitmaps rounded up to a block, and `d_blocks_ptr` follows
the inode table directly. -/
theorem layout_exact (SB : Nat) (ni nd : Int) (h1 : 0 < ni) (h2 : 0 < nd)
    (m1 : ni % 32 = 0) (m2 : nd % 32 = 0)
    (o1 : intOk (ni * BLOCK_SIZE) = true) (o2 : intOk (nd * BLOCK_SIZE) = true)
    (sm : storesMapped SB ni nd = true) :
    fsSize SB ni nd = (SB : Int) + ni / 8 + nd / 8 + ni * 512 + nd * 512 ∧
    iBlocksPtr SB ni nd = roundup ((SB : Int) + ni / 8 + nd / 8) 512 ∧
    dBlocksPtr SB ni nd = iBlocksPtr SB ni nd + ni * 512 ∧
    fsSize SB ni nd < 2147483648 := by
  obtain ⟨l1, l2, l3, l4⟩ := layout_arith SB ni nd h1 h2 m1 m2 o1 o2 sm
  unfold intOk at o1 o2
  unfold storesMapped at sm
  simp only [decide_eq_true_eq] at o1 o2 sm
  obtain ⟨s1, s2, s3, s4, s5⟩ := sm
  have ci : cdiv ni 8 = ni / 8 := by unfold cdiv; rw [if_pos (show 0 ≤ ni by omega)]; rfl
  have cd : cdiv nd 8 = nd / 8 := by unfold cdiv; rw [if_pos (show 0 ≤ nd by omega)]; rfl
  have B : ((BLOCK_SIZE : Nat) : Int) = 512 := rfl
  rw [B] at o1 o2
  have hfw : fsSize SB ni nd
      = wrap32 ((SB : Int) + ni / 8 + nd / 8 + ni * 512 + nd * 512) := by
    unfold fsSize; rw [ci, cd, B]
    congr 1
    ring
  have hf : fsSize SB ni nd = (SB : Int) + ni / 8 + nd / 8 + ni * 512 + nd * 512 := by
    rw [hfw] at s1 s3 s5 ⊢
    unfold DENTRY_SIZE MAX_NAME at s5
    push_cast at s5
    unfold wrap32 at s1 s3 s5 ⊢
    omega
  have hlt : fsSize SB ni nd < 2147483648 := by
    rw [hfw]; unfold wrap32; omega
  have hlt2 := hlt
  rw [hf] at s1 s3 s5 hlt2
  unfold DENTRY_SIZE MAX_NAME at s5
  push_cast at s5
  have hi : iBlocksPtr SB ni nd = roundup ((SB : Int) + ni / 8 + nd / 8) 512 := by
    have e : iBlocksPtr SB ni nd
        = roundup (wrap32 ((SB : Int) + ni / 8 + nd / 8)) 512 := by
      unfold iBlocksPtr; rw [ci, cd]; rfl
    rw [e]
    congr 1
    unfold wrap32
    omega
  have r1 := (roundup_512 ((SB : Int) + ni / 8 + nd / 8)).1 (by omega)
  rw [← hi] at r1
  have hd : dBlocksPtr SB ni nd = iBlocksPtr SB ni nd + ni * 512 := by
    have e : dBlocksPtr SB ni nd
        = roundup (wrap32 (iBlocksPtr SB ni nd + ni * 512)) 512 := by
      unfold dBlocksPtr; rfl
    have hw : wrap32 (iBlocksPtr SB ni nd + ni * 512) = iBlocksPtr SB ni nd + ni * 512 := by
      unfold wrap32
      omega
    rw [e, hw]
    unfold roundup cmod
    rw [if_pos (show 0 ≤ iBlocksPtr SB ni nd + ni * 512 by omega)]
    rw [if_pos]
    push_cast
    omega
  exact ⟨hf, hi, hd, hlt⟩

/-- The end of the data region after a run of `mkfs` that formatted the
disks, against the `fs_size` of that run. -/
theorem dataEnd_vs_fsSize (SB D : Nat) (raid : Int) (imgs : List Image) (iArg bArg : Int)
    (uid gid : Nat) (now : Int) (s0 : FS) (hi : 1 ≤ iArg) (hb : 1 ≤ bArg)
    (h : formatted (mkfs_main SB D raid imgs iArg bArg uid gid now) = some s0) :
    wfsMapSize SB s0.d0.sb = fsSize SB (roundup iArg 32) (roundup bArg 32) ∧
    fsSize SB (roundup iArg 32) (roundup bArg 32) ≤ (s0.dataEnd : Int) ∧
    (s0.dataEnd : Int) < fsSize SB (roundup iArg 32) (roundup bArg 32) + BLOCK_SIZE ∧
    ((s0.dataEnd : Int) = fsSize SB (roundup iArg 32) (roundup bArg 32) ↔
      (SB + s0.d0.sb.num_inodes / 8 + s0.d0.sb.num_data_blocks / 8) % BLOCK_SIZE = 0) := by
  obtain ⟨r, h⟩ := formatted_some _ _ h
  obtain ⟨-, -, -, -, o1, o2, sm, img0, rest, -, e, -⟩ := mkfs_main_some _ _ _ _ _ _ _ _ _ _ _ h
  obtain ⟨a1, a2, a3⟩ := roundup_32 iArg (by omega)
  obtain ⟨b1, b2, b3⟩ := roundup_32 bArg (by omega)
  generalize roundup iArg 32 = ni at *
  generalize roundup bArg 32 = nd at *
  obtain ⟨x1, x2, x3, x4⟩ := layout_exact SB ni nd (by omega) (by omega) a1 b1 o1 o2 sm
  obtain ⟨l1, l2, l3, l4⟩ := layout_arith SB ni nd (by omega) (by omega) a1 b1 o1 o2 sm
  have r1 := (roundup_512 ((SB : Int) + ni / 8 + nd / 8)).1 (by omega)
  rw [← x2] at r1
  have e1 : s0.d0.sb.num_inodes = ni.toNat := by rw [e]; rfl
  have e2 : s0.d0.sb.num_data_blocks = nd.toNat := by rw [e]; rfl
  have e6 : s0.d0.sb.d_blocks_ptr = (dBlocksPtr SB ni nd).toNat := by rw [e]; rfl
  unfold wfsMapSize FS.dataEnd
  rw [e1, e2, e6, x1, x3]
  rw [x1] at x4
  unfold BLOCK_SIZE
  generalize iBlocksPtr SB ni nd = ip at *
  unfold intOk at o1 o2
  simp only [decide_eq_true_eq] at o1 o2
  have B : ((BLOCK_SIZE : Nat) : Int) = 512 := rfl
  rw [B] at o1 o2
  refine ⟨?_, ?_, ?_, ?_⟩
  · unfold wrap32
    push_cast
    omega
  · push_cast; omega
  · push_cast; omega
  · push_cast; omega

end Wfs

namespace Wfs

/-! ## What a successful `wfs_mknod` writes -/

theorem mknodDirSlot_inodes (D : Nat) (s s' : FS) (pidx : Nat) (clock : Nat → Int) (bn : Nat)
    (off : Int) (h : mknodDirSlot D s pidx clock = some (s', some (bn, off))) :
    (∀ i, i ≠ pidx → s'.d0.inodes i = s.d0.inodes i) ∧
    (s'.d0.inodes pidx).size = (s.d0.inodes pidx).size := by
  unfold mknodDirSlot at h
  simp only [Option.bind_eq_bind, Option.bind_eq_some] at h
  obtain ⟨bn', _, p0, _, h⟩ := h
  split_ifs at h
  · simp at h
  · split at h
    · simp at h
    · rename_i p s3 hal
      simp only [Option.some.injEq, Prod.mk.injEq] at h
      obtain ⟨rfl, rfl, rfl⟩ := h
      obtain ⟨k, _, _, _, _, rfl⟩ := allocData_spec _ _ _ hal
      constructor
      · intro i hi
        simp [FS.modInode, FS.setInode, upd, hi]
      · simp [FS.modInode, FS.setInode, upd, wfs_inode.setBlock]
  · simp only [Option.some.injEq, Prod.mk.injEq] at h
    obtain ⟨rfl, rfl, rfl⟩ := h
    constructor
    · intro i hi
      simp [FS.modInode, FS.setInode, upd, hi]
    · simp [FS.modInode, FS.setInode, upd]

theorem mknodFill_post (s s' : FS) (pidx index bn : Nat) (off : Int) (name : List Nat)
    (mode uid gid : Nat) (clock : Nat → Int) (hne : index ≠ pidx)
    (h : mknodFill s pidx index bn off name mode uid gid clock = some s') :
    s'.d0.inodes index = { s.d0.inodes index with
      num := index, mode := mode, uid := uid, gid := gid, size := 0, nlinks := 1,
      atim := clock 3, mtim := clock 3, ctim := clock 3 } ∧
    (s'.d0.inodes pidx).size = (s.d0.inodes pidx).size + DENTRY_SIZE ∧
    ∃ loc : Nat, (loc : Int) = (((s.d0.inodes pidx).blocks.getD bn 0 : Nat) : Int) + off ∧
      memLoad s'.d0.mem loc DENTRY_SIZE = padName name ++ encode32 index := by
  unfold mknodFill at h
  simp only [Option.bind_eq_bind, Option.bind_eq_some] at h
  obtain ⟨p, hp, loc, hloc, dbo, _, h8⟩ := h
  obtain ⟨e1, _, _⟩ := mknodReplicate_spec _ _ _ _ _ h8
  have hpd : (s.d0.inodes pidx).blocks.getD bn 0 = p := by
    rw [List.getD_eq_getElem?_getD, hp]; rfl
  have hlen : (padName name ++ encode32 index).length = DENTRY_SIZE := by
    rw [List.length_append, padName_length, encode32_length]; rfl
  refine ⟨?_, ?_, loc, ?_, ?_⟩
  · rw [e1]
    split_ifs <;> simp [FS.modInode, FS.setInode, FS.store0, upd, hne, Ne.symm hne]
  · rw [e1]
    split_ifs <;> simp [FS.modInode, FS.setInode, FS.store0, upd, hne, Ne.symm hne]
  · rw [hpd]
    exact (addr_inv _ _ _ _ hloc).2.symm
  · rw [e1]
    have hm : ∀ t : FS, t.d0.mem = memStore s.d0.mem loc (padName name ++ encode32 index) →
        memLoad t.d0.mem loc DENTRY_SIZE = padName name ++ encode32 index := by
      intro t ht
      rw [ht, ← hlen]
      exact memLoad_memStore _ _ _
    split_ifs
    · exact hm _ rfl
    · exact hm _ rfl

/-- What `wfs_mknod` leaves when it returns 0 for a path whose parent
directory `pidx` has its bit set in the inode bitmap: the new inode is the
lowest clear bit `k`; its fields `num`, `mode`, `uid`, `gid`, `size`, `nlinks`
and the three times are assigned and `blocks` keeps what the inode block held;
the size of the parent has grown by one entry; and the entry (name padded as
`strncpy` does, `k`) stands in the block `blocks[size / BLOCK_SIZE]` of the
parent at `size % BLOCK_SIZE`, for the old `size`. -/
theorem wfs_mknod_post (D : Nat) (s s' : FS) (path : List Nat) (mode uid gid : Nat)
    (clock : Nat → Int) (pidx : Nat)
    (h : wfs_mknod D s path mode uid gid clock = some (0, s'))
    (hpp : parsePath D s (parseParentChild path).2 = some (pidx : Int))
    (hpa : bitOf s.d0.imap pidx ≠ 0) :
    ∃ k, k < s.iCount ∧ bitOf s.d0.imap k = 0 ∧ (∀ j, j < k → bitOf s.d0.imap j ≠ 0) ∧
      s'.d0.inodes k = { s.d0.inodes k with
        num := k, mode := mode, uid := uid, gid := gid, size := 0, nlinks := 1,
        atim := clock 3, mtim := clock 3, ctim := clock 3 } ∧
      (s'.d0.inodes pidx).size = (s.d0.inodes pidx).size + DENTRY_SIZE ∧
      ∃ loc : Nat,
        (loc : Int) = (((s'.d0.inodes pidx).blocks.getD
            (wrap32 (cdiv (s.d0.inodes pidx).size BLOCK_SIZE)).toNat 0 : Nat) : Int)
          + wrap32 (cmod (s.d0.inodes pidx).size BLOCK_SIZE) ∧
        memLoad s'.d0.mem loc DENTRY_SIZE = padName (parseParentChild path).1 ++ encode32 k := by
  unfold wfs_mknod at h
  simp only [Option.bind_eq_bind, Option.bind_eq_some] at h
  obtain ⟨r, _, h⟩ := h
  have stay : ∀ (e : Int) (t : FS), e ≠ 0 → some (e, t) = some ((0 : Int), s') → False := by
    intro e t he h
    simp only [Option.some.injEq, Prod.mk.injEq] at h
    exact he h.1
  by_cases h1 : r ≥ 0
  · rw [if_pos h1] at h; exact (stay _ _ (by decide) h).elim
  rw [if_neg h1] at h
  by_cases h2 : (parseParentChild path).1 = []
  · rw [if_pos h2] at h; exact (stay _ _ (by decide) h).elim
  rw [if_neg h2] at h
  by_cases h3 : MAX_NAME ≤ (parseParentChild path).2.length
  · rw [if_pos h3] at h; exact absurd h (by simp)
  rw [if_neg h3, hpp] at h
  simp only [Option.bind_eq_bind, Option.some_bind] at h
  rw [if_neg (by simp)] at h
  rcases findAndAlloc_spec s.d0.imap s.iCount with ⟨k, k1, k2, k3, k4⟩ | ⟨_, k4⟩
  · rw [k4] at h
    rw [if_neg (by simp)] at h
    simp only [Option.bind_eq_bind, Option.bind_eq_some, Int.toNat_ofNat] at h
    obtain ⟨p0, hp0, h⟩ := h
    have := inodeIdx_some_natCast _ _ _ hp0
    subst this
    have hne : k ≠ p0 := fun e => hpa (e ▸ k2)
    unfold mknodAddEntry at h
    simp only [Option.bind_eq_bind, Option.bind_eq_some] at h
    obtain ⟨⟨s1, r1⟩, hs1, h⟩ := h
    cases r1 with
    | none => exact (stay _ _ (by decide) h).elim
    | some v =>
      obtain ⟨bn, off⟩ := v
      simp only [Option.bind_eq_bind, Option.bind_eq_some, Option.some.injEq,
        Prod.mk.injEq] at h
      obtain ⟨s8, h8, _, rfl⟩ := h
      obtain ⟨m1, m2, m3⟩ := mknodDirSlot_mem _ _ _ _ _ _ _ hs1
      obtain ⟨n1, n2⟩ := mknodDirSlot_inodes _ _ _ _ _ _ _ hs1
      obtain ⟨f1, _⟩ := mknodFill_mem _ _ _ _ _ _ _ _ _ _ _ h8
      obtain ⟨g1, g2, loc, g3, g4⟩ := mknodFill_post _ _ _ _ _ _ _ _ _ _ _ hne h8
      refine ⟨k, k1, k2, k3, ?_, ?_, loc, ?_, g4⟩
      · rw [g1, n1 k hne]
      · rw [g2, n2]
      · rw [g3, f1, m2, m3]
  · rw [k4] at h
    rw [if_pos (show ((-1 : Int), s.d0.imap).1 < 0 by norm_num)] at h
    exact (stay _ _ (by decide) h).elim

/-! ## What `valid_board` checks -/

theorem boardAt_eq (board : List (List Nat)) (i j : Nat) (hi : i < board.length)
    (hj : j < (board.getD i []).length) : boardAt board i j = some (cell board i j) := by
  unfold boardAt cell
  rw [List.getD_eq_getElem?_getD] at hj ⊢
  rw [List.getElem?_eq_getElem hi] at hj ⊢
  simp only [Option.getD_some, Option.bind_eq_bind, Option.some_bind] at hj ⊢
  rw [if_pos hj]
  simp [List.getD_eq_getElem?_getD, List.getElem?_eq_getElem hi, List.getElem?_eq_getElem hj]

theorem rowLoop_spec (board : List (List Nat)) (i ch : Nat) (hi : i < board.length) :
    ∀ n col, col + n ≤ (board.getD i []).length →
      ∃ b, rowLoop board i ch n col = some b ∧
        (b = true ↔ ∃ c, col ≤ c ∧ c < col + n ∧ ch = cell board i c) := by
  intro n
  induction n with
  | zero =>
    intro col _
    exact ⟨false, rfl, by constructor <;> intro h; cases h; obtain ⟨c, h1, h2, _⟩ := h; omega⟩
  | succ n ih =>
    intro col hc
    unfold rowLoop
    rw [boardAt_eq board i col hi (by omega)]
    simp only [Option.bind_eq_bind, Option.some_bind]
    by_cases e : ch = cell board i col
    · rw [if_pos e]
      exact ⟨true, rfl, fun _ => ⟨col, le_refl _, by omega, e⟩, fun _ => rfl⟩
    · rw [if_neg e]
      obtain ⟨b, hb, hiff⟩ := ih (col + 1) (by omega)
      refine ⟨b, hb, hiff.trans ⟨?_, ?_⟩⟩
      · rintro ⟨c, h1, h2, h3⟩
        exact ⟨c, by omega, by omega, h3⟩
      · rintro ⟨c, h1, h2, h3⟩
        rcases Nat.eq_or_lt_of_le h1 with h | h
        · subst h; exact absurd h3 e
        · exact ⟨c, h, by omega, h3⟩

theorem colLoop_spec (board : List (List Nat)) (j ch : Nat)
    (hj : ∀ r, r < board.length → j < (board.getD r []).length) :
    ∀ n row, row + n ≤ board.length →
      ∃ b, colLoop board j ch n row = some b ∧
        (b = true ↔ ∃ r, row ≤ r ∧ r < row + n ∧ ch = cell board r j) := by
  intro n
  induction n with
  | zero =>
    intro row _
    exact ⟨false, rfl, by constructor <;> intro h; cases h; obtain ⟨c, h1, h2, _⟩ := h; omega⟩
  | succ n ih =>
    intro row hc
    unfold colLoop
    rw [boardAt_eq board row j (by omega) (hj row (by omega))]
    simp only [Option.bind_eq_bind, Option.some_bind]
    by_cases e : ch = cell board row j
    · rw [if_pos e]
      exact ⟨true, rfl, fun _ => ⟨row, le_refl _, by omega, e⟩, fun _ => rfl⟩
    · rw [if_neg e]
      obtain ⟨b, hb, hiff⟩ := ih (row + 1) (by omega)
      refine ⟨b, hb, hiff.trans ⟨?_, ?_⟩⟩
      · rintro ⟨c, h1, h2, h3⟩
        exact ⟨c, by omega, by omega, h3⟩
      · rintro ⟨c, h1, h2, h3⟩
        rcases Nat.eq_or_lt_of_le h1 with h | h
        · subst h; exact absurd h3 e
        · exact ⟨c, h, by omega, h3⟩

/-- The letter at position `j0` of side `i` occurs again to its right on the
same side or at the same position of a later side. -/
theorem lettersLoop_spec (board : List (List Nat)) (i sides letters : Nat)
    (hs : board.length = sides) (hr : ∀ r, r < sides → (board.getD r []).length = letters)
    (hi : i < sides) :
    ∀ n j, j + n = letters →
      ∃ b, lettersLoop board i sides letters n j = some b ∧
        (b = true ↔ ∃ j0, j ≤ j0 ∧ j0 < letters ∧
          ((∃ c, j0 < c ∧ c < letters ∧ cell board i j0 = cell board i c) ∨
           (∃ r, i < r ∧ r < sides ∧ cell board i j0 = cell board r j0))) := by
  intro n
  induction n with
  | zero =>
    intro j _
    exact ⟨false, rfl, by
      constructor <;> intro h
      · cases h
      · obtain ⟨c, h1, h2, _⟩ := h; omega⟩
  | succ n ih =>
    intro j hj
    unfold lettersLoop
    rw [boardAt_eq board i j (by omega) (by rw [hr i hi]; omega)]
    simp only [Option.bind_eq_bind, Option.some_bind]
    obtain ⟨b1, hb1, i1⟩ := rowLoop_spec board i (cell board i j) (by omega)
      (letters - (j + 1)) (j + 1) (by rw [hr i hi]; omega)
    obtain ⟨b2, hb2, i2⟩ := colLoop_spec board j (cell board i j)
      (fun r hr2 => by rw [hr r (by omega)]; omega) (sides - (i + 1)) (i + 1) (by omega)
    rw [hb1]
    simp only [Option.some_bind]
    by_cases c1 : b1 = true
    · rw [if_pos c1]
      obtain ⟨c, h1, h2, h3⟩ := i1.1 c1
      exact ⟨true, rfl, fun _ => ⟨j, le_refl _, by omega,
        Or.inl ⟨c, by omega, by omega, h3⟩⟩, fun _ => rfl⟩
    · rw [if_neg c1, hb2]
      simp only [Option.some_bind]
      by_cases c2 : b2 = true
      · rw [if_pos c2]
        obtain ⟨r, h1, h2, h3⟩ := i2.1 c2
        exact ⟨true, rfl, fun _ => ⟨j, le_refl _, by omega,
          Or.inr ⟨r, by omega, by omega, h3⟩⟩, fun _ => rfl⟩
      · rw [if_neg c2]
        obtain ⟨b, hb, hiff⟩ := ih (j + 1) (by omega)
        refine ⟨b, hb, hiff.trans ⟨?_, ?_⟩⟩
        · rintro ⟨j0, h1, h2, h3⟩
          exact ⟨j0, by omega, h2, h3⟩
        · rintro ⟨j0, h1, h2, h3⟩
          rcases Nat.eq_or_lt_of_le h1 with h | h
          · subst h
            rcases h3 with ⟨c, d1, d2, d3⟩ | ⟨r, d1, d2, d3⟩
            · exact absurd (i1.2 ⟨c, by omega, by omega, d3⟩) c1
            · exact absurd (i2.2 ⟨r, by omega, by omega, d3⟩) c2
          · exact ⟨j0, h, h2, h3⟩

theorem sidesLoop_spec (board : List (List Nat)) (sides letters : Nat)
    (hs : board.length = sides) (hr : ∀ r, r < sides → (board.getD r []).length = letters)
    (hl : letters < 2 ^ 31) :
    ∀ n i, i + n = sides →
      ∃ v, sidesLoop board sides (letters : Int) n i = some v ∧ (v = 0 ∨ v = 1) ∧
        (v = 1 ↔ ∃ i0, i ≤ i0 ∧ i0 < sides ∧ ∃ j0, j0 < letters ∧
          ((∃ c, j0 < c ∧ c < letters ∧ cell board i0 j0 = cell board i0 c) ∨
           (∃ r, i0 < r ∧ r < sides ∧ cell board i0 j0 = cell board r j0))) := by
  intro n
  induction n with
  | zero =>
    intro i _
    exact ⟨0, rfl, Or.inl rfl, by
      constructor <;> intro h
      · exact absurd h (by decide)
      · obtain ⟨c, h1, h2, _⟩ := h; omega⟩
  | succ n ih =>
    intro i hin
    have hi : i < sides := by omega
    unfold sidesLoop
    have e : board[i]? = some (board.getD i []) := by
      rw [List.getD_eq_getElem?_getD, List.getElem?_eq_getElem (by omega)]; rfl
    rw [e]
    rw [Option.bind_eq_bind, Option.some_bind]
    have hw : wrap32 (((board.getD i []).length : Nat) : Int) = (letters : Int) := by
      rw [hr i hi]; unfold wrap32; omega
    rw [if_neg (not_not.mpr hw), Int.toNat_ofNat]
    obtain ⟨b, hb, hiff⟩ := lettersLoop_spec board i sides letters hs hr hi letters 0
      (Nat.zero_add _)
    rw [hb, Option.bind_eq_bind, Option.some_bind]
    by_cases c : b = true
    · rw [if_pos c]
      obtain ⟨j0, _, h2, h3⟩ := hiff.1 c
      exact ⟨1, rfl, Or.inr rfl, fun _ => ⟨i, le_refl _, hi, j0, h2, h3⟩, fun _ => rfl⟩
    · rw [if_neg c]
      obtain ⟨v, hv, h01, hviff⟩ := ih (i + 1) (by omega)
      refine ⟨v, hv, h01, hviff.trans ⟨?_, ?_⟩⟩
      · rintro ⟨i0, h1, h2, h3⟩
        exact ⟨i0, by omega, h2, h3⟩
      · rintro ⟨i0, h1, h2, j0, h3, h4⟩
        rcases Nat.eq_or_lt_of_le h1 with h | h
        · subst h
          exact absurd (hiff.2 ⟨j0, Nat.zero_le _, h3, h4⟩) c
        · exact ⟨i0, h, h2, j0, h3, h4⟩

/-- On a board of `sides` sides with `letters` letters each, `valid_board`
returns 0 when there are at least 3 sides, no side holds a letter twice and no
two sides hold the same letter at the same position; otherwise it returns 1. -/
theorem valid_board_spec (board : List (List Nat)) (sides letters : Nat)
    (hs : board.length = sides) (hr : ∀ row ∈ board, row.length = letters)
    (hl : letters < 2 ^ 31) :
    (valid_board board sides letters = some 0 ∨ valid_board board sides letters = some 1) ∧
    (valid_board board sides letters = some 0 ↔
      3 ≤ sides ∧
      (∀ i j j', i < sides → j < j' → j' < letters → cell board i j ≠ cell board i j') ∧
      (∀ i i' j, i < i' → i' < sides → j < letters → cell board i j ≠ cell board i' j)) := by
  have hr2 : ∀ r, r < sides → (board.getD r []).length = letters := by
    intro r h
    apply hr
    rw [List.getD_eq_getElem?_getD, List.getElem?_eq_getElem (by omega)]
    exact List.getElem_mem _
  unfold valid_board
  by_cases c : ((sides : Nat) : Int) < 3
  · rw [if_pos c]
    refine ⟨Or.inr rfl, ?_⟩
    constructor
    · intro h; exact absurd h (by decide)
    · rintro ⟨h, _⟩; omega
  · rw [if_neg c, Int.toNat_ofNat]
    obtain ⟨v, hv, h01, hiff⟩ := sidesLoop_spec board sides letters hs hr2 hl sides 0
      (Nat.zero_add _)
    rw [hv]
    constructor
    · rcases h01 with h | h
      · left; rw [h]
      · right; rw [h]
    · constructor
      · intro h0
        have hv0 : v = 0 := by simpa using h0
        have hn : ¬ v = 1 := by rw [hv0]; decide
        rw [hiff] at hn
        refine ⟨by omega, ?_, ?_⟩
        · intro i j j' h1 h2 h3 e
          exact hn ⟨i, Nat.zero_le _, h1, j, by omega, Or.inl ⟨j', h2, h3, e⟩⟩
        · intro i i' j h1 h2 h3 e
          exact hn ⟨i, Nat.zero_le _, by omega, j, h3, Or.inr ⟨i', h1, h2, e⟩⟩
      · rintro ⟨_, h2, h3⟩
        have hn : ¬ v = 1 := by
          rw [hiff]
          rintro ⟨i0, _, d1, j0, d2, ⟨c, e1, e2, e3⟩ | ⟨r, e1, e2, e3⟩⟩
          · exact h2 i0 j0 c d1 e1 e2 e3
          · exact h3 i0 r j0 e1 e2 d2 e3
        rcases h01 with h | h
        · rw [h]
        · exact absurd h hn

set_option maxRecDepth 1000000 in
/-- In `reuseState` the root is allocated, bit 3 of the inode bitmap is clear,
inode 3 holds the block pointer 17408, and mknod `/y` returns 0. -/
theorem reuse_facts :
    reuseScenario = some ([0, 0, 0, 0, 0, 0, 1], [0, 17408, 0, 3, 0, 1, 17408]) ∧
    (wfs_mknod 7 reuseState (ascii "/y") regMode 1000 1000 (clockAt 300)).map Prod.fst
      = some 0 ∧
    parsePath 7 reuseState (parseParentChild (ascii "/y")).2 = some ((0 : Nat) : Int) ∧
    bitOf reuseState.d0.imap 0 ≠ 0 ∧
    bitOf reuseState.d0.imap 3 = 0 ∧
    (reuseState.d0.inodes 3).blocks = [17408, 0, 0, 0, 0, 0, 0, 0] := by
  decide!

theorem reuseEnd_eq :
    wfs_mknod 7 reuseState (ascii "/y") regMode 1000 1000 (clockAt 300) = some (0, reuseEnd) :=
  pair_of_fst (wfs_mknod 7 reuseState (ascii "/y") regMode 1000 1000 (clockAt 300)) 0 noFS
    reuse_facts.2.1

end Wfs

namespace Wfs

/-! ## The claims -/

set_option maxRecDepth 1000000 in
/-- C1 (write/read round trip), evaluated where it fails: on a freshly created
file `/f` (mirrored mode, two disks, 32 inodes, 32 data blocks),
`wfs_write("/f", "hello", 5, 10)` returns 5, and the following
`wfs_read("/f", out, 5, 10)` returns 0 and stores no byte, because the write
left `inode.size = 5` and the read stops at `offset >= inode.size`. -/
theorem write_read_past_old_size :
    sparseWriteScenario = some (0, 5, 0, []) := by decide!

set_option maxRecDepth 1000000 in
/-- C2 (read length), evaluated where it fails: `/f` has `inode.size = 5`
with its block allocated; `wfs_read("/f", buf, 100, 0)` returns 100 and stores
100 bytes, more than `min(size, inode.size - offset) = 5`. -/
theorem read_returns_past_inode_size :
    overReadScenario = some (5, 100, 100) := by decide!

set_option maxRecDepth 1000000 in
/-- C6 (mirror coherence), evaluated where it fails: mirrored mode, two
disks; after `mkdir /a`, `mknod /f` and a write that fills the data bitmap,
`mknod /a/x` at time 300 returns `-ENOSPC` but has already stored the new
`mtim` in the inode of `/a` on disk 0; the following `getattr /f` returns 0,
and the inode of `/a` differs between disk 0 (`mtim = 300`) and disk 1
(`mtim = 200`). -/
theorem mirror_diverges_after_failed_mknod :
    diskFullScenario.map (fun r => (r.1, r.2.1, (r.2.2.d0.inodes 1).mtim,
        r.2.2.rest.map (fun d => (d.inodes 1).mtim), r.2.2.d0.sb.raid_mode))
      = some (-ENOSPC, 0, 300, [200], 1) := by decide!

set_option maxRecDepth 1000000 in
/-- C8 (voting repair).  For every disk set and block offset, after the
voting and repair step of `wfs_read` every disk holds the winner's bytes on
the block; the winner's bytes are the block of one of the disks; and if more
than half of the disks held the same bytes `x` on the block, the bytes served
are `x` (so every disk holds `x` afterwards).  In mirrored mode with two
disks, `"world"` written at offset 0 of `/f` and the block zeroed on disk 1
(the two disks hold `"world"` and five zero bytes): `wfs_read("/f", 5, 0)`
returns 5 and `"world"`, and afterwards disk 1 holds the same block as disk 0. -/
theorem voting_repair :
    (∀ (s : FS) (blockAddr : Nat),
      (∀ d ∈ (voteAndRepair s blockAddr).1.disks,
        memLoad d.mem blockAddr BLOCK_SIZE = (voteAndRepair s blockAddr).2) ∧
      (∃ d ∈ s.disks, (voteAndRepair s blockAddr).2 = memLoad d.mem blockAddr BLOCK_SIZE) ∧
      (∀ x, s.disks.length <
          2 * cnt x (s.disks.map (fun d => memLoad d.mem blockAddr BLOCK_SIZE)) →
        (voteAndRepair s blockAddr).2 = x)) ∧
    (corruptedScenario.bind (fun sp =>
        (wfs_read 7 sp.1 (ascii "/f") 5 0 (clockAt 300)).map (fun r =>
          ([r.1, sp.1.d0.sb.raid_mode],
            r.2.1 :: sp.1.disks.map (fun d => memLoad d.mem sp.2 5),
            r.2.2.rest.map (fun d =>
              decide (memLoad d.mem sp.2 BLOCK_SIZE = memLoad r.2.2.d0.mem sp.2 BLOCK_SIZE)))))
      = some ([5, 1], [ascii "world", ascii "world", [0, 0, 0, 0, 0]], [true])) :=
  ⟨fun s blockAddr => ⟨voteAndRepair_equal s blockAddr, voteAndRepair_buf_mem s blockAddr,
    fun x h => voteAndRepair_majority s blockAddr x h⟩, by decide!⟩

/-- C9 (mknod error codes).  `wfs_mknod` returns `-EEXIST` if `parsePath(path)`
resolves; otherwise `-EBADF` if the child name from `parseParentChild` is
empty; otherwise `-ENOENT` if the parent path (as `parseParentChild` produced
it, with its terminator) does not resolve; in each of the three cases the
state of every disk is the one before the call. -/
theorem mknod_error_codes (IND_BLOCK : Nat) (s : FS) (path : List Nat) (mode uid gid : Nat)
    (clock : Nat → Int) :
    (∀ r, parsePath IND_BLOCK s path = some r → 0 ≤ r →
      wfs_mknod IND_BLOCK s path mode uid gid clock = some (-EEXIST, s)) ∧
    (∀ r, parsePath IND_BLOCK s path = some r → r < 0 → (parseParentChild path).1 = [] →
      wfs_mknod IND_BLOCK s path mode uid gid clock = some (-EBADF, s)) ∧
    (∀ r p, parsePath IND_BLOCK s path = some r → r < 0 → (parseParentChild path).1 ≠ [] →
      (parseParentChild path).2.length < MAX_NAME →
      parsePath IND_BLOCK s (parseParentChild path).2 = some p → p < 0 →
      wfs_mknod IND_BLOCK s path mode uid gid clock = some (-ENOENT, s)) := by
  refine ⟨?_, ?_, ?_⟩
  · intro r h hr
    unfold wfs_mknod
    simp [h, hr]
  · intro r h hr hc
    unfold wfs_mknod
    simp [h, hr, hc, not_le.2 hr]
  · intro r p h hr hc hl hp hp0
    unfold wfs_mknod
    simp [h, hr, hc, not_le.2 hr, not_le.2 hl, hp, hp0]

/-- Instances of the three cases of C9 on the state with 31 files in `/`:
`/fA` exists, `/fA/` has an empty child name, `/nodir/x` has no parent. -/
theorem mknod_error_codes_witness :
    wfs_mknod 7 full31 (ascii "/fA") regMode 0 0 (clockAt 0) = some (-EEXIST, full31) ∧
    wfs_mknod 7 full31 (ascii "nodir/") regMode 0 0 (clockAt 0) = some (-EBADF, full31) ∧
    wfs_mknod 7 full31 (ascii "/nodir/x") regMode 0 0 (clockAt 0) = some (-ENOENT, full31) :=
  ⟨(mknod_error_codes 7 full31 (ascii "/fA") regMode 0 0 (clockAt 0)).1 1
      full_facts.2.2.2.1 (by decide),
   (mknod_error_codes 7 full31 (ascii "nodir/") regMode 0 0 (clockAt 0)).2.1 (-1)
      full_facts.2.2.2.2.1 (by decide) (by decide),
   (mknod_error_codes 7 full31 (ascii "/nodir/x") regMode 0 0 (clockAt 0)).2.2 (-1) (-1)
      full_facts.2.2.2.2.2.1 (by decide) (by decide) (by decide) full_facts.2.2.2.2.2.2
      (by decide)⟩

set_option maxRecDepth 1000000 in
/-- C10 (inode exhaustion), evaluated where it fails, with the parts that hold.
Fails: on two mirrored disks formatted with 32 inodes and 32 data blocks,
files with the 33 pairwise distinct names of `aliasNames` (none empty, none
with a `/` or a NUL byte) are created in `/` one after another.  The first 31
calls return 0, the 32nd returns `-ENOSPC`, and the 33rd returns `-EEXIST`, not
`-ENOSPC`: its name, 28 bytes `a` and the byte 1, is found in the directory
entry of the first file, whose 28-byte name is stored without a terminating
NUL and runs into the entry's inode number 1.
Holds: `wfs_mknod` returns `-ENOSPC`, and changes nothing, whenever all
`num_inodes` bits of the inode bitmap are set and the call gets as far as the
allocation (the path does not resolve, the child name is not empty, the parent
resolves).  And on a file system formatted with 32 inodes and 32 data blocks:
once 31 files have been created (31 `wfs_mknod` calls returned 0; the root
uses the remaining inode), the 32nd call fails, and the 33rd call, for a name
in `/` that does not resolve, returns `-ENOSPC`. -/
theorem inode_exhaustion :
    (∀ (D : Nat) (s : FS) (c : MknodArgs) (r p : Int),
        parsePath D s c.path = some r → r < 0 →
        (parseParentChild c.path).1 ≠ [] → (parseParentChild c.path).2.length < MAX_NAME →
        parsePath D s (parseParentChild c.path).2 = some p → 0 ≤ p →
        (∀ j, j < s.iCount → bitOf s.d0.imap j ≠ 0) →
        mknodCall D s c = some (-ENOSPC, s)) ∧
    (∀ (SB D : Nat) (raid : Int) (imgs : List Image) (uid gid : Nat) (now : Int)
        (s0 s31 s32 : FS) (cs : List MknodArgs) (c32 c33 : MknodArgs) (r32 r : Int)
        (name : List Nat),
        formatted (mkfs_main SB D raid imgs 32 32 uid gid now) = some s0 →
        cs.length = 31 → createAll D s0 cs = some s31 →
        mknodCall D s31 c32 = some (r32, s32) →
        c33.path = 47 :: name → name ≠ [] → 47 ∉ name →
        parsePath D s32 c33.path = some r → r < 0 →
        r32 ≠ 0 ∧ mknodCall D s32 c33 = some (-ENOSPC, s32)) ∧
    (aliasNames.length = 33 ∧ aliasNames.Nodup ∧
      (∀ name ∈ aliasNames, name ≠ [] ∧ 47 ∉ name ∧ 0 ∉ name) ∧
      aliasScenario = some (List.replicate 31 0 ++ [-ENOSPC, -EEXIST])) := by
  refine ⟨?_, ?_, by decide!⟩
  · intro D s c r p h1 h2 h3 h4 h5 h6 h7
    exact mknod_enospc_full D s c.path c.mode c.uid c.gid c.clock r p h1 h2 h3 h4 h5 h6 h7
  · intro SB D raid imgs uid gid now s0 s31 s32 cs c32 c33 r32 r name hf hl hc h32 hp hne hns hr hr0
    obtain ⟨n0, b0⟩ := fresh_bits SB D raid imgs 32 uid gid now s0 hf
    obtain ⟨n1, _, b1⟩ := createAll_bitsUpTo D 32 cs s0 s31 0 n0 (by norm_num) b0 hc
    rw [hl] at b1
    obtain ⟨n2, e2⟩ := mknod_bitsUpTo D s31 s32 c32 32 31 r32 n1 b1 h32
    rcases e2 with ⟨_, g, _⟩ | ⟨g1, g2⟩
    · omega
    · refine ⟨g1, ?_⟩
      have hpc := parseParentChild_root name hns hne
      apply mknod_enospc_full D s32 c33.path c33.mode c33.uid c33.gid c33.clock r 0 hr hr0
      · rw [hp, hpc]
        intro h0
        apply hne
        cases name with
        | nil => rfl
        | cons a l => simp [MAX_NAME] at h0
      · rw [hp, hpc]; simp [MAX_NAME]
      · rw [hp, hpc]; exact parsePath_nil D s32
      · exact le_refl _
      · intro j hj
        rw [n2] at hj
        exact (g2 j hj).2 (by omega)


/-- The second part of C10 that holds, on two mirrored disks with the files
`/fA`, `/fB`, …: the 32nd call (`/fz`) fails and the 33rd (`/fa`) returns
`-ENOSPC`. -/
theorem inode_exhaustion_witness :
    ret32 ≠ 0 ∧ mknodCall 7 full32 call33 = some (-ENOSPC, full32) :=
  inode_exhaustion.2.1 56 7 1 (List.replicate 2 (zeroImage 1048576)) 1000 1000 100
    full0 full31 full32 thirtyOneFiles call32 call33 ret32 (-1) (ascii "fa")
    full0_eq (by decide) full31_eq full32_eq
    (by decide) (by decide) (by decide) full33_path (by decide)

end Wfs

namespace Wfs

/-- Write, read and getattr on a file that is reachable and empty.  Let `path`
resolve to inode `idx` with size 0 and no block pointer, in a state with a
sane layout, zeroed free data blocks and directories apart from the file.  For
every `buf` of `n > 0` bytes with `n` at most the maximum file size and enough
free data blocks: `wfs_write` of `buf` at offset 0 returns `n`, the following
`wfs_read` of `n` bytes at offset 0 returns `n` and exactly `buf`, and the
following `wfs_getattr` returns 0 and reports `st_size = n`. -/
theorem write_read_getattr_fresh (D idx : Nat) (s : FS) (path buf : List Nat) (c1 c2 c3 : Nat → Int)
    (st0 : Stat) (hg : Geometry D s.d0) (hz : FreeZero s.d0) (hd : DirsApart D s.d0 idx)
    (hp : parsePath D s path = some (idx : Int)) (hi : idx < s.iCount)
    (hsize : (s.d0.inodes idx).size = 0)
    (hblocks : (s.d0.inodes idx).blocks = List.replicate (D + 1) 0)
    (hn0 : 0 < buf.length) (hn : buf.length ≤ maxBlocks D * BLOCK_SIZE)
    (hfree : writeNeed D s.d0 idx 0 buf.length 0 ≤ s.d0.freeCount) :
    ∃ s1 s2 s3 st, wfs_write D s path buf 0 c1 = some ((buf.length : Int), s1) ∧
      wfs_read D s1 path buf.length 0 c2 = some ((buf.length : Int), buf, s2) ∧
      wfs_getattr D s2 path st0 c3 = some (0, st, s3) ∧ st.st_size = (buf.length : Int) := by
  have hw : FileWF D s.d0 idx := FileWF_fresh D idx s.d0 hblocks
  obtain ⟨w, s1, h1, res, hfull⟩ :=
    wfs_write_spec D idx 0 buf path s c1 hg hw hz hp hi (by omega)
  have hwn : w = buf.length := hfull hn0 hfree
  subst hwn
  rw [if_pos (by omega)] at h1
  have hp1 : parsePath D s1 path = some (idx : Int) := by
    rw [parsePath_frame D idx s s1 path hd res.step res.wf]; exact hp
  have hi1 : idx < s1.iCount := by rw [iCount_congr s s1 res.step.sb]; exact hi
  have hsz1 : (s1.d0.inodes idx).size = (buf.length : Int) := by
    rw [res.size, hsize]; simp
  obtain ⟨s2, h2, w2, _, st2, sz2, _⟩ :=
    wfs_read_spec D idx 0 buf path s1 c2 (Geometry_congr res.step.sb hg) res.wf res.fz hp1 hi1
      hn0 (by omega) (by rw [hsz1]; simp) res.stored
  have hp2 : parsePath D s2 path = some (idx : Int) := by
    rw [parsePath_frame D idx s s2 path hd (FileStep_trans res.step st2) w2]; exact hp
  have hi2 : idx < s2.iCount := by rw [iCount_congr s1 s2 st2.sb]; exact hi1
  obtain ⟨st, s3, h3, hs3⟩ := getattr_size D idx s2 path st0 c3 hp2 hi2
  exact ⟨s1, s2, s3, st, h1, h2, h3, by rw [hs3, sz2, hsz1]⟩

set_option maxRecDepth 1000000 in
/-- C3 (create, write, read), evaluated where it fails.  On two fresh striped
disks `wfs_mknod` of `/` followed by 28 bytes `a` returns 0 and leaves inode 1
allocated with size 0 and all block pointers 0, yet `wfs_write` of "hello" at
offset 0 on that path returns `-ENOENT` (not 5), and so do `wfs_read` and
`wfs_getattr`; no byte is read and the stat buffer keeps its size 0.  The name
is stored in the directory entry without a terminating NUL, so the path just
created does not resolve.
The same four calls on `/f` return 0, 5, 5 (with "hello") and 0 with
`st_size = 5`, as specified.
What holds for every `n`: when the path resolves to an inode with size 0 and
no block pointer (in a state with a sane layout, zeroed free data blocks and
directories apart from the file), writing `n > 0` bytes at offset 0 (`n` within
the maximum file size, enough free data blocks) returns `n`, reading `n` bytes
at offset 0 returns `n` and the bytes written, and `wfs_getattr` returns 0 with
`st_size = n`. -/
theorem create_write_read :
    (∀ (D idx : Nat) (s : FS) (path buf : List Nat) (c1 c2 c3 : Nat → Int) (st0 : Stat),
      Geometry D s.d0 → FreeZero s.d0 → DirsApart D s.d0 idx →
      parsePath D s path = some (idx : Int) → idx < s.iCount →
      (s.d0.inodes idx).size = 0 →
      (s.d0.inodes idx).blocks = List.replicate (D + 1) 0 →
      0 < buf.length → buf.length ≤ maxBlocks D * BLOCK_SIZE →
      writeNeed D s.d0 idx 0 buf.length 0 ≤ s.d0.freeCount →
      ∃ s1 s2 s3 st, wfs_write D s path buf 0 c1 = some ((buf.length : Int), s1) ∧
        wfs_read D s1 path buf.length 0 c2 = some ((buf.length : Int), buf, s2) ∧
        wfs_getattr D s2 path st0 c3 = some (0, st, s3) ∧
        st.st_size = (buf.length : Int)) ∧
    (createWriteReadScenario (ascii "f")
        = some ([0, 1, 0, 5, 5, 0, 5], List.replicate 8 0 ++ ascii "hello") ∧
     createWriteReadScenario (List.replicate 28 97)
        = some ([0, 1, 0, -ENOENT, -ENOENT, -ENOENT, 0], List.replicate 8 0)) :=
  ⟨fun D idx s path buf c1 c2 c3 st0 hg hz hd hp hi hsize hblocks hn0 hn hfree =>
     write_read_getattr_fresh D idx s path buf c1 c2 c3 st0 hg hz hd hp hi hsize hblocks hn0 hn
       hfree,
   by decide!⟩

/-- The general part of C3 at the state that `mknod /f` leaves on two fresh
striped disks: writing "hello" at offset 0 returns 5, reading 5 bytes at
offset 0 returns 5 and "hello", and `getattr` reports size 5. -/
theorem create_write_read_witness :
    ∃ s1 s2 s3 st,
      wfs_write 7 fileState (ascii "/f") (ascii "hello") 0 (clockAt 201)
        = some (((ascii "hello").length : Int), s1) ∧
      wfs_read 7 s1 (ascii "/f") (ascii "hello").length 0 (clockAt 202)
        = some (((ascii "hello").length : Int), ascii "hello", s2) ∧
      wfs_getattr 7 s2 (ascii "/f") (statOf (zeroInode 7)) (clockAt 203) = some (0, st, s3) ∧
      st.st_size = ((ascii "hello").length : Int) :=
  create_write_read.1 7 1 fileState (ascii "/f") (ascii "hello") (clockAt 201) (clockAt 202)
    (clockAt 203) (statOf (zeroInode 7)) fileState_geometry fileState_freeZero
    fileState_dirsApart fileState_path fileState_fresh.2.2 fileState_fresh.1
    fileState_fresh.2.1 (by decide) (by decide) fileState_free

set_option maxRecDepth 1000000 in
/-- C5 (stripe placement), evaluated where it fails: striped mode, two disks,
`/big` freshly created, one byte `"A"` written at offset 0 (the write returns
1).  The block of the file has stripe owner 1 by the rule
`((offset - d_blocks_ptr) / BLOCK) mod disk_count`, yet the byte at the block
offset changes from 0 to 65 on disk 0, and disk 1 holds 65 as well. -/
theorem stripe_write_reaches_every_disk :
    (stripeScenario (ascii "A")).map (fun r =>
        ([r.2.d0.sb.raid_mode, (stripeOwner r.2 ((r.2.d0.inodes 1).blocks.getD 0 0) : Int)],
         [r.1.d0.mem ((r.2.d0.inodes 1).blocks.getD 0 0),
          r.2.d0.mem ((r.2.d0.inodes 1).blocks.getD 0 0)],
         r.2.rest.map (fun d => d.mem ((r.2.d0.inodes 1).blocks.getD 0 0))))
      = some ([0, 1], [0, 65], [65]) := by decide!

/-- What `wfs_write` does store, in either mode: `wfs_write` to a well-formed
file (sane layout, well-formed block map, zeroed free blocks, end of the write
within the maximum file size) returns; for the `w` bytes it counted, every
disk holds byte `j` of `buf` at the block offset that the block map gives for
file offset `off + j`; the inode of the file is the same on every disk; and
`w` is the whole length when enough data blocks are free. -/
theorem write_reaches_every_disk (D idx off : Nat) (s : FS) (path buf : List Nat)
    (clock : Nat → Int) (hg : Geometry D s.d0) (hw : FileWF D s.d0 idx) (hz : FreeZero s.d0)
    (hp : parsePath D s path = some (idx : Int)) (hi : idx < s.iCount)
    (hn : off + buf.length ≤ maxBlocks D * BLOCK_SIZE) :
    ∃ (w : Nat) (t : FS), wfs_write D s path buf off clock
        = some (if w ≠ 0 then (w : Int) else -ENOSPC, t) ∧
      Stored D t idx off buf w ∧ (∀ d ∈ t.rest, d.inodes idx = t.d0.inodes idx) ∧
      (0 < buf.length → writeNeed D s.d0 idx off buf.length 0 ≤ s.d0.freeCount →
        w = buf.length) := by
  obtain ⟨w, t, h, res, hfull⟩ := wfs_write_spec D idx off buf path s clock hg hw hz hp hi hn
  exact ⟨w, t, h, res.stored, res.mirror, hfull⟩

set_option maxRecDepth 1000000 in
/-- In striped mode with two disks: "hello" written at offset 0 of the fresh
file `/f` is stored on every disk. -/
theorem write_reaches_every_disk_witness :
    fileState.d0.sb.raid_mode = 0 ∧ fileState.rest.length = 1 ∧
    ∃ (w : Nat) (t : FS), wfs_write 7 fileState (ascii "/f") (ascii "hello") 0 (clockAt 201)
        = some (if w ≠ 0 then (w : Int) else -ENOSPC, t) ∧
      Stored 7 t 1 0 (ascii "hello") w ∧ (∀ d ∈ t.rest, d.inodes 1 = t.d0.inodes 1) ∧
      (0 < (ascii "hello").length →
        writeNeed 7 fileState.d0 1 0 (ascii "hello").length 0 ≤ fileState.d0.freeCount →
        w = (ascii "hello").length) :=
  ⟨by decide!, by decide!,
   write_reaches_every_disk 7 1 0 fileState (ascii "/f") (ascii "hello") (clockAt 201)
     fileState_geometry (FileWF_fresh 7 1 fileState.d0 fileState_fresh.2.1) fileState_freeZero
     fileState_path fileState_fresh.2.2 (by decide)⟩

end Wfs

namespace Wfs

/-! ## Directories, the allocator and removal -/

/-- C16: `findAndAllocFromMap(bitmap, len)` returns the lowest index below
`len` whose bit is clear, sets exactly that bit (every other bit, and every
other byte, keeps its value), and when all `len` bits are set it returns -1
and leaves the bitmap as it was. -/
theorem alloc_lowest_clear_bit (bm : Nat → Nat) (len : Nat) :
    (∃ k, k < len ∧ bitOf bm k = 0 ∧ (∀ j, j < k → bitOf bm j ≠ 0) ∧
        (findAndAllocFromMap bm len).1 = (k : Int) ∧
        (∀ j, bitOf (findAndAllocFromMap bm len).2 j = if j = k then 1 else bitOf bm j) ∧
        (∀ b, b ≠ k / 8 → (findAndAllocFromMap bm len).2 b = bm b)) ∨
    ((∀ j, j < len → bitOf bm j ≠ 0) ∧ findAndAllocFromMap bm len = (-1, bm)) := by
  rcases findAndAlloc_spec bm len with ⟨k, k1, k2, k3, k4⟩ | h
  · left
    refine ⟨k, k1, k2, k3, by rw [k4], ?_, ?_⟩
    · intro j; rw [k4]; exact bitOf_setBit bm k j
    · intro b hb; rw [k4]; simp [setBit, upd, hb]
  · right; exact h

/-- C17: (i) on the inode bitmap that a successful `mkfs` run (with a positive
inode count) leaves, the first `findAndAllocFromMap` returns index 1; (ii) for
every bitmap of bytes, if an allocation returned `k`, then after
`freeBitFromMap(bitmap, k)` the next allocation returns `k` again and leaves
the bitmap that the first allocation left. -/
theorem allocator_determinism :
    (∀ (SB D : Nat) (raid : Int) (imgs : List Image) (iArg bArg : Int) (uid gid : Nat)
        (now : Int) (s0 : FS), 0 < iArg →
        formatted (mkfs_main SB D raid imgs iArg bArg uid gid now) = some s0 →
        (findAndAllocFromMap s0.d0.imap s0.iCount).1 = 1) ∧
    (∀ (bm : Nat → Nat) (len k : Nat), (∀ j, bm j < 256) →
        (findAndAllocFromMap bm len).1 = (k : Int) →
        findAndAllocFromMap (freeBitFromMap (findAndAllocFromMap bm len).2 k) len
          = ((k : Int), (findAndAllocFromMap bm len).2)) :=
  ⟨fun SB D raid imgs iArg bArg uid gid now s0 hi h =>
      fresh_alloc_one SB D raid imgs iArg bArg uid gid now s0 hi h,
   fun bm len k hb h => alloc_free_alloc bm len k hb h⟩

set_option maxRecDepth 1000000 in
/-- An instance of C17 on the inode bitmap of a fresh mirrored pair with 32
inodes: the first allocation returns 1, and so does the allocation after
`freeBitFromMap(bitmap, 1)`. -/
theorem allocator_determinism_witness :
    (findAndAllocFromMap full0.d0.imap full0.iCount).1 = 1 ∧
    findAndAllocFromMap (freeBitFromMap (findAndAllocFromMap full0.d0.imap 32).2 1) 32
      = (((1 : Nat) : Int), (findAndAllocFromMap full0.d0.imap 32).2) :=
  ⟨allocator_determinism.1 56 7 1 (List.replicate 2 (zeroImage 1048576)) 32 32 1000 1000 100
      full0 (by decide) full0_eq,
   allocator_determinism.2 full0.d0.imap 32 1 full0_imap_lt (by decide!)⟩

/-- C14: `wfs_rmdir` on a path that resolves to an inode whose `size` is
positive (a directory that holds an entry) returns `-ENOTEMPTY` and leaves the
whole state, on every disk, as it was. -/
theorem rmdir_not_empty (D : Nat) (s : FS) (path : List Nat) (r : Int) (idx : Nat)
    (hp : parsePath D s path = some r) (hr : 0 ≤ r) (hi : s.inodeIdx r = some idx)
    (hs : (s.d0.inodes idx).size > 0) :
    wfs_rmdir D s path = some (-ENOTEMPTY, s) := by
  unfold wfs_rmdir handleRemove
  simp [hp, not_lt.2 hr, hi, hs]

set_option maxRecDepth 1000000 in
/-- An instance of C14: after mkdir `/a` and mkdir `/a/b` on a fresh mirrored
pair, `/a` is the directory inode 1 with size 32 and `rmdir /a` fails. -/
theorem rmdir_not_empty_witness :
    parsePath 7 nestedState (ascii "/a") = some 1 ∧
    (nestedState.d0.inodes 1).mode &&& S_IFDIR ≠ 0 ∧
    (nestedState.d0.inodes 1).size = 32 ∧
    wfs_rmdir 7 nestedState (ascii "/a") = some (-ENOTEMPTY, nestedState) :=
  ⟨by decide!, by decide!, by decide!,
   rmdir_not_empty 7 nestedState (ascii "/a") 1 1 (by decide!) (by decide) (by decide!)
     (by decide!)⟩

set_option maxRecDepth 1000000 in
/-- C12 (link counts after nested mkdir), evaluated: on a fresh mirrored pair
mkdir `/a` and mkdir `/a/b` both return 0, `/a` is inode 1 and `/a/b` inode 2;
the root goes from 2 links to 3, but `/a` has 1 link after its creation and 2
after the creation of `/a/b` (not 2 and 3), and `/a/b` has 1. -/
theorem mkdir_link_counts :
    nestedMkdirScenario = some [0, 0, 1, 2, 2, 3, 1, 3, 2, 1] := by decide!

set_option maxRecDepth 1000000 in
/-- C13 (mkdir/rmdir round trip), evaluated on a fresh mirrored pair.  For the
name `a`: mkdir, rmdir, rmdir return 0, 0, `-ENOENT`, and the link count (2)
and size (0) of the root and byte 0 of the inode bitmap (1) are as before the
mkdir, so that the next allocation returns index 1 again.  For a name of 28
bytes: mkdir returns 0, but the path does not resolve afterwards (-1) and
rmdir returns `-ENOENT`; the root keeps 3 links, size 32 and the inode bit. -/
theorem mkdir_rmdir_round_trip :
    mkdirRmdirScenario (ascii "a") = some [0, 0, -ENOENT, 2, 2, 0, 0, 1, 1, 1, 1] ∧
    mkdirRmdirScenario (List.replicate 28 97)
      = some [0, -ENOENT, -ENOENT, 2, 3, 0, 32, 1, 3, -1, 2] := by
  constructor <;> decide!

set_option maxRecDepth 1000000 in
/-- C15 (readdir listing), evaluated on a fresh mirrored pair after mkdir `/a`
and mkdir `/a/b`: readdir of `/a` returns 0 and emits `.`, `..`, `b`; readdir
of `/` returns 0 and emits `.`, `..`, `a` and then `..` a second time (the
entry that `mkfs` wrote into slot 1 of the first data block); readdir of a
missing path returns `-ENOENT`. -/
theorem readdir_root_lists_stale_entry :
    readdirScenario = some ([0, 0, 0, 0, -ENOENT],
      [ascii ".", ascii "..", ascii "b"],
      [ascii ".", ascii "..", ascii "a", ascii ".."]) := by decide!

set_option maxRecDepth 1000000 in
/-- C18 (maximum file size), evaluated on a fresh file of a mirrored pair with
`IND_BLOCK = 7` (limit 71 * 512).  One byte written at the limit: the call
returns `-ENOSPC`, size and data bitmap stay.  Two bytes written at the last
offset below the limit: the call returns 1.  One byte written at offset
`2^32 + 7 * 512`, far past the limit: the call returns 1, the size becomes 1,
two data blocks are allocated (byte 0 of the data bitmap goes from 1 to 7) and
the byte is stored in the block of slot 0 of the indirect block. -/
theorem write_past_limit :
    pastLimitScenario (71 * 512) (ascii "A") = some [-ENOSPC, 0, 1, 1, 0] ∧
    (pastLimitScenario (71 * 512 - 1) (ascii "AB")).map (fun l => l.take 2) = some [1, 1] ∧
    pastLimitScenario (4294967296 + 7 * 512) (ascii "A") = some [1, 1, 1, 7, 65] := by
  refine ⟨?_, ?_, ?_⟩ <;> decide!

set_option maxRecDepth 1000000 in
/-- C20 (root invariant), evaluated in striped mode on one disk: mknod `/f`
returns 0 and leaves bit 0 of the inode bitmap set and inode 0 with mode
`S_IFDIR | 0755` (16877); then `unlink /` returns 0 and leaves bit 0 clear and
inode 0 zeroed (mode 0). -/
theorem unlink_root_destroys_root :
    unlinkRootScenario = some [0, 0, 1, 16877, 0, 0] := by decide!

end Wfs

namespace Wfs

/-! ## The formatter, the board check and path splitting -/

set_option maxRecDepth 1000000 in
/-- C21 (fails): in mirrored mode `main` of `mkfs.c` compares `fs_size` with
the size of the last disk only (`st` holds the result of the last `stat`).
Whenever it returns -1, either the mode is striped and `fs_size` exceeds
`total_disk_space / disk_count`, or the mode is mirrored and `fs_size` exceeds
the size of the last disk.  With a first disk of 100 bytes and a second disk of
1 MiB the rule of the spec refuses (`fs_size` is 32832), and `main` does not
return -1: it goes on to map the disks and runs into the end of the first
image.  With the same disks in the other order it returns -1. -/
theorem mkfs_checks_last_disk_only :
    (∀ (SB D : Nat) (raid : Int) (imgs : List Image) (iArg bArg : Int) (uid gid : Nat)
        (now : Int),
        (mkfs_main SB D raid imgs iArg bArg uid gid now).map Prod.fst = some (-1) →
        (raid = 0 ∧ fsSize SB (roundup iArg 32) (roundup bArg 32) >
            cdiv (((imgs.map (fun f => f.st_size)).sum : Nat) : Int) imgs.length) ∨
        (raid = 1 ∧ fsSize SB (roundup iArg 32) (roundup bArg 32) >
            (((imgs.getLast?.map (fun f => f.st_size)).getD 0 : Nat) : Int))) ∧
    fsSize 56 (roundup 32 32) (roundup 32 32) = 32832 ∧
    specRefuses 1 32832 [100, 1048576] ∧
    (mkfs_main 56 7 1 [zeroImage 100, zeroImage 1048576] 32 32 1000 1000 100).map Prod.fst
      = none ∧
    (mkfs_main 56 7 1 [zeroImage 1048576, zeroImage 100] 32 32 1000 1000 100).map Prod.fst
      = some (-1) := by
  refine ⟨?_, by decide, Or.inl ⟨rfl, 100, by simp, by decide⟩, by decide!, by decide!⟩
  intro SB D raid imgs iArg bArg uid gid now h
  unfold mkfs_main at h
  by_cases c1 : raid ≠ -1 ∧ raid ≠ 0 ∧ raid ≠ 1
  · rw [if_pos c1] at h; simp at h
  rw [if_neg c1] at h
  by_cases c2 : imgs.length > 10
  · rw [if_pos c2] at h; simp at h
  rw [if_neg c2] at h
  by_cases c3 : ¬ (intOk (roundup iArg 32) ∧ intOk (roundup bArg 32))
  · rw [if_pos c3] at h; simp at h
  rw [if_neg c3] at h
  dsimp only at h
  by_cases c4 : raid = -1 ∨ imgs.length = 0 ∨ roundup iArg 32 = 0 ∨ roundup bArg 32 = 0
  · rw [if_pos c4] at h; simp at h
  rw [if_neg c4] at h
  by_cases c5 : raid = 1 ∧ imgs.length < 2
  · rw [if_pos c5] at h; simp at h
  rw [if_neg c5] at h
  by_cases c6 : ¬ (intOk (roundup iArg 32 * BLOCK_SIZE) ∧ intOk (roundup bArg 32 * BLOCK_SIZE))
  · rw [if_pos c6] at h; simp at h
  rw [if_neg c6] at h
  split_ifs at h with c7 c8 c9
  · exact c7
  · cases imgs <;> simp at h
  · cases imgs <;> simp at h
  · cases imgs <;> simp at h

/-- The general part of `mkfs_checks_last_disk_only` at two disks of 1 MiB and
100 bytes: the refusal is due to the last disk. -/
theorem mkfs_checks_last_disk_only_witness :
    (mkfs_main 56 7 1 [zeroImage 1048576, zeroImage 100] 32 32 1000 1000 100).map Prod.fst
      = some (-1) ∧
    ((1 : Int) = 0 ∧ fsSize 56 (roundup 32 32) (roundup 32 32) >
        cdiv ((([zeroImage 1048576, zeroImage 100].map (fun f => f.st_size)).sum : Nat) : Int)
          [zeroImage 1048576, zeroImage 100].length ∨
      (1 : Int) = 1 ∧ fsSize 56 (roundup 32 32) (roundup 32 32) >
        ((([zeroImage 1048576, zeroImage 100].getLast?.map (fun f => f.st_size)).getD 0 : Nat)
          : Int)) :=
  ⟨mkfs_checks_last_disk_only.2.2.2.2,
   mkfs_checks_last_disk_only.1 56 7 1 [zeroImage 1048576, zeroImage 100] 32 32 1000 1000 100
     mkfs_checks_last_disk_only.2.2.2.2⟩

/-- C22 (fails): `valid_board` compares a letter with the letters to its right
on the same side and with the letters at the same position of the later sides
only.  On every board of `sides` sides with `letters` letters each it returns
0 exactly when there are at least 3 sides, no side holds a letter twice and no
two sides hold the same letter at the same position.  The board `abc`, `dae`,
`fgh` has 3 sides of 3 letters each and holds the letter `a` twice, and
`valid_board` returns 0; with the second `a` below the first one (`abc`,
`ade`, `fgh`) it returns 1. -/
theorem valid_board_accepts_repeated_letter :
    (∀ (board : List (List Nat)) (sides letters : Nat), board.length = sides →
      (∀ row ∈ board, row.length = letters) → letters < 2 ^ 31 →
      (valid_board board sides letters = some 0 ↔
        3 ≤ sides ∧
        (∀ i j j', i < sides → j < j' → j' < letters → cell board i j ≠ cell board i j') ∧
        (∀ i i' j, i < i' → i' < sides → j < letters → cell board i j ≠ cell board i' j))) ∧
    valid_board [ascii "abc", ascii "dae", ascii "fgh"] 3 3 = some 0 ∧
    [ascii "abc", ascii "dae", ascii "fgh"].length = 3 ∧
    (∀ row ∈ [ascii "abc", ascii "dae", ascii "fgh"], row.length = 3) ∧
    occurrences [ascii "abc", ascii "dae", ascii "fgh"] 97 = 2 ∧
    valid_board [ascii "abc", ascii "ade", ascii "fgh"] 3 3 = some 1 := by
  refine ⟨fun board sides letters hs hr hl => (valid_board_spec board sides letters hs hr hl).2,
    by decide, by decide, by decide, by decide, by decide⟩

/-- The general part of `valid_board_accepts_repeated_letter` on the board
`abc`, `dae`, `fgh`. -/
theorem valid_board_accepts_repeated_letter_witness :
    valid_board [ascii "abc", ascii "dae", ascii "fgh"] ((3 : Nat) : Int) ((3 : Nat) : Int)
        = some 0 ↔
      3 ≤ 3 ∧
      (∀ i j j', i < 3 → j < j' → j' < 3 →
        cell [ascii "abc", ascii "dae", ascii "fgh"] i j
          ≠ cell [ascii "abc", ascii "dae", ascii "fgh"] i j') ∧
      (∀ i i' j, i < i' → i' < 3 → j < 3 →
        cell [ascii "abc", ascii "dae", ascii "fgh"] i j
          ≠ cell [ascii "abc", ascii "dae", ascii "fgh"] i' j) :=
  valid_board_accepts_repeated_letter.1 [ascii "abc", ascii "dae", ascii "fgh"] 3 3
    (by decide) (by decide) (by decide)

/-- C29 (fails): `strncpy(…, MAX_NAME)` caps child and parent at `MAX_NAME`
bytes, not at `MAX_NAME - 1`, and a component of `MAX_NAME` bytes or more
leaves its buffer without a terminator.  Child and parent are empty when the
path has no `/` or ends with `/`; otherwise child is the suffix after the last
`/` and parent the prefix before it, each cut after `MAX_NAME` bytes.  For `/`
followed by 28 letters `a` the child buffer holds 28 letters and no NUL. -/
theorem parseParentChild_cap :
    (∀ path : List Nat, 47 ∉ path → parseParentChild path = ([], [])) ∧
    (∀ pre : List Nat, parseParentChild (pre ++ [47]) = ([], [])) ∧
    (∀ pre suf : List Nat, 47 ∉ suf → suf ≠ [] →
      parseParentChild (pre ++ 47 :: suf) = (suf.take MAX_NAME, pre.take MAX_NAME)) ∧
    (parseParentChild (47 :: List.replicate 28 97)).1 = List.replicate MAX_NAME 97 := by
  have key : ∀ (pre suf : List Nat), 47 ∉ suf → ∀ n, n ≤ suf.length →
      lastSlash (pre ++ 47 :: suf) (pre.length + 1 + n) = some pre.length := by
    intro pre suf hs n
    induction n with
    | zero =>
      intro _
      show (if (pre ++ 47 :: suf).getD pre.length 0 = 47 then some pre.length
        else lastSlash (pre ++ 47 :: suf) pre.length) = some pre.length
      rw [if_pos]
      rw [List.getD_eq_getElem?_getD, List.getElem?_append_right (le_refl _)]
      simp
    | succ n ih =>
      intro hn
      show (if (pre ++ 47 :: suf).getD (pre.length + 1 + n) 0 = 47
        then some (pre.length + 1 + n)
        else lastSlash (pre ++ 47 :: suf) (pre.length + 1 + n)) = some pre.length
      have hne : (pre ++ 47 :: suf).getD (pre.length + 1 + n) 0 ≠ 47 := by
        have h1 : (pre ++ 47 :: suf).getD (pre.length + 1 + n) 0 = suf.getD n 0 := by
          simp only [List.getD_eq_getElem?_getD]
          rw [List.getElem?_append_right (by omega)]
          have : pre.length + 1 + n - pre.length = n + 1 := by omega
          rw [this]
          simp
        rw [h1, List.getD_eq_getElem?_getD, List.getElem?_eq_getElem (by omega)]
        intro h47
        exact hs (by
          have := List.getElem_mem (l := suf) (n := n) (by omega)
          simp only [Option.getD_some] at h47
          rwa [h47] at this)
      rw [if_neg hne]
      exact ih (by omega)
  have none_of : ∀ (path : List Nat), 47 ∉ path → ∀ n, n ≤ path.length →
      lastSlash path n = none := by
    intro path hp n
    induction n with
    | zero => intro _; rfl
    | succ n ih =>
      intro hn
      show (if path.getD n 0 = 47 then some n else lastSlash path n) = none
      have hne : path.getD n 0 ≠ 47 := by
        rw [List.getD_eq_getElem?_getD, List.getElem?_eq_getElem (by omega)]
        intro h47
        exact hp (by
          have := List.getElem_mem (l := path) (n := n) (by omega)
          simp only [Option.getD_some] at h47
          rwa [h47] at this)
      rw [if_neg hne]
      exact ih (by omega)
  refine ⟨?_, ?_, ?_, by decide⟩
  · intro path hp
    unfold parseParentChild
    rw [none_of path hp _ le_rfl]
  · intro pre
    unfold parseParentChild
    have h := key pre [] (by simp) 0 (by simp)
    have e : (pre ++ [47]).length = pre.length + 1 + 0 := by simp
    rw [e, h]
    simp
  · intro pre suf hs hne
    unfold parseParentChild
    have h := key pre suf hs suf.length le_rfl
    have e : (pre ++ 47 :: suf).length = pre.length + 1 + suf.length := by
      simp; omega
    rw [e, h]
    have hl : 0 < suf.length := List.length_pos.mpr hne
    have : pre.length ≠ pre.length + 1 + suf.length - 1 := by omega
    simp only [this, if_false]
    congr 1
    · congr 1
      simp
    · congr 1
      simp

/-- The split of `/ab/cd` by `parseParentChild_cap`. -/
theorem parseParentChild_cap_witness :
    47 ∉ ascii "cd" ∧ ascii "cd" ≠ [] ∧
    parseParentChild (ascii "/ab" ++ 47 :: ascii "cd")
      = ((ascii "cd").take MAX_NAME, (ascii "/ab").take MAX_NAME) :=
  ⟨by decide, by decide, parseParentChild_cap.2.2.1 (ascii "/ab") (ascii "cd") (by decide) (by decide)⟩

/-! ## Evaluated call sequences -/

set_option maxRecDepth 1000000 in
/-- C24 (fails), evaluated on a fresh mirrored pair: `mkfs` writes the entries
`.` and `..` into the first data block without counting them in the size of
the root, and the first entry that `wfs_mknod` adds to the root overwrites only
the first of them.  After mkdir `/a` (return value 0) the root has size 32,
that is one entry, and its block holds two slots with a non-zero first name
byte. -/
theorem mkdir_leaves_stale_slot :
    packingScenario = some [0, 32, 1, 2] := by
  decide!

/-- C26 (fails): `wfs_mknod` does not touch `blocks[]` of the inode that it
initialises.  Whenever it returns 0 for a path whose parent directory has its
bit set in the inode bitmap, the new inode is the lowest clear bit `k`, it has
`num = k`, the mode of the call, size 0, `nlinks` 1 and the times of the call,
and `blocks` as the inode block held them before; the size of the parent has
grown by one entry, and the entry (name, `k`) stands in the parent at the
position of its old size.  Evaluated on a fresh mirrored pair: after mknod
`/a`, `/b`, `/c`, unlink `/c/` (which frees inode 3 and leaves its entry),
unlink `/b/`, mknod `/x` (all return 0) and a write of one byte to `/c`
(returns 1), bit 3 of the inode bitmap is clear and `blocks[0]` of inode 3 is
17408.  Then mknod `/y` returns 0, `/y` resolves to inode 3, the lowest clear
bit, with size 0 and `nlinks` 1, and its `blocks[0]` is still 17408. -/
theorem mknod_keeps_block_pointers :
    (∀ (D : Nat) (s s' : FS) (path : List Nat) (mode uid gid : Nat) (clock : Nat → Int)
        (pidx : Nat),
      wfs_mknod D s path mode uid gid clock = some (0, s') →
      parsePath D s (parseParentChild path).2 = some (pidx : Int) →
      bitOf s.d0.imap pidx ≠ 0 →
      ∃ k, k < s.iCount ∧ bitOf s.d0.imap k = 0 ∧ (∀ j, j < k → bitOf s.d0.imap j ≠ 0) ∧
        s'.d0.inodes k = { s.d0.inodes k with
          num := k, mode := mode, uid := uid, gid := gid, size := 0, nlinks := 1,
          atim := clock 3, mtim := clock 3, ctim := clock 3 } ∧
        (s'.d0.inodes pidx).size = (s.d0.inodes pidx).size + DENTRY_SIZE ∧
        ∃ loc : Nat,
          (loc : Int) = (((s'.d0.inodes pidx).blocks.getD
              (wrap32 (cdiv (s.d0.inodes pidx).size BLOCK_SIZE)).toNat 0 : Nat) : Int)
            + wrap32 (cmod (s.d0.inodes pidx).size BLOCK_SIZE) ∧
          memLoad s'.d0.mem loc DENTRY_SIZE
            = padName (parseParentChild path).1 ++ encode32 k) ∧
    reuseScenario = some ([0, 0, 0, 0, 0, 0, 1], [0, 17408, 0, 3, 0, 1, 17408]) :=
  ⟨fun D s s' path mode uid gid clock pidx h hpp hpa =>
      wfs_mknod_post D s s' path mode uid gid clock pidx h hpp hpa,
   reuse_facts.1⟩

/-- The general part of `mknod_keeps_block_pointers` at the call mknod `/y`
of the scenario, where inode 3 is free and holds the block pointer 17408. -/
theorem mknod_keeps_block_pointers_witness :
    (bitOf reuseState.d0.imap 3 = 0 ∧
      (reuseState.d0.inodes 3).blocks = [17408, 0, 0, 0, 0, 0, 0, 0]) ∧
    ∃ k, k < reuseState.iCount ∧ bitOf reuseState.d0.imap k = 0 ∧
      (∀ j, j < k → bitOf reuseState.d0.imap j ≠ 0) ∧
      reuseEnd.d0.inodes k = { reuseState.d0.inodes k with
        num := k, mode := regMode, uid := 1000, gid := 1000, size := 0, nlinks := 1,
        atim := clockAt 300 3, mtim := clockAt 300 3, ctim := clockAt 300 3 } ∧
      (reuseEnd.d0.inodes 0).size = (reuseState.d0.inodes 0).size + DENTRY_SIZE ∧
      ∃ loc : Nat,
        (loc : Int) = (((reuseEnd.d0.inodes 0).blocks.getD
            (wrap32 (cdiv (reuseState.d0.inodes 0).size BLOCK_SIZE)).toNat 0 : Nat) : Int)
          + wrap32 (cmod (reuseState.d0.inodes 0).size BLOCK_SIZE) ∧
        memLoad reuseEnd.d0.mem loc DENTRY_SIZE
          = padName (parseParentChild (ascii "/y")).1 ++ encode32 k :=
  ⟨⟨reuse_facts.2.2.2.2.1, reuse_facts.2.2.2.2.2⟩,
   mknod_keeps_block_pointers.1 7 reuseState reuseEnd (ascii "/y") regMode 1000 1000
     (clockAt 300) 0 reuseEnd_eq reuse_facts.2.2.1 reuse_facts.2.2.2.1⟩

set_option maxRecDepth 1000000 in
/-- C27 (fails), evaluated in striped mode on one disk image whose bytes were
all 255 before `mkfs -i 32 -b 32`: `mkfs` clears `fs_size` = 32832 bytes, and
the data region ends at 33280, so the last data block keeps old bytes after its
first 64.  After mknod `/g` and 29 writes that take the data blocks 1 to 30,
mknod `/f` returns 0 and a write to `/f` at offset 3584 returns `-ENOSPC`
after it made the last data block the indirect block of `/f`: inode 2 is
allocated, its `blocks[7]` is 32768, the offset of data block 31 whose bit is
set, the slots 0 and 7 of that block are 0, and slot 8 holds 2^64 - 1, which is
neither 0 nor an offset inside the data region. -/
theorem indirect_block_not_cleared :
    lastBlockScenario
      = some ([0, -28], [1, 32768, 31, 1, 33280, 0, 0, 18446744073709551615]) := by
  decide!

set_option maxRecDepth 1000000 in
/-- C30 (fails), evaluated on a fresh mirrored pair: for `/` followed by a
name of 28 bytes, `wfs_mknod` returns 0, `parsePath` of the same path returns
-1 right afterwards, and a second `wfs_mknod` of the same path returns 0 again
instead of `-EEXIST`.  For `/a` the path resolves to inode 1 and the second
call returns `-EEXIST`. -/
theorem long_name_does_not_resolve :
    createResolveScenario (List.replicate 28 97) = some [0, -1, 0] ∧
    createResolveScenario (ascii "a") = some [0, 1, -17] := by
  decide!

/-! ## The superblock -/

/-- C28: for requested counts of at least 1, (i) `main` of `mkfs.c` formats
the disks and returns 0 whenever the sizes of the regions add up to less than
2^31, the mode is striped or mirrored with at least two disks, there are one to
ten disks, and every image is at least `fs_size` bytes long; (ii) the
superblock of every run that formatted the disks has `num_inodes` and
`num_data_blocks` equal to the least multiples of 32 that are at least the
requested counts, `i_bitmap_ptr = sizeof(struct wfs_sb)`,
`d_bitmap_ptr = i_bitmap_ptr + num_inodes / 8`, `i_blocks_ptr` a multiple of
`BLOCK_SIZE` that is at least `d_bitmap_ptr + num_data_blocks / 8`, and
`d_blocks_ptr` a multiple of `BLOCK_SIZE` that is at least
`i_blocks_ptr + num_inodes * BLOCK_SIZE`: each region starts at or after the
end of the one before. -/
theorem superblock_layout (SB D : Nat) (raid : Int) (imgs : List Image) (iArg bArg : Int)
    (uid gid : Nat) (now : Int) (hi : 1 ≤ iArg) (hb : 1 ≤ bArg) :
    ((SB : Int) + roundup iArg 32 / 8 + roundup bArg 32 / 8
        + roundup iArg 32 * 512 + roundup bArg 32 * 512 < 2147483648 →
      (raid = 0 ∨ (raid = 1 ∧ 2 ≤ imgs.length)) →
      (1 ≤ imgs.length ∧ imgs.length ≤ 10) →
      (∀ img ∈ imgs, fsSize SB (roundup iArg 32) (roundup bArg 32) ≤ (img.st_size : Int)) →
      ∃ s0, mkfs_main SB D raid imgs iArg bArg uid gid now = some (0, some s0)) ∧
    (∀ s0, formatted (mkfs_main SB D raid imgs iArg bArg uid gid now) = some s0 →
      (s0.d0.sb.num_inodes % 32 = 0 ∧ iArg ≤ (s0.d0.sb.num_inodes : Int) ∧
        ∀ m : Nat, m % 32 = 0 → iArg ≤ (m : Int) → s0.d0.sb.num_inodes ≤ m) ∧
      (s0.d0.sb.num_data_blocks % 32 = 0 ∧ bArg ≤ (s0.d0.sb.num_data_blocks : Int) ∧
        ∀ m : Nat, m % 32 = 0 → bArg ≤ (m : Int) → s0.d0.sb.num_data_blocks ≤ m) ∧
      s0.d0.sb.i_bitmap_ptr = SB ∧
      s0.d0.sb.d_bitmap_ptr = s0.d0.sb.i_bitmap_ptr + s0.d0.sb.num_inodes / 8 ∧
      s0.d0.sb.i_blocks_ptr % BLOCK_SIZE = 0 ∧
      s0.d0.sb.d_bitmap_ptr + s0.d0.sb.num_data_blocks / 8 ≤ s0.d0.sb.i_blocks_ptr ∧
      s0.d0.sb.d_blocks_ptr % BLOCK_SIZE = 0 ∧
      s0.d0.sb.i_blocks_ptr + s0.d0.sb.num_inodes * BLOCK_SIZE ≤ s0.d0.sb.d_blocks_ptr) := by
  refine ⟨fun fit hr hn hs => mkfs_main_total SB D raid imgs iArg bArg uid gid now hi hb fit hr hn hs,
    ?_⟩
  intro s0 h
  obtain ⟨r, h⟩ := formatted_some _ _ h
  obtain ⟨-, -, -, -, o1, o2, sm, img0, rest, -, e, -⟩ := mkfs_main_some _ _ _ _ _ _ _ _ _ _ _ h
  obtain ⟨a1, a2, a3⟩ := roundup_32 iArg (by omega)
  obtain ⟨b1, b2, b3⟩ := roundup_32 bArg (by omega)
  generalize roundup iArg 32 = ni at *
  generalize roundup bArg 32 = nd at *
  obtain ⟨l1, l2, l3, l4⟩ := layout_arith SB ni nd (by omega) (by omega) a1 b1 o1 o2 sm
  have ci : cdiv ni 8 = ni / 8 := by unfold cdiv; rw [if_pos (show 0 ≤ ni by omega)]; rfl
  have e1 : s0.d0.sb.num_inodes = ni.toNat := by rw [e]; rfl
  have e2 : s0.d0.sb.num_data_blocks = nd.toNat := by rw [e]; rfl
  have e3 : s0.d0.sb.i_bitmap_ptr = SB := by rw [e]; rfl
  have e4 : s0.d0.sb.d_bitmap_ptr = ((SB : Int) + ni / 8).toNat := by rw [e, ← ci]; rfl
  have e5 : s0.d0.sb.i_blocks_ptr = (iBlocksPtr SB ni nd).toNat := by rw [e]; rfl
  have e6 : s0.d0.sb.d_blocks_ptr = (dBlocksPtr SB ni nd).toNat := by rw [e]; rfl
  rw [e1, e2, e3, e4, e5, e6]
  unfold BLOCK_SIZE
  generalize iBlocksPtr SB ni nd = ip at *
  generalize dBlocksPtr SB ni nd = dp at *
  refine ⟨⟨by omega, by omega, fun m m1 m2 => by omega⟩,
    ⟨by omega, by omega, fun m m1 m2 => by omega⟩, rfl, by omega, by omega, by omega, by omega,
    by omega⟩

/-- C28 on two zeroed images of 1 MiB with `-i 32 -b 32` in mirrored mode. -/
theorem superblock_layout_witness :
    (∃ s0, mkfs_main 56 7 1 (List.replicate 2 (zeroImage 1048576)) 32 32 1000 1000 100
      = some (0, some s0)) ∧
    (full0.d0.sb.num_inodes % 32 = 0 ∧ (32 : Int) ≤ (full0.d0.sb.num_inodes : Int) ∧
        ∀ m : Nat, m % 32 = 0 → (32 : Int) ≤ (m : Int) → full0.d0.sb.num_inodes ≤ m) ∧
      (full0.d0.sb.num_data_blocks % 32 = 0 ∧ (32 : Int) ≤ (full0.d0.sb.num_data_blocks : Int) ∧
        ∀ m : Nat, m % 32 = 0 → (32 : Int) ≤ (m : Int) → full0.d0.sb.num_data_blocks ≤ m) ∧
      full0.d0.sb.i_bitmap_ptr = 56 ∧
      full0.d0.sb.d_bitmap_ptr = full0.d0.sb.i_bitmap_ptr + full0.d0.sb.num_inodes / 8 ∧
      full0.d0.sb.i_blocks_ptr % BLOCK_SIZE = 0 ∧
      full0.d0.sb.d_bitmap_ptr + full0.d0.sb.num_data_blocks / 8 ≤ full0.d0.sb.i_blocks_ptr ∧
      full0.d0.sb.d_blocks_ptr % BLOCK_SIZE = 0 ∧
      full0.d0.sb.i_blocks_ptr + full0.d0.sb.num_inodes * BLOCK_SIZE
        ≤ full0.d0.sb.d_blocks_ptr :=
  ⟨(superblock_layout 56 7 1 (List.replicate 2 (zeroImage 1048576)) 32 32 1000 1000 100
      (by decide) (by decide)).1 (by decide) (Or.inr ⟨rfl, by decide⟩) (by decide)
      (by intro img hm; rw [List.eq_of_mem_replicate hm]; decide),
   (superblock_layout 56 7 1 (List.replicate 2 (zeroImage 1048576)) 32 32 1000 1000 100
      (by decide) (by decide)).2 full0 full0_eq⟩

/-! ## Voting and removal -/

/-- C23: for at least one disk and every assignment of block copies to the
disks, the disk that the voting loop of `wfs_read` selects (the loop counts for
disk `d` the copy of `d` and the equal copies on later disks only) is the
winner of the rule of the spec: it is the result of the fold that keeps the
first disk with the highest number of equal copies, itself included; no disk
has a higher number, every disk with a lower index has a lower number, and it
is the only disk with these two properties. -/
theorem vote_selects_spec_winner (blockBuf : List (List Nat)) (h : blockBuf ≠ []) :
    bestDisk blockBuf = specWinner blockBuf ∧ IsWinner blockBuf (bestDisk blockBuf) ∧
    ∀ r, IsWinner blockBuf r → r = bestDisk blockBuf :=
  ⟨isWinner_unique blockBuf _ _ (bestDisk_isWinner blockBuf h) (specWinner_isWinner blockBuf h),
   bestDisk_isWinner blockBuf h,
   fun _ hr => isWinner_unique blockBuf _ _ hr (bestDisk_isWinner blockBuf h)⟩

/-- C23 on five disks whose copies form the groups {0, 4} and {1, 2, 3}: disk
1 is selected. -/
theorem vote_selects_spec_winner_witness :
    bestDisk [[1], [2], [2], [2], [1]] = 1 ∧
    bestDisk [[1], [2], [2], [2], [1]] = specWinner [[1], [2], [2], [2], [1]] ∧
    IsWinner [[1], [2], [2], [2], [1]] (bestDisk [[1], [2], [2], [2], [1]]) ∧
    ∀ r, IsWinner [[1], [2], [2], [2], [1]] r → r = bestDisk [[1], [2], [2], [2], [1]] :=
  ⟨by decide, vote_selects_spec_winner [[1], [2], [2], [2], [1]] (by decide)⟩

end Wfs

namespace Wfs

/-! ## The data region and the mapped size -/

set_option maxRecDepth 1000000 in
/-- C31 (fails): `fs_size` is the sum of the sizes of the superblock, the two
bitmaps, the inode table and the data region, while `i_blocks_ptr` is rounded
up to a block, so the data region ends after `fs_size` unless superblock and
bitmaps fill whole blocks.  For requested counts of at least 1 and every run
of `mkfs` that formatted the disks: the size that `wfs` maps equals `fs_size`;
the end of the data region, `d_blocks_ptr + num_data_blocks * BLOCK_SIZE`, is
at least `fs_size` and less than `fs_size + BLOCK_SIZE`; and it equals
`fs_size` exactly when `sizeof(struct wfs_sb) + num_inodes / 8 +
num_data_blocks / 8` is a multiple of `BLOCK_SIZE`.  With `-i 32 -b 32` and a
superblock of 56 bytes, `fs_size` and the size that `wfs` maps are 32832, the
last data block starts at 32768 and the data region ends at 33280. -/
theorem data_region_exceeds_fs_size :
    (∀ (SB D : Nat) (raid : Int) (imgs : List Image) (iArg bArg : Int) (uid gid : Nat)
        (now : Int) (s0 : FS), 1 ≤ iArg → 1 ≤ bArg →
      formatted (mkfs_main SB D raid imgs iArg bArg uid gid now) = some s0 →
      wfsMapSize SB s0.d0.sb = fsSize SB (roundup iArg 32) (roundup bArg 32) ∧
      fsSize SB (roundup iArg 32) (roundup bArg 32) ≤ (s0.dataEnd : Int) ∧
      (s0.dataEnd : Int) < fsSize SB (roundup iArg 32) (roundup bArg 32) + BLOCK_SIZE ∧
      ((s0.dataEnd : Int) = fsSize SB (roundup iArg 32) (roundup bArg 32) ↔
        (SB + s0.d0.sb.num_inodes / 8 + s0.d0.sb.num_data_blocks / 8) % BLOCK_SIZE = 0)) ∧
    fsSize 56 (roundup 32 32) (roundup 32 32) = 32832 ∧
    wfsMapSize 56 full0.d0.sb = 32832 ∧
    full0.d0.sb.d_blocks_ptr + BLOCK_SIZE * (full0.d0.sb.num_data_blocks - 1) = 32768 ∧
    full0.dataEnd = 33280 := by
  refine ⟨fun SB D raid imgs iArg bArg uid gid now s0 hi hb h =>
    dataEnd_vs_fsSize SB D raid imgs iArg bArg uid gid now s0 hi hb h, ?_⟩
  decide!

/-- The general part of `data_region_exceeds_fs_size` on two zeroed images of
1 MiB with `-i 32 -b 32` in mirrored mode. -/
theorem data_region_exceeds_fs_size_witness :
    wfsMapSize 56 full0.d0.sb = fsSize 56 (roundup 32 32) (roundup 32 32) ∧
    fsSize 56 (roundup 32 32) (roundup 32 32) ≤ (full0.dataEnd : Int) ∧
    (full0.dataEnd : Int) < fsSize 56 (roundup 32 32) (roundup 32 32) + BLOCK_SIZE ∧
    ((full0.dataEnd : Int) = fsSize 56 (roundup 32 32) (roundup 32 32) ↔
      (56 + full0.d0.sb.num_inodes / 8 + full0.d0.sb.num_data_blocks / 8) % BLOCK_SIZE = 0) :=
  data_region_exceeds_fs_size.1 56 7 1 (List.replicate 2 (zeroImage 1048576)) 32 32 1000 1000
    100 full0 (by decide) (by decide) full0_eq

end Wfs

